import Mathlib

/-! # Thread pool (`threadpool/threadPool.c`)

A shallow embedding of the thread pool: the fields of `ThreadPool`, the
functions that read and write them, and a step function that interleaves the
critical sections of client threads (`tpInsertTask`), of the workers
(`threadLoop`) and of the thread that runs `tpDestroy`.

Conventions.
* Every critical section (the code between `tpLock(TRUE, ..)` and
  `tpLock(FALSE, ..)`) is one atomic step.  The only critical section whose
  outcome can depend on a field guarded by another lock is the one of
  `fetchTask`, which reads `finish` twice while holding `queueLock`; it is
  split in two steps and `queueLock` is modelled explicitly.
* A `while (c) tpWait(..)` loop is a step that is enabled exactly when `c` is
  false when evaluated under the lock.
* `unsigned` fields are natural numbers reduced modulo `2 ^ 32`.
* The paths through `onError` (failure of `malloc` or of a pthread call) end
  the process; they are results `none` of the sequential functions and are not
  steps of the interleaving.
* Once `destroyQueue` has run, `addTask` has no defined behaviour (the queue
  pointer is `NULL`) and is not a step.  The fields of the pool keep their last
  values after `free(threadPool)`.
* The history fields of `Sys` (`rets`, `enq`, `deq`, `begun`, `done`,
  `discarded`, `bounced`) and the serial numbers of the task records are
  bookkeeping: no guard of a step reads them.

Two sequential programs of the repository follow the thread pool, each in its
own namespace: the file comparison of `assignment_tester/file_compare.c`
(`FileCompare`) and the argument parser of `basic_term/term.c` (`Term`).  Their
loops take a fuel argument and return `none` when it runs out; the theorems
give a fuel that is enough.  Failures of system calls (`open`, `read`,
`lseek`) are left out of `FileCompare`.
-/

namespace TP

/-! ## Data model -/

/-- The macro `ERROR` of threadPool.c. -/
def ERROR : Int := -1

/-- The macro `SUCCESS` of threadPool.c. -/
def SUCCESS : Int := 0

/-- Number of values of the C type `unsigned` (`2 ^ 32`). -/
def UINT_MOD : Nat := 4294967296

/-- A `Task` record of threadPool.h.  `id` is the identity of the allocated
block (every `malloc` yields a block distinct from all earlier ones, so a
serial number is used); `func` and `param` are the two C fields. -/
structure Task where
  id : Nat
  func : Nat
  param : Nat
deriving DecidableEq, Repr

/-- The data fields of `ThreadPool` (threadPool.h); the thread array, the
mutexes and the condition variables carry no data. -/
structure ThreadPool where
  destroyed : Bool
  finish : Bool
  size : Nat
  running : Nat
  finished : Nat
  tasks : List Task
deriving DecidableEq, Repr

/-! ## The external queue -/

/-- Modelled from the spec: `osEnqueue` of the external FIFO primitive
(osqueue.h is not among the sources): "an ordered FIFO of opaque work items";
the item is added at the back. -/
def osEnqueue (q : List Task) (t : Task) : List Task := q ++ [t]

/-- Modelled from the spec: `osDequeue` of the external FIFO primitive: removes
and returns the oldest item; on an empty queue there is nothing to return
(`NULL`). -/
def osDequeue (q : List Task) : Option Task × List Task :=
  match q with
  | [] => (none, [])
  | t :: rest => (some t, rest)

/-- Modelled from the spec: `osIsQueueEmpty` of the external FIFO primitive. -/
def osIsQueueEmpty (q : List Task) : Bool := q.isEmpty

/-! ## Sequential functions of threadPool.c -/

/-- `createTask`: `mem` is the outcome of `malloc` (`none` for `NULL`). -/
def createTask (mem : Option Nat) (computeFunc param : Nat) : Option Task :=
  match mem with
  | none => none
  | some a => some { id := a, func := computeFunc, param := param }

/-- `addTask`: `none` is the `onError` exit on a failed allocation. -/
def addTask (mem : Option Nat) (threadPool : ThreadPool) (computeFunc param : Nat) :
    Option ThreadPool :=
  match createTask mem computeFunc param with
  | none => none
  | some task => some { threadPool with tasks := osEnqueue threadPool.tasks task }

/-- `isDestroyed`. -/
def isDestroyed (threadPool : ThreadPool) : Bool := threadPool.destroyed

/-- `tpInsertTask` run without interleaving: the returned code and the pool
afterwards; `none` when the process exits in `addTask`. -/
def tpInsertTask (mem : Option Nat) (threadPool : ThreadPool) (computeFunc param : Nat) :
    Option (Int × ThreadPool) :=
  if isDestroyed threadPool then some (ERROR, threadPool)
  else
    match addTask mem threadPool computeFunc param with
    | none => none
    | some tp => some (SUCCESS, tp)

/-- `setDestroyed`: the value returned (`hasBeenDestroyed`) and the pool
afterwards. -/
def setDestroyed (threadPool : ThreadPool) : Bool × ThreadPool :=
  let hasBeenDestroyed := threadPool.destroyed
  (hasBeenDestroyed,
    if !hasBeenDestroyed then { threadPool with destroyed := true } else threadPool)

/-- `signalThreadsToFinish`. -/
def signalThreadsToFinish (threadPool : ThreadPool) : ThreadPool :=
  { threadPool with finish := true }

/-- `notifyStartTask`: `running += 1` on an `unsigned`. -/
def notifyStartTask (threadPool : ThreadPool) : ThreadPool :=
  { threadPool with running := (threadPool.running + 1) % UINT_MOD }

/-- `notifyFinishedTask`: `running -= 1` on an `unsigned`; at `0` the value
wraps around to `UINT_MAX`. -/
def notifyFinishedTask (threadPool : ThreadPool) : ThreadPool :=
  { threadPool with
    running := if threadPool.running = 0 then UINT_MOD - 1 else threadPool.running - 1 }

/-- `notifyFinished`: `finished++` on an `unsigned`. -/
def notifyFinished (threadPool : ThreadPool) : ThreadPool :=
  { threadPool with finished := (threadPool.finished + 1) % UINT_MOD }

/-- The condition of the `while` loop of `fetchTask`: the worker waits while it
is true. -/
def fetchMustWait (threadPool : ThreadPool) : Bool :=
  !threadPool.finish && osIsQueueEmpty threadPool.tasks

/-- The statement `task = threadPool->finish ? NULL : osDequeue(threadPool->tasks)`
of `fetchTask`. -/
def fetchPick (threadPool : ThreadPool) : Option Task × ThreadPool :=
  if threadPool.finish then (none, threadPool)
  else
    let r := osDequeue threadPool.tasks
    (r.1, { threadPool with tasks := r.2 })

/-- The loop `while (!osIsQueueEmpty(q)) free(osDequeue(q))` of `destroyQueue`:
the records freed, in order, and what is left of the queue. -/
def freeQueued : List Task → List Task × List Task
  | [] => ([], [])
  | t :: rest => (t :: (freeQueued rest).1, (freeQueued rest).2)

/-- `destroyQueue`: the records freed and the pool afterwards. -/
def destroyQueue (threadPool : ThreadPool) : List Task × ThreadPool :=
  ((freeQueued threadPool.tasks).1, { threadPool with tasks := (freeQueued threadPool.tasks).2 })

/-- The condition of the `while` loop of `waitForPendingTasks`. -/
def pendingMustWait (threadPool : ThreadPool) : Bool := !osIsQueueEmpty threadPool.tasks

/-- The condition of the `while` loop of `waitForRunningTasks`. -/
def runningMustWait (threadPool : ThreadPool) : Bool := decide (threadPool.running > 0)

/-- The condition of the `while` loop of `destroyThreads`. -/
def finishedMustWait (threadPool : ThreadPool) : Bool :=
  decide (threadPool.finished < threadPool.size)

/-! ## Threads -/

/-- Where a worker stands in `threadLoop`. -/
inductive WorkerPc where
  /-- About to evaluate `while (!threadPool->finish)`. -/
  | loop
  /-- In `fetchTask`, before or inside the wait loop (`queueLock` not held
  while waiting). -/
  | fetching
  /-- In `fetchTask`, past the wait loop, holding `queueLock`. -/
  | picking
  /-- `fetchTask` returned the task; `doTask` not yet entered. -/
  | got (t : Task)
  /-- `notifyStartTask` done; `task->func` not yet called. -/
  | accounted (t : Task)
  /-- Inside `task->func(task->param)`. -/
  | inFunc (t : Task)
  /-- The function returned and the record was freed; `notifyFinishedTask`
  not yet run. -/
  | ran
  /-- The loop of `threadLoop` is left; `notifyFinished` not yet run. -/
  | exiting
  /-- `notifyFinished` done; the thread is over. -/
  | exited
deriving DecidableEq, Repr

/-- Where the thread that passed the gate of `tpDestroy` stands. -/
inductive DestroyPc where
  /-- No call has passed `setDestroyed` yet. -/
  | idle
  /-- In `waitForPendingTasks`. -/
  | pending
  /-- About to run `signalThreadsToFinish` (called from `tpDestroy`). -/
  | signal
  /-- In `waitForRunningTasks`. -/
  | waitRunning
  /-- In `destroyPool`, `destroyThreads`: about to run `signalThreadsToFinish`. -/
  | signalAgain
  /-- In `destroyThreads`: waiting for `finished < size` to fail. -/
  | waitFinished
  /-- The thread array is freed; about to run `destroyQueue`. -/
  | destroyQ
  /-- The queue is destroyed (`tasks == NULL`); about to destroy the remaining
  primitives and free the pool. -/
  | freePool
  /-- The call to `tpDestroy` returned. -/
  | returned
deriving DecidableEq, Repr

/-- The task a worker has in hand (dequeued, its function not yet returned). -/
def WorkerPc.held : WorkerPc → Option Task
  | .got t => some t
  | .accounted t => some t
  | .inFunc t => some t
  | _ => none

/-- The worker is between `notifyStartTask` and `notifyFinishedTask`. -/
def WorkerPc.counted : WorkerPc → Bool
  | .accounted _ => true
  | .inFunc _ => true
  | .ran => true
  | _ => false

/-- The worker has run `notifyFinished`. -/
def WorkerPc.isExited : WorkerPc → Bool
  | .exited => true
  | _ => false

/-- The whole system: the pool, the threads, and a history of what happened
(the history fields are never read by a step). -/
structure Sys where
  pool : ThreadPool
  /-- `queueLock` is held by a worker between the two steps of `fetchTask`. -/
  queueLocked : Bool
  workers : List WorkerPc
  /-- Calls of `tpInsertTask` that passed `isDestroyed` and have not run
  `addTask` yet, with their arguments. -/
  inserting : List (Nat × Nat)
  dpc : DestroyPc
  /-- The argument `shouldWaitForTasks` of the call that passed the gate. -/
  shouldWait : Bool
  /-- Serial number of the next allocated `Task`. -/
  nextId : Nat
  /-- History: the codes returned by the calls of `tpInsertTask`, in order. -/
  rets : List Int
  /-- History: the tasks enqueued by `addTask`, in order. -/
  enq : List Task
  /-- History: the tasks dequeued by workers in `fetchTask`, in order. -/
  deq : List Task
  /-- History: the tasks whose function was called, in order. -/
  begun : List Task
  /-- History: the tasks whose function returned, in order. -/
  done : List Task
  /-- History: the tasks freed, unexecuted, by `destroyQueue`. -/
  discarded : List Task
  /-- History: how many calls of `tpDestroy` returned at the gate. -/
  bounced : Nat
deriving DecidableEq, Repr

/-- What can happen next. -/
inductive Label where
  /-- A client enters `tpInsertTask` and runs `isDestroyed`. -/
  | insertCheck (computeFunc param : Nat)
  /-- The `i`-th client past the check runs `addTask`, `awakeThread` and
  returns `SUCCESS`. -/
  | insertAdd (i : Nat)
  /-- Worker `w` runs its next step. -/
  | worker (w : Nat)
  /-- A thread enters `tpDestroy` and runs `setDestroyed`. -/
  | destroyCall (shouldWaitForTasks : Int)
  /-- The thread that passed the gate runs its next step. -/
  | destroyer
deriving DecidableEq, Repr

/-- `tpCreate`: the fields as initialised, and `size` workers started at the
top of `threadLoop` (`size` is the `int` argument converted to `unsigned`). -/
def tpCreate (numOfThreads : Int) : Sys :=
  { pool :=
      { destroyed := false, finish := false, size := (numOfThreads % (UINT_MOD : Int)).toNat,
        running := 0, finished := 0, tasks := [] }
    queueLocked := false
    workers := List.replicate (numOfThreads % (UINT_MOD : Int)).toNat WorkerPc.loop
    inserting := []
    dpc := .idle
    shouldWait := false
    nextId := 0
    rets := []
    enq := []
    deq := []
    begun := []
    done := []
    discarded := []
    bounced := 0 }

/-- The step of a client that enters `tpInsertTask`. -/
def stepInsertCheck (s : Sys) (computeFunc param : Nat) : Option Sys :=
  if isDestroyed s.pool then some { s with rets := s.rets ++ [ERROR] }
  else some { s with inserting := s.inserting ++ [(computeFunc, param)] }

/-- The step of a client that runs `addTask` (allocation succeeds), then
`awakeThread`, and returns.  Once `destroyQueue` has run the queue pointer is
`NULL` and the call has no defined behaviour. -/
def stepInsertAdd (s : Sys) (i : Nat) : Option Sys :=
  match s.inserting[i]? with
  | none => none
  | some (computeFunc, param) =>
    if s.queueLocked || s.dpc = .freePool || s.dpc = .returned then none
    else
      match createTask (some s.nextId) computeFunc param,
            addTask (some s.nextId) s.pool computeFunc param with
      | some task, some tp =>
        some { s with
          pool := tp
          inserting := s.inserting.eraseIdx i
          nextId := s.nextId + 1
          rets := s.rets ++ [SUCCESS]
          enq := s.enq ++ [task] }
      | _, _ => none

/-- The next step of worker `w` in `threadLoop`. -/
def stepWorker (s : Sys) (w : Nat) : Option Sys :=
  match s.workers[w]? with
  | none => none
  | some .loop =>
    -- while (!threadPool->finish)
    if s.pool.finish then some { s with workers := s.workers.set w .exiting }
    else some { s with workers := s.workers.set w .fetching }
  | some .fetching =>
    -- tpLock(TRUE, queueLock); while (!finish && osIsQueueEmpty(tasks)) tpWait(..)
    if s.queueLocked || fetchMustWait s.pool then none
    else some { s with queueLocked := true, workers := s.workers.set w .picking }
  | some .picking =>
    -- task = finish ? NULL : osDequeue(tasks); tpLock(FALSE, queueLock); return task
    match fetchPick s.pool with
    | (none, tp) =>
      some { s with pool := tp, queueLocked := false, workers := s.workers.set w .loop }
    | (some t, tp) =>
      some { s with
        pool := tp, queueLocked := false, workers := s.workers.set w (.got t)
        deq := s.deq ++ [t] }
  | some (.got t) =>
    some { s with pool := notifyStartTask s.pool, workers := s.workers.set w (.accounted t) }
  | some (.accounted t) =>
    some { s with workers := s.workers.set w (.inFunc t), begun := s.begun ++ [t] }
  | some (.inFunc t) =>
    some { s with workers := s.workers.set w .ran, done := s.done ++ [t] }
  | some .ran =>
    some { s with pool := notifyFinishedTask s.pool, workers := s.workers.set w .loop }
  | some .exiting =>
    some { s with pool := notifyFinished s.pool, workers := s.workers.set w .exited }
  | some .exited => none

/-- The step of a thread that enters `tpDestroy`: `setDestroyed`, and the
return at the gate or the choice of the first phase. -/
def stepDestroyCall (s : Sys) (shouldWaitForTasks : Int) : Option Sys :=
  match setDestroyed s.pool with
  | (true, tp) => some { s with pool := tp, bounced := s.bounced + 1 }
  | (false, tp) =>
    some { s with
      pool := tp
      dpc := if shouldWaitForTasks ≠ 0 then .pending else .signal
      shouldWait := decide (shouldWaitForTasks ≠ 0) }

/-- The next step of the thread that passed the gate of `tpDestroy`. -/
def stepDestroyer (s : Sys) : Option Sys :=
  match s.dpc with
  | .idle => none
  | .pending =>
    if s.queueLocked || pendingMustWait s.pool then none else some { s with dpc := .signal }
  | .signal => some { s with pool := signalThreadsToFinish s.pool, dpc := .waitRunning }
  | .waitRunning =>
    if runningMustWait s.pool then none else some { s with dpc := .signalAgain }
  | .signalAgain => some { s with pool := signalThreadsToFinish s.pool, dpc := .waitFinished }
  | .waitFinished =>
    if finishedMustWait s.pool then none else some { s with dpc := .destroyQ }
  | .destroyQ =>
    if s.queueLocked then none
    else
      some { s with
        pool := (destroyQueue s.pool).2
        dpc := .freePool
        discarded := s.discarded ++ (destroyQueue s.pool).1 }
  | .freePool => some { s with dpc := .returned }
  | .returned => none

/-- One step of the interleaving; `none` when the step is not enabled. -/
def step (s : Sys) : Label → Option Sys
  | .insertCheck computeFunc param => stepInsertCheck s computeFunc param
  | .insertAdd i => stepInsertAdd s i
  | .worker w => stepWorker s w
  | .destroyCall shouldWaitForTasks => stepDestroyCall s shouldWaitForTasks
  | .destroyer => stepDestroyer s

/-- A sequence of steps. -/
def run (s : Sys) : List Label → Option Sys
  | [] => some s
  | l :: ls => (step s l).bind fun s' => run s' ls

/-- The states the pool created by `tpCreate numOfThreads` can reach. -/
def Reachable (numOfThreads : Int) (s : Sys) : Prop :=
  ∃ ls : List Label, run (tpCreate numOfThreads) ls = some s

/-! ## The steps as a relation

`Trans s l s'` lists the enabled steps one by one, with their guards; it is
what `step` computes (`step_trans`). -/

/-- The transition relation computed by `step`. -/
inductive Trans : Sys → Label → Sys → Prop where
  | insertReject (s : Sys) (f p : Nat) (hd : s.pool.destroyed = true) :
      Trans s (.insertCheck f p) { s with rets := s.rets ++ [ERROR] }
  | insertPass (s : Sys) (f p : Nat) (hd : s.pool.destroyed = false) :
      Trans s (.insertCheck f p) { s with inserting := s.inserting ++ [(f, p)] }
  | insertAdd (s : Sys) (i f p : Nat) (hi : s.inserting[i]? = some (f, p))
      (hl : s.queueLocked = false) (h1 : s.dpc ≠ .freePool) (h2 : s.dpc ≠ .returned) :
      Trans s (.insertAdd i)
        { s with
          pool := { s.pool with tasks := s.pool.tasks ++ [⟨s.nextId, f, p⟩] }
          inserting := s.inserting.eraseIdx i
          nextId := s.nextId + 1
          rets := s.rets ++ [SUCCESS]
          enq := s.enq ++ [⟨s.nextId, f, p⟩] }
  | loopExit (s : Sys) (w : Nat) (hw : s.workers[w]? = some .loop)
      (hf : s.pool.finish = true) :
      Trans s (.worker w) { s with workers := s.workers.set w .exiting }
  | loopFetch (s : Sys) (w : Nat) (hw : s.workers[w]? = some .loop)
      (hf : s.pool.finish = false) :
      Trans s (.worker w) { s with workers := s.workers.set w .fetching }
  | fetchLock (s : Sys) (w : Nat) (hw : s.workers[w]? = some .fetching)
      (hl : s.queueLocked = false) (hc : s.pool.finish = true ∨ s.pool.tasks ≠ []) :
      Trans s (.worker w) { s with queueLocked := true, workers := s.workers.set w .picking }
  | pickNone (s : Sys) (w : Nat) (hw : s.workers[w]? = some .picking)
      (hc : s.pool.finish = true ∨ s.pool.tasks = []) :
      Trans s (.worker w) { s with queueLocked := false, workers := s.workers.set w .loop }
  | pickSome (s : Sys) (w : Nat) (t : Task) (rest : List Task)
      (hw : s.workers[w]? = some .picking)
      (hf : s.pool.finish = false) (hq : s.pool.tasks = t :: rest) :
      Trans s (.worker w)
        { s with
          pool := { s.pool with tasks := rest }
          queueLocked := false
          workers := s.workers.set w (.got t)
          deq := s.deq ++ [t] }
  | accountStart (s : Sys) (w : Nat) (t : Task) (hw : s.workers[w]? = some (.got t)) :
      Trans s (.worker w)
        { s with
          pool := { s.pool with running := (s.pool.running + 1) % UINT_MOD }
          workers := s.workers.set w (.accounted t) }
  | invoke (s : Sys) (w : Nat) (t : Task) (hw : s.workers[w]? = some (.accounted t)) :
      Trans s (.worker w)
        { s with workers := s.workers.set w (.inFunc t), begun := s.begun ++ [t] }
  | funcReturn (s : Sys) (w : Nat) (t : Task) (hw : s.workers[w]? = some (.inFunc t)) :
      Trans s (.worker w) { s with workers := s.workers.set w .ran, done := s.done ++ [t] }
  | accountEnd (s : Sys) (w : Nat) (hw : s.workers[w]? = some .ran) :
      Trans s (.worker w)
        { s with
          pool :=
            { s.pool with
              running := if s.pool.running = 0 then UINT_MOD - 1 else s.pool.running - 1 }
          workers := s.workers.set w .loop }
  | workerExit (s : Sys) (w : Nat) (hw : s.workers[w]? = some .exiting) :
      Trans s (.worker w)
        { s with
          pool := { s.pool with finished := (s.pool.finished + 1) % UINT_MOD }
          workers := s.workers.set w .exited }
  | gateBounce (s : Sys) (d : Int) (hd : s.pool.destroyed = true) :
      Trans s (.destroyCall d) { s with bounced := s.bounced + 1 }
  | gatePass (s : Sys) (d : Int) (hd : s.pool.destroyed = false) :
      Trans s (.destroyCall d)
        { s with
          pool := { s.pool with destroyed := true }
          dpc := if d ≠ 0 then .pending else .signal
          shouldWait := decide (d ≠ 0) }
  | pendingDone (s : Sys) (hp : s.dpc = .pending) (hl : s.queueLocked = false)
      (hq : s.pool.tasks = []) :
      Trans s .destroyer { s with dpc := .signal }
  | signalFinish (s : Sys) (hp : s.dpc = .signal) :
      Trans s .destroyer { s with pool := { s.pool with finish := true }, dpc := .waitRunning }
  | runningDone (s : Sys) (hp : s.dpc = .waitRunning) (hr : s.pool.running = 0) :
      Trans s .destroyer { s with dpc := .signalAgain }
  | signalFinishAgain (s : Sys) (hp : s.dpc = .signalAgain) :
      Trans s .destroyer { s with pool := { s.pool with finish := true }, dpc := .waitFinished }
  | finishedDone (s : Sys) (hp : s.dpc = .waitFinished) (hn : s.pool.size ≤ s.pool.finished) :
      Trans s .destroyer { s with dpc := .destroyQ }
  | queueDestroyed (s : Sys) (hp : s.dpc = .destroyQ) (hl : s.queueLocked = false) :
      Trans s .destroyer
        { s with
          pool := { s.pool with tasks := [] }
          dpc := .freePool
          discarded := s.discarded ++ s.pool.tasks }
  | poolFreed (s : Sys) (hp : s.dpc = .freePool) :
      Trans s .destroyer { s with dpc := .returned }

/-! ## Invariants and sample runs (definitions) -/

/-- How far the destroying thread has come. -/
def DestroyPc.rank : DestroyPc → Nat
  | .idle => 0
  | .pending => 1
  | .signal => 2
  | .waitRunning => 3
  | .signalAgain => 4
  | .waitFinished => 5
  | .destroyQ => 6
  | .freePool => 7
  | .returned => 8

/-- The task whose function a worker is running. -/
def WorkerPc.calling : WorkerPc → Option Task
  | .inFunc t => some t
  | _ => none

/-- The flags and counters agree with where the threads stand. -/
structure InvCount (s : Sys) : Prop where
  destroyed_iff : s.pool.destroyed = true ↔ 1 ≤ s.dpc.rank
  finish_iff : s.pool.finish = true ↔ 3 ≤ s.dpc.rank
  len : s.workers.length = s.pool.size
  small : s.pool.size < UINT_MOD
  running_eq : s.pool.running = s.workers.countP WorkerPc.counted
  finished_eq : s.pool.finished = s.workers.countP WorkerPc.isExited
  all_exited : 6 ≤ s.dpc.rank → s.pool.size ≤ s.pool.finished

/-- The histories agree with the queue and with what the workers hold. -/
structure InvLog (s : Sys) : Prop where
  log : s.enq = s.deq ++ s.discarded ++ s.pool.tasks
  hand : s.deq.Perm (s.done ++ s.workers.filterMap WorkerPc.held)
  begunP : s.begun.Perm (s.done ++ s.workers.filterMap WorkerPc.calling)
  fresh : ∀ t ∈ s.enq, t.id < s.nextId
  nodup : (s.enq.map Task.id).Nodup
  no_discard : s.dpc.rank < 7 → s.discarded = []
  queue_gone : 7 ≤ s.dpc.rank → s.pool.tasks = []

/-- Both invariants together. -/
def Inv (s : Sys) : Prop := InvCount s ∧ InvLog s

/-- The state after the steps `ls` of a pool created with `n` workers (the
initial state when some step is not enabled). -/
def stateAfter (n : Int) (ls : List Label) : Sys := (run (tpCreate n) ls).getD (tpCreate n)

/-- One submission: both steps of a call `tpInsertTask(pool, 7, 9)`. -/
def sampleSubmit : List Label := [.insertCheck 7 9, .insertAdd 0]

/-- After a draining destroy was called on a pool with one worker and one
queued task: the worker fetches the task, runs it and comes back to the top of
its loop; the destroying thread sees the queue empty and sets `finish`; the
worker exits; the destroying thread goes through the rest of `tpDestroy`. -/
def sampleDrainPost : List Label :=
  [.worker 0, .worker 0, .worker 0, .worker 0, .worker 0, .worker 0, .worker 0,
    .destroyer, .destroyer, .worker 0, .worker 0,
    .destroyer, .destroyer, .destroyer, .destroyer, .destroyer]

/-- A worker with the task in hand: it is submitted and the worker takes the
three steps that bring it out of `fetchTask` with the task. -/
def sampleFetched : List Label := sampleSubmit ++ [.worker 0, .worker 0, .worker 0]

/-- A submission that races with a draining destroy: the client passes
`isDestroyed`, `tpDestroy(pool, 1)` passes the gate and finds the queue empty,
`finish` is set, and only then the client runs `addTask`; the worker exits and
`tpDestroy` runs to its end. -/
def sampleRace : List Label :=
  [.insertCheck 7 9, .destroyCall 1, .destroyer, .destroyer, .insertAdd 0,
    .worker 0, .worker 0, .destroyer, .destroyer, .destroyer, .destroyer, .destroyer]

/-- The state of a draining destroy (`shouldWaitForTasks != 0`) after which
no `addTask` runs: the tasks enqueued are `e`, and past `waitForPendingTasks`
the queue is empty and nothing was discarded. -/
structure Drained (e : List Task) (s : Sys) : Prop where
  enq_eq : s.enq = e
  started : 1 ≤ s.dpc.rank
  empty : 2 ≤ s.dpc.rank → s.pool.tasks = [] ∧ s.discarded = []

/-- `fetchTask` run without interleaving: `none` when the thread has to wait
(the condition of the `while` loop holds), otherwise the task returned (`none`
for `NULL`) and the pool afterwards. -/
def fetchTask (threadPool : ThreadPool) : Option (Option Task × ThreadPool) :=
  if fetchMustWait threadPool then none else some (fetchPick threadPool)

/-- The task of a worker that has run `notifyStartTask` for it and whose
function has not returned yet. -/
def WorkerPc.accountedTask : WorkerPc → Option Task
  | .accounted t => some t
  | .inFunc t => some t
  | _ => none

/-- The worker has left the loop of `threadLoop`. -/
def WorkerPc.leftLoop : WorkerPc → Bool
  | .exiting => true
  | .exited => true
  | _ => false

/-- The destroying thread waits for the queue only when asked to, and a worker
that has left its loop has seen `finish` set. -/
structure InvPhase (s : Sys) : Prop where
  wait_mode : s.dpc = .pending → s.shouldWait = true
  left_finish : ∀ x ∈ s.workers, x.leftLoop = true → s.pool.finish = true

/-- After a destroy without drain was called on a pool with one worker and one
queued task: `finish` is set, the worker sees it at the top of its loop, leaves
the loop and exits. -/
def sampleLeft : List Label :=
  sampleSubmit ++ [.destroyCall 0, .destroyer, .worker 0, .worker 0]

/-- The worker has left the loop of `threadLoop` and has not run
`notifyFinished` yet. -/
def WorkerPc.isExiting : WorkerPc → Bool
  | .exiting => true
  | _ => false

/-! ## The statements of `tpDestroy` (definitions) -/

/-- The three mutexes of a `ThreadPool`. -/
inductive Lock where
  | queueLock
  | tpMutex
  | threadFinLock
deriving DecidableEq, Repr

/-- What a thread does to its locks, and the call of the task function. -/
inductive Ev where
  /-- `pthread_mutex_lock(m)` returns. -/
  | lock (m : Lock)
  /-- `pthread_mutex_unlock(m)`. -/
  | unlock (m : Lock)
  /-- `task->func(task->param)` is called. -/
  | call
deriving DecidableEq, Repr

/-- The shape of a function body as far as locks are concerned. -/
inductive Prog where
  | ev (e : Ev)
  | skip
  | seq (p q : Prog)
  | alt (p q : Prog)
  | star (p : Prog)
deriving Repr

/-- The paths through a body: the sequences of events it can produce. -/
inductive Exec : Prog → List Ev → Prop where
  | ev (e : Ev) : Exec (.ev e) [e]
  | skip : Exec .skip []
  | seq {p q : Prog} {t1 t2 : List Ev} (h1 : Exec p t1) (h2 : Exec q t2) :
      Exec (.seq p q) (t1 ++ t2)
  | altLeft {p q : Prog} {t : List Ev} (h : Exec p t) : Exec (.alt p q) t
  | altRight {p q : Prog} {t : List Ev} (h : Exec q t) : Exec (.alt p q) t
  | starDone {p : Prog} : Exec (.star p) []
  | starMore {p : Prog} {t1 t2 : List Ev} (h1 : Exec p t1) (h2 : Exec (.star p) t2) :
      Exec (.star p) (t1 ++ t2)

/-- The locks a thread holds after an event, given those it held before. -/
def heldAfterEv (held : List Lock) : Ev → List Lock
  | .lock m => m :: held
  | .unlock m => held.erase m
  | .call => held

/-- The locks a thread holds after a sequence of events. -/
def heldAfter (held : List Lock) (tr : List Ev) : List Lock := tr.foldl heldAfterEv held

/-- Along the whole sequence the thread holds at most one lock, and none when
the task function is called. -/
def disciplined (held : List Lock) : List Ev → Bool
  | [] => decide (held.length ≤ 1)
  | e :: rest =>
    decide (held.length ≤ 1) && (decide (e ≠ .call) || held.isEmpty) &&
      disciplined (heldAfterEv held e) rest

/-- A static check of a body: from at most one lock held (`none` for no lock)
to the lock held at the end, or `none` when the discipline could be broken. -/
def Prog.check : Prog → Option Lock → Option (Option Lock)
  | .ev (.lock m), none => some (some m)
  | .ev (.lock _), some _ => none
  | .ev (.unlock m), some m' => if m = m' then some none else none
  | .ev (.unlock _), none => none
  | .ev .call, none => some none
  | .ev .call, some _ => none
  | .skip, a => some a
  | .seq p q, a => (p.check a).bind q.check
  | .alt p q, a => if p.check a = q.check a then p.check a else none
  | .star p, a => if p.check a = some a then some a else none

namespace Locks

/-- A sequence of statements. -/
def block : List Prog → Prog
  | [] => .skip
  | p :: ps => .seq p (block ps)

/-- `tpLock(lock, ..)`: locks when `lock` is `TRUE`, unlocks otherwise. -/
def tpLock (lock : Bool) (mutex : Lock) : Prog :=
  if lock then .ev (.lock mutex) else .ev (.unlock mutex)

/-- `tpWait`: `pthread_cond_wait` releases the mutex and takes it again
before it returns. -/
def tpWait (mutex : Lock) : Prog := .seq (.ev (.unlock mutex)) (.ev (.lock mutex))

/-- `isDestroyed`. -/
def isDestroyed : Prog := block [tpLock true .tpMutex, .skip, tpLock false .tpMutex]

/-- `addTask`: `createTask`, then the enqueue under `queueLock`. -/
def addTask : Prog := block [.skip, tpLock true .queueLock, .skip, tpLock false .queueLock]

/-- `awakeThread`: a signal. -/
def awakeThread : Prog := .skip

/-- `tpInsertTask`: returns after `isDestroyed`, or goes on. -/
def tpInsertTask : Prog := block [isDestroyed, .alt .skip (block [addTask, awakeThread])]

/-- `notifyStartTask`. -/
def notifyStartTask : Prog := block [tpLock true .tpMutex, .skip, tpLock false .tpMutex]

/-- `notifyFinishedTask`: the decrement and two signals under `tpMutex`. -/
def notifyFinishedTask : Prog :=
  block [tpLock true .tpMutex, .skip, .skip, .skip, tpLock false .tpMutex]

/-- `doTask`: the call of the task function, then `destroyTask`, between the
two notifications. -/
def doTask : Prog := block [notifyStartTask, .ev .call, .skip, notifyFinishedTask]

/-- `fetchTask`. -/
def fetchTask : Prog :=
  block [tpLock true .queueLock, .star (tpWait .queueLock), .skip, tpLock false .queueLock]

/-- `notifyFinished`. -/
def notifyFinished : Prog :=
  block [tpLock true .threadFinLock, .skip, .skip, tpLock false .threadFinLock]

/-- `threadLoop`: `doTask` is run when `fetchTask` returned a task. -/
def threadLoop : Prog :=
  block [.star (block [fetchTask, .alt doTask .skip]), notifyFinished]

/-- `setDestroyed`. -/
def setDestroyed : Prog := block [tpLock true .tpMutex, .skip, tpLock false .tpMutex]

/-- `signalThreadsToFinish`: the flag and the broadcast under `tpMutex`. -/
def signalThreadsToFinish : Prog :=
  block [tpLock true .tpMutex, .skip, .skip, tpLock false .tpMutex]

/-- `waitForRunningTasks` (it calls `pthread_mutex_lock` directly). -/
def waitForRunningTasks : Prog :=
  block [.ev (.lock .tpMutex), .star (tpWait .tpMutex), .ev (.unlock .tpMutex)]

/-- `waitForPendingTasks` (it calls `pthread_mutex_lock` directly). -/
def waitForPendingTasks : Prog :=
  block [.ev (.lock .queueLock), .star (tpWait .queueLock), .ev (.unlock .queueLock)]

/-- `destroyThreads`. -/
def destroyThreads : Prog :=
  block [signalThreadsToFinish, tpLock true .threadFinLock, .star (tpWait .threadFinLock),
    tpLock false .threadFinLock, .skip]

/-- `destroyQueue`: the queue is emptied and destroyed under `queueLock`. -/
def destroyQueue : Prog :=
  block [tpLock true .queueLock, .star .skip, .skip, tpLock false .queueLock, .skip]

/-- `destroyPool`. -/
def destroyPool : Prog := block [destroyThreads, destroyQueue, .skip]

/-- `tpDestroy`: returns at the gate, or goes through the phases. -/
def tpDestroy : Prog :=
  block [setDestroyed,
    .alt .skip
      (block [.alt waitForPendingTasks .skip, signalThreadsToFinish, waitForRunningTasks,
        destroyPool])]

/-- One turn of a worker with a task, then its exit: the events of `threadLoop`
when `fetchTask` returns a task at once and the next test of `finish` fails. -/
def sampleWorkerPath : List Ev :=
  [.lock .queueLock, .unlock .queueLock, .lock .tpMutex, .unlock .tpMutex, .call,
    .lock .tpMutex, .unlock .tpMutex, .lock .threadFinLock, .unlock .threadFinLock]

end Locks

end TP

/-! # File comparison (`assignment_tester/file_compare.c`)
-/

namespace FileCompare

/-- The macro `TRUE` of file_compare.c. -/
def TRUE : Int := 1

/-- The macro `FALSE` of file_compare.c. -/
def FALSE : Int := 0

/-- The macro `ERROR` of file_compare.c. -/
def ERROR : Int := -1

/-- The macro `BUF_SIZE` of file_compare.c. -/
def BUF_SIZE : Nat := 512

/-- `FILES_ERROR` of `enum ComparisonStatus`. -/
def FILES_ERROR : Int := -1

/-- `FILES_IDENTICAL` of `enum ComparisonStatus`. -/
def FILES_IDENTICAL : Int := 1

/-- `FILES_DIFFERENT` of `enum ComparisonStatus`. -/
def FILES_DIFFERENT : Int := 2

/-- `FILES_SIMILAR` of `enum ComparisonStatus`. -/
def FILES_SIMILAR : Int := 3

/-- The value of a byte read as a `char` (signed, eight bits). -/
def toChar (b : Nat) : Int :=
  if b % 256 < 128 then ((b % 256 : Nat) : Int) else ((b % 256 : Nat) : Int) - 256

/-- `isspace` of the C library in the C locale: space, `\t`, `\n`, `\v`, `\f`,
`\r`. -/
def isspace (c : Int) : Bool := c == 32 || (decide (9 ≤ c) && decide (c ≤ 13))

/-- `toupper` of the C library in the C locale. -/
def toupper (c : Int) : Int := if 97 ≤ c ∧ c ≤ 122 then c - 32 else c

/-- A `struct File` together with the open file its descriptor refers to:
`disk` holds the bytes of the file and `offset` is the file offset of the
descriptor.  `short` lists, for the coming calls of `read`, how many bytes each
delivers at most (a call may deliver fewer bytes than asked, never none while
bytes are left); when the list is used up `read` delivers all it is asked for.
`pos`, `size` and `buf` are the C fields. -/
structure File where
  disk : List Nat
  offset : Nat
  short : List Nat
  pos : Nat
  size : Int
  buf : List Nat
deriving DecidableEq, Repr

/-- `openFile` when `open` succeeds: the descriptor is at the start of the
file; `buf` is whatever the stack held. -/
def openFile (disk short buf : List Nat) : File :=
  { disk := disk, offset := 0, short := short, pos := 0, size := 0, buf := buf }

/-- `resetFilePosition` when `lseek` succeeds. -/
def resetFilePosition (file : File) : File :=
  { file with offset := 0, size := 0, pos := 0 }

/-- The bytes a call `read(file->fd, file->buf, BUF_SIZE)` delivers. -/
def readBytes (file : File) : List Nat :=
  (file.disk.drop file.offset).take
    (match file.short with
     | [] => BUF_SIZE
     | k :: _ => max 1 (min k BUF_SIZE))

/-- The statements `file->pos = 0; file->size = read(file->fd, file->buf,
BUF_SIZE);` of `readFile`, the call of `read` succeeding. -/
def refill (file : File) : File :=
  { file with
    offset := file.offset + (readBytes file).length
    short := file.short.tail
    pos := 0
    size := ((readBytes file).length : Int)
    buf := readBytes file ++ file.buf.drop (readBytes file).length }

/-- The loop of `readFile` from index `i` on, with `todo = bytes - i`: the
value returned, the characters stored in the caller's buffer, and the file. -/
def readFileLoop : Nat → Nat → File → List Int → Int × List Int × File
  | 0, i, file, out => ((i : Int), out, file)
  | todo + 1, i, file, out =>
    if (file.pos : Int) = file.size then
      if (refill file).size = ERROR then (ERROR, out, refill file)
      else if (refill file).size = 0 then ((i : Int), out, refill file)
      else
        readFileLoop todo (i + 1) { refill file with pos := (refill file).pos + 1 }
          (out ++ [toChar ((refill file).buf.getD (refill file).pos 0)])
    else
      readFileLoop todo (i + 1) { file with pos := file.pos + 1 }
        (out ++ [toChar (file.buf.getD file.pos 0)])

/-- `readFile`. -/
def readFile (file : File) (bytes : Nat) : Int × List Int × File :=
  readFileLoop bytes 0 file []

/-- `getNextChar`: the `char` returned and the file. -/
def getNextChar (file : File) : Int × File :=
  if (readFile file 1).1 = ERROR ∨ (readFile file 1).1 = 0 then
    ((readFile file 1).1, (readFile file 1).2.2)
  else ((readFile file 1).2.1.headD 0, (readFile file 1).2.2)

/-- `skipSpace`: at most `fuel` turns of the `do ... while` loop; `none` when
they do not suffice. -/
def skipSpace : Nat → File → Option (Int × File)
  | 0, _ => none
  | fuel + 1, file =>
    if (getNextChar file).1 = ERROR ∨ (getNextChar file).1 = 0 then some (getNextChar file)
    else if isspace (getNextChar file).1 then skipSpace fuel (getNextChar file).2
    else some (getNextChar file)

/-- The two reads at the top of the loop of `compareFiles`. -/
def nextPair (fuel : Nat) (firstFile secondFile : File) (similar : Bool) :
    Option ((Int × File) × (Int × File)) :=
  if similar then
    match skipSpace fuel firstFile, skipSpace fuel secondFile with
    | some a, some b => some ((toupper a.1, a.2), (toupper b.1, b.2))
    | _, _ => none
  else some (getNextChar firstFile, getNextChar secondFile)

/-- `compareFiles`: at most `turns` turns of the `while (TRUE)` loop, each
inner loop having `fuel` turns; the value returned and the two files. -/
def compareFiles (fuel : Nat) : Nat → File → File → Bool → Option (Int × File × File)
  | 0, _, _, _ => none
  | turns + 1, firstFile, secondFile, similar =>
    match nextPair fuel firstFile secondFile similar with
    | none => none
    | some ((firstCh, first), (secondCh, second)) =>
      if firstCh = ERROR ∨ secondCh = ERROR then some (ERROR, first, second)
      else if firstCh = 0 ∨ secondCh = 0 ∨ firstCh ≠ secondCh then
        some (if firstCh = secondCh then 1 else 0, first, second)
      else compareFiles fuel turns first second similar

/-- `getCmpStat`, every loop having at most `fuel` turns. -/
def getCmpStat (fuel : Nat) (firstFile secondFile : File) : Option Int :=
  match compareFiles fuel fuel firstFile secondFile false with
  | none => none
  | some (identical, first, second) =>
    if identical = ERROR then some ERROR
    else if identical = TRUE then some FILES_IDENTICAL
    else
      match compareFiles fuel fuel (resetFilePosition first) (resetFilePosition second) true with
      | none => none
      | some (similar, _, _) =>
        if similar = ERROR then some ERROR
        else if similar = TRUE then some FILES_SIMILAR
        else some FILES_DIFFERENT

/-- What the comparison of similarity looks at, in the words of the claim:
the whitespace characters deleted, the remaining characters upper-cased. -/
def normalize (bytes : List Nat) : List Int :=
  ((bytes.map toChar).filter fun c => !isspace c).map toupper

/-- The classification in the words of the claim. -/
def classify (a b : List Nat) : Int :=
  if a = b then FILES_IDENTICAL
  else if normalize a = normalize b then FILES_SIMILAR
  else FILES_DIFFERENT

/-- The bytes a `struct File` has still to deliver: `Good file xs d` says that
the file on disk is `d` and that the unread part of the buffer followed by the
unread part of the disk is `xs`. -/
structure Good (file : File) (xs d : List Nat) : Prop where
  disk_eq : file.disk = d
  pos_le : (file.pos : Int) ≤ file.size
  size_le : file.size.toNat ≤ file.buf.length
  rest_eq : (file.buf.take file.size.toNat).drop file.pos ++ file.disk.drop file.offset = xs

end FileCompare

/-! # Shell argument parsing (`basic_term/term.c`)

A C string is the list of its bytes before the terminating NUL.  A `char *`
into the caller's buffer is an offset into that buffer; `NULL` is `none`.
-/

namespace Term

/-- The macro `ERROR` of term.c. -/
def ERROR : Int := -1

/-- The macro `MAX_INPUT` of term.c. -/
def MAX_INPUT : Nat := 100

/-- The macro `MAX_ARGS` of term.c. -/
def MAX_ARGS : Nat := 100

/-- The character `'\"'`. -/
def dquote : Nat := 34

/-- `isspace` of the C library in the C locale: space, `\t`, `\n`, `\v`, `\f`,
`\r`. -/
def isspace (c : Nat) : Bool := c == 32 || (decide (9 ≤ c) && decide (c ≤ 13))

/-- `skipSpace` of term.c on the string that starts at `input`: the result is
the string that starts at the returned pointer. -/
def skipSpace : List Nat → List Nat
  | [] => []
  | c :: rest => if isspace c then skipSpace rest else c :: rest

/-- The string held by a buffer: the bytes before the first NUL. -/
def cstr (mem : List Nat) : List Nat := mem.takeWhile fun c => c ≠ 0

/-- The string that starts at offset `p` of a buffer, when a NUL follows
within the buffer. -/
def cstrAt (mem : List Nat) (p : Nat) : Option (List Nat) :=
  if 0 ∈ mem.drop p then some (cstr (mem.drop p)) else none

/-- A store `l[i] = v`; `none` when `i` is outside the array. -/
def store {α : Type} (l : List α) (i : Nat) (v : α) : Option (List α) :=
  if i < l.length then some (l.set i v) else none

/-- The local variables of `fillArgs` and the two arrays it writes: `read` is
the string that starts at the pointer `read` into `inputCopy`, `input` is the
caller's buffer, `write` is the offset of the pointer `write` into it. -/
structure Parse where
  read : List Nat
  input : List Nat
  write : Nat
  args : List (Option Nat)
  len : Nat
  gotQuotes : Bool
deriving DecidableEq, Repr

/-- The statement `*write++ = c`. -/
def writeChar (s : Parse) (c : Nat) : Option Parse :=
  (store s.input s.write c).map fun m => { s with input := m, write := s.write + 1 }

/-- The statement `args[len] = v`. -/
def setArg (s : Parse) (v : Option Nat) : Option Parse :=
  (store s.args s.len v).map fun a => { s with args := a }

/-- One turn of the `while` loop of `fillArgs` when `*read` is the character
`c` and `rest` is the string after it. -/
def fillArgsBody (s : Parse) (c : Nat) (rest : List Nat) : Option Parse :=
  if c = dquote then
    if (!s.gotQuotes) = false ∧ rest = [] then
      (writeChar { s with gotQuotes := !s.gotQuotes, read := rest } 0).bind fun s1 =>
        setArg s1 none
    else some { s with gotQuotes := !s.gotQuotes, read := rest }
  else if isspace c then
    if s.gotQuotes then writeChar { s with read := rest } c
    else
      (writeChar { s with read := skipSpace (c :: rest) } 0).bind fun s1 =>
        (setArg s1 (some s1.write)).map fun s2 => { s2 with len := s2.len + 1 }
  else
    (writeChar { s with read := rest } c).bind fun s1 =>
      if rest = [] then (writeChar s1 0).bind fun s2 => setArg s2 none
      else some s1

/-- The `while (*read != '\0')` loop of `fillArgs`, at most `fuel` tests of
its condition. -/
def fillArgsLoop : Nat → Parse → Option Parse
  | 0, _ => none
  | fuel + 1, s =>
    match s.read with
    | [] => some s
    | c :: rest => (fillArgsBody s c rest).bind (fillArgsLoop fuel)

/-- What `fillArgs` leaves behind: the value returned and the contents of the
two arrays. -/
structure Result where
  ret : Int
  input : List Nat
  args : List (Option Nat)
deriving DecidableEq, Repr

/-- `fillArgs` of term.c.  `strcpy` needs a NUL in `input` and at most
`MAX_INPUT` characters before it to stay inside `inputCopy`; the result is
`none` otherwise, when a store leaves an array, and when the fuel runs out. -/
def fillArgs (fuel : Nat) (input : List Nat) (args : List (Option Nat)) : Option Result :=
  if 0 ∉ input ∨ MAX_INPUT < (cstr input).length then none
  else
    (setArg { read := skipSpace (cstr input), input := input, write := 0, args := args,
              len := 0, gotQuotes := false } (some 0)).bind fun s0 =>
      (fillArgsLoop fuel { s0 with len := s0.len + 1 }).map fun s =>
        { ret := if s.gotQuotes then ERROR else (s.len : Int), input := s.input, args := s.args }

/-- The string `args[k]` points to after `fillArgs`; `none` when `args[k]` is
`NULL` or lies outside the array. -/
def argString (r : Result) (k : Nat) : Option (List Nat) :=
  (r.args.getD k none).bind (cstrAt r.input)

/-- The maximal runs of characters that are not white space, in order; `cur` is
the run that is being read. -/
def runsAux : List Nat → List Nat → List (List Nat)
  | cur, [] => if cur = [] then [] else [cur]
  | cur, c :: rest =>
    if isspace c then
      if cur = [] then runsAux [] rest else cur :: runsAux [] rest
    else runsAux (cur ++ [c]) rest

/-- The maximal runs of characters of `str` that are not white space. -/
def runs (str : List Nat) : List (List Nat) := runsAux [] str

/-- The bytes of a list of strings laid out one after the other, each followed
by a NUL. -/
def layout : List (List Nat) → List Nat
  | [] => []
  | w :: ws => w ++ 0 :: layout ws

/-- The offsets at which `layout` puts the strings when the first is at `p`. -/
def offsets : Nat → List (List Nat) → List (Option Nat)
  | _, [] => []
  | p, w :: ws => some p :: offsets (p + w.length + 1) ws

end Term

namespace TP

/-! ## `step` computes `Trans` -/

theorem freeQueued_eq (q : List Task) : freeQueued q = (q, []) := by
  induction q with
  | nil => rfl
  | cons t rest ih => simp [freeQueued, ih]

/-- Every step computed by `step` is one of the transitions of `Trans`. -/
theorem step_trans {s s' : Sys} {l : Label} (h : step s l = some s') : Trans s l s' := by
  cases l with
  | insertCheck f p =>
    simp only [step, stepInsertCheck, isDestroyed] at h
    split at h
    · cases h; exact Trans.insertReject s f p ‹_›
    · cases h; exact Trans.insertPass s f p (Bool.eq_false_iff.mpr ‹_›)
  | insertAdd i =>
    simp only [step, stepInsertAdd] at h
    split at h
    · cases h
    · rename_i f p hi
      split at h
      · cases h
      · rename_i hg
        simp only [createTask, addTask, osEnqueue] at h
        cases h
        simp only [Bool.or_eq_true, decide_eq_true_eq, not_or, Bool.not_eq_true] at hg
        exact Trans.insertAdd s i f p hi hg.1.1 hg.1.2 hg.2
  | worker w =>
    simp only [step, stepWorker] at h
    split at h
    · cases h
    · rename_i hw
      split at h
      · cases h; exact Trans.loopExit s w hw ‹_›
      · cases h; exact Trans.loopFetch s w hw (Bool.eq_false_iff.mpr ‹_›)
    · rename_i hw
      split at h
      · cases h
      · rename_i hg
        cases h
        simp only [fetchMustWait, osIsQueueEmpty, Bool.or_eq_true, Bool.and_eq_true,
          Bool.not_eq_true', List.isEmpty_iff, not_or, Bool.not_eq_true, not_and] at hg
        refine Trans.fetchLock s w hw hg.1 ?_
        cases hf : s.pool.finish
        · exact Or.inr (hg.2 hf)
        · exact Or.inl rfl
    · rename_i hw
      simp only [fetchPick, osDequeue] at h
      split at h
      · rename_i tp hp
        cases h
        split at hp
        · rename_i hf
          cases hp
          exact Trans.pickNone s w hw (Or.inl hf)
        · split at hp
          · rename_i hq
            cases hp
            have e : ({ s.pool with tasks := [] } : ThreadPool) = s.pool := by
              cases hs : s.pool; simp_all
            rw [e]
            exact Trans.pickNone s w hw (Or.inr hq)
          · cases hp
      · rename_i t tp hp
        cases h
        split at hp
        · cases hp
        · rename_i hf
          split at hp
          · cases hp
          · rename_i t' rest hq
            cases hp
            exact Trans.pickSome s w t rest hw (Bool.eq_false_iff.mpr hf) hq
    · rename_i t hw
      cases h; exact Trans.accountStart s w t hw
    · rename_i t hw
      cases h; exact Trans.invoke s w t hw
    · rename_i t hw
      cases h; exact Trans.funcReturn s w t hw
    · rename_i hw
      cases h; exact Trans.accountEnd s w hw
    · rename_i hw
      cases h; exact Trans.workerExit s w hw
    · cases h
  | destroyCall d =>
    simp only [step, stepDestroyCall, setDestroyed] at h
    split at h
    · rename_i tp hp
      cases h
      simp only [Prod.mk.injEq] at hp
      have e : tp = s.pool := by rw [← hp.2, hp.1]; rfl
      rw [e]
      exact Trans.gateBounce s d hp.1
    · rename_i tp hp
      cases h
      simp only [Prod.mk.injEq] at hp
      have e : tp = { s.pool with destroyed := true } := by rw [← hp.2, hp.1]; rfl
      rw [e]
      exact Trans.gatePass s d hp.1
  | destroyer =>
    simp only [step, stepDestroyer] at h
    split at h
    · cases h
    · rename_i hp
      split at h
      · cases h
      · rename_i hg
        cases h
        simp only [pendingMustWait, osIsQueueEmpty, Bool.or_eq_true, Bool.not_eq_true',
          List.isEmpty_eq_false, not_or, Bool.not_eq_true, Bool.not_eq_false,
          List.isEmpty_iff] at hg
        exact Trans.pendingDone s hp hg.1 (not_not.mp hg.2)
    · rename_i hp
      cases h; exact Trans.signalFinish s hp
    · rename_i hp
      split at h
      · cases h
      · rename_i hg
        cases h
        simp only [runningMustWait, decide_eq_true_eq, not_lt, Nat.le_zero] at hg
        exact Trans.runningDone s hp hg
    · rename_i hp
      cases h; exact Trans.signalFinishAgain s hp
    · rename_i hp
      split at h
      · cases h
      · rename_i hg
        cases h
        simp only [finishedMustWait, decide_eq_true_eq, not_lt] at hg
        exact Trans.finishedDone s hp hg
    · rename_i hp
      split at h
      · cases h
      · rename_i hg
        cases h
        simp only [destroyQueue, freeQueued_eq]
        exact Trans.queueDestroyed s hp (Bool.eq_false_iff.mpr hg)
    · rename_i hp
      cases h; exact Trans.poolFreed s hp
    · cases h

/-! ## Lists of threads -/

theorem perm_set {α : Type} (l : List α) (i : Nat) (a b : α) (h : l[i]? = some a) :
    (a :: l.set i b).Perm (b :: l) := by
  induction l generalizing i with
  | nil => simp at h
  | cons x xs ih =>
    cases i with
    | zero =>
      simp only [List.getElem?_cons_zero, Option.some.injEq] at h
      subst h
      simpa using List.Perm.swap b x xs
    | succ j =>
      simp only [List.getElem?_cons_succ] at h
      simp only [List.set_cons_succ]
      exact (List.Perm.swap x a _).trans (((ih j h).cons x).trans (List.Perm.swap b x xs))

theorem countP_set {α : Type} (p : α → Bool) (l : List α) (i : Nat) (a b : α)
    (h : l[i]? = some a) :
    (l.set i b).countP p + (if p a then 1 else 0) = l.countP p + (if p b then 1 else 0) := by
  have := (perm_set l i a b h).countP_eq p
  simp only [List.countP_cons] at this
  exact this

theorem filterMap_set {α β : Type} (f : α → Option β) (l : List α) (i : Nat) (a b : α)
    (h : l[i]? = some a) :
    ((a :: l.set i b).filterMap f).Perm ((b :: l).filterMap f) :=
  (perm_set l i a b h).filterMap f

/-! ## Invariants of the interleaving -/

theorem invCount_init (n : Int) : InvCount (tpCreate n) := by
  refine ⟨by simp [tpCreate, DestroyPc.rank], by simp [tpCreate, DestroyPc.rank],
    by simp [tpCreate], ?_, ?_, ?_, by simp [tpCreate, DestroyPc.rank]⟩
  · simp only [tpCreate, UINT_MOD]
    omega
  · simp [tpCreate, List.countP_replicate, WorkerPc.counted]
  · simp [tpCreate, List.countP_replicate, WorkerPc.isExited]

/-- A worker step keeps `InvCount` when the counters move with the worker. -/
theorem invCount_worker {s s' : Sys} (hs : InvCount s) {w : Nat} {a : WorkerPc}
    (hw : s.workers[w]? = some a) (hne : a.isExited = false) (b : WorkerPc)
    (hwk : s'.workers = s.workers.set w b) (hdpc : s'.dpc = s.dpc)
    (hd : s'.pool.destroyed = s.pool.destroyed) (hf : s'.pool.finish = s.pool.finish)
    (hsz : s'.pool.size = s.pool.size)
    (hr : (if a.counted then 1 else 0) ≤ s.pool.running + (if b.counted then 1 else 0) →
      s.pool.running + (if b.counted then 1 else 0) < UINT_MOD + (if a.counted then 1 else 0) →
      s'.pool.running + (if a.counted then 1 else 0)
        = s.pool.running + (if b.counted then 1 else 0))
    (hfi : (if a.isExited then 1 else 0) ≤ s.pool.finished + (if b.isExited then 1 else 0) →
      s.pool.finished + (if b.isExited then 1 else 0)
        < UINT_MOD + (if a.isExited then 1 else 0) →
      s'.pool.finished + (if a.isExited then 1 else 0)
        = s.pool.finished + (if b.isExited then 1 else 0)) :
    InvCount s' := by
  obtain ⟨h1, h2, h3, h4, h5, h6, h7⟩ := hs
  have hc := countP_set WorkerPc.counted s.workers w a b hw
  have he := countP_set WorkerPc.isExited s.workers w a b hw
  have hlc : (s.workers.set w b).countP WorkerPc.counted ≤ s.pool.size := by
    rw [← h3, ← List.length_set s.workers w b]; exact List.countP_le_length _
  have hle : (s.workers.set w b).countP WorkerPc.isExited ≤ s.pool.size := by
    rw [← h3, ← List.length_set s.workers w b]; exact List.countP_le_length _
  have hr' := hr (by omega) (by omega)
  have hfi' := hfi (by omega) (by omega)
  simp only [hne, Bool.false_eq_true, if_false] at hfi' he
  refine ⟨by rw [hd, hdpc]; exact h1, by rw [hf, hdpc]; exact h2, ?_, by rw [hsz]; exact h4,
    ?_, ?_, ?_⟩
  · rw [hwk, hsz, List.length_set]; exact h3
  · rw [hwk]; omega
  · rw [hwk]; omega
  · intro h6r
    rw [hdpc] at h6r
    have := h7 h6r
    rw [hsz]; omega

theorem invCount_step {s s' : Sys} {l : Label} (hs : InvCount s) (h : Trans s l s') :
    InvCount s' := by
  obtain ⟨h1, h2, h3, h4, h5, h6, h7⟩ := hs
  cases h
  case insertReject => exact ⟨h1, h2, h3, h4, h5, h6, h7⟩
  case insertPass => exact ⟨h1, h2, h3, h4, h5, h6, h7⟩
  case insertAdd => exact ⟨h1, h2, h3, h4, h5, h6, h7⟩
  case gateBounce => exact ⟨h1, h2, h3, h4, h5, h6, h7⟩
  case gatePass d hd =>
    have hr : s.dpc.rank = 0 := by
      cases hk : s.dpc.rank with
      | zero => rfl
      | succ k => rw [h1.mpr (by omega)] at hd; cases hd
    have hf : s.pool.finish = false := by
      cases hb : s.pool.finish with
      | false => rfl
      | true => have := h2.mp hb; omega
    refine ⟨?_, ?_, h3, h4, h5, h6, ?_⟩
    · by_cases hd0 : d = 0 <;> simp [hd0, DestroyPc.rank]
    · by_cases hd0 : d = 0 <;> simp [hd0, DestroyPc.rank, hf]
    · by_cases hd0 : d = 0 <;> simp [hd0, DestroyPc.rank]
  case pendingDone hp hl hq =>
    rw [hp] at h1 h2
    refine ⟨?_, ?_, h3, h4, h5, h6, ?_⟩ <;> simp_all [DestroyPc.rank]
  case signalFinish hp =>
    rw [hp] at h1 h2
    refine ⟨?_, ?_, h3, h4, h5, h6, ?_⟩ <;> simp_all [DestroyPc.rank]
  case runningDone hp hr =>
    rw [hp] at h1 h2
    refine ⟨?_, ?_, h3, h4, h5, h6, ?_⟩ <;> simp_all [DestroyPc.rank]
  case signalFinishAgain hp =>
    rw [hp] at h1 h2
    refine ⟨?_, ?_, h3, h4, h5, h6, ?_⟩ <;> simp_all [DestroyPc.rank]
  case finishedDone hp hn =>
    rw [hp] at h1 h2
    refine ⟨?_, ?_, h3, h4, h5, h6, ?_⟩ <;> simp_all [DestroyPc.rank]
  case queueDestroyed hp hl =>
    rw [hp] at h1 h2 h7
    refine ⟨?_, ?_, h3, h4, h5, h6, ?_⟩ <;> simp_all [DestroyPc.rank]
  case poolFreed hp =>
    rw [hp] at h1 h2 h7
    refine ⟨?_, ?_, h3, h4, h5, h6, ?_⟩ <;> simp_all [DestroyPc.rank]
  all_goals
    have h4' : s.pool.size < 4294967296 := h4
    refine invCount_worker ⟨h1, h2, h3, h4, h5, h6, h7⟩ (by assumption) (by rfl) _ rfl rfl rfl
      rfl rfl ?_ ?_
    all_goals
      simp only [WorkerPc.counted, WorkerPc.isExited, UINT_MOD, Bool.false_eq_true, if_false,
        if_true]
      intro _ _
      first
        | exact True.intro
        | omega
        | (split <;> omega)

/-- Bookkeeping of a list of tasks that is a history minus what the workers
hold, across the step of one worker. -/
theorem perm_worker (f : WorkerPc → Option Task) {l : List WorkerPc} {w : Nat} {a : WorkerPc}
    (hw : l[w]? = some a) (b : WorkerPc) {X D X' D' : List Task}
    (h : X.Perm (D ++ l.filterMap f))
    (hc : (X' ++ (f a).toList ++ D).Perm (X ++ (f b).toList ++ D')) :
    X'.Perm (D' ++ (l.set w b).filterMap f) := by
  have hs := filterMap_set f l w a b hw
  rw [List.perm_iff_count] at h hc hs ⊢
  intro x
  have h1 := h x
  have h2 := hc x
  have h3 := hs x
  simp only [List.count_append, List.filterMap_cons] at h1 h2 h3 ⊢
  cases ha : f a <;> cases hb : f b <;>
    simp only [ha, hb, Option.toList, List.count_nil, List.count_cons] at h2 h3 <;> omega

theorem filterMap_replicate_none {α β : Type} (f : α → Option β) (a : α) (n : Nat)
    (h : f a = none) : (List.replicate n a).filterMap f = [] := by
  induction n with
  | zero => rfl
  | succ k ih => simp [List.replicate_succ, List.filterMap_cons, h, ih]

theorem invLog_init (n : Int) : InvLog (tpCreate n) := by
  refine ⟨by simp [tpCreate], ?_, ?_, by simp [tpCreate], by simp [tpCreate],
    by simp [tpCreate], by simp [tpCreate]⟩
  · simp [tpCreate, filterMap_replicate_none WorkerPc.held WorkerPc.loop _ rfl]
  · simp [tpCreate, filterMap_replicate_none WorkerPc.calling WorkerPc.loop _ rfl]

theorem rank_lt_seven {p : DestroyPc} (h1 : p ≠ .freePool) (h2 : p ≠ .returned) :
    p.rank < 7 := by
  cases p <;> simp_all [DestroyPc.rank]

theorem invLog_step {s s' : Sys} {l : Label} (hc : InvCount s) (hs : InvLog s)
    (h : Trans s l s') : InvLog s' := by
  obtain ⟨h1, h2, h3, h4, h5, h6, h7⟩ := hs
  cases h
  case insertReject => exact ⟨h1, h2, h3, h4, h5, h6, h7⟩
  case insertPass => exact ⟨h1, h2, h3, h4, h5, h6, h7⟩
  case gateBounce => exact ⟨h1, h2, h3, h4, h5, h6, h7⟩
  case insertAdd i f p hi hl hn1 hn2 =>
    have hr := rank_lt_seven hn1 hn2
    refine ⟨?_, h2, h3, ?_, ?_, h6, ?_⟩
    · simp [h1]
    · intro t ht
      rcases List.mem_append.mp ht with ht | ht
      · exact Nat.lt_succ_of_lt (h4 t ht)
      · rw [List.mem_singleton.mp ht]; exact Nat.lt_succ_self _
    · rw [List.map_append, List.nodup_append]
      refine ⟨h5, by simp, ?_⟩
      intro a ha hb
      simp only [List.map_cons, List.map_nil, List.mem_singleton] at hb
      obtain ⟨t, ht, hta⟩ := List.mem_map.mp ha
      have := h4 t ht
      omega
    · intro h
      have h' : 7 ≤ s.dpc.rank := h
      omega
  case gatePass d hd =>
    have hr : s.dpc.rank = 0 := by
      cases hk : s.dpc.rank with
      | zero => rfl
      | succ k => rw [hc.destroyed_iff.mpr (by omega)] at hd; cases hd
    refine ⟨h1, h2, h3, h4, h5, fun _ => h6 (by omega), ?_⟩
    by_cases hd0 : d = 0 <;> simp [hd0, DestroyPc.rank]
  case pendingDone hp hl hq =>
    rw [hp] at h6
    exact ⟨h1, h2, h3, h4, h5, fun _ => h6 (by simp [DestroyPc.rank]), fun _ => hq⟩
  case signalFinish hp =>
    rw [hp] at h6
    refine ⟨h1, h2, h3, h4, h5, fun _ => h6 (by simp [DestroyPc.rank]), ?_⟩
    simp [DestroyPc.rank]
  case runningDone hp hr =>
    rw [hp] at h6
    refine ⟨h1, h2, h3, h4, h5, fun _ => h6 (by simp [DestroyPc.rank]), ?_⟩
    simp [DestroyPc.rank]
  case signalFinishAgain hp =>
    rw [hp] at h6
    refine ⟨h1, h2, h3, h4, h5, fun _ => h6 (by simp [DestroyPc.rank]), ?_⟩
    simp [DestroyPc.rank]
  case finishedDone hp hn =>
    rw [hp] at h6
    refine ⟨h1, h2, h3, h4, h5, fun _ => h6 (by simp [DestroyPc.rank]), ?_⟩
    simp [DestroyPc.rank]
  case queueDestroyed hp hl =>
    refine ⟨?_, h2, h3, h4, h5, ?_, fun _ => rfl⟩
    · simp [h1]
    · simp [DestroyPc.rank]
  case poolFreed hp =>
    rw [hp] at h7
    refine ⟨h1, h2, h3, h4, h5, ?_, fun _ => h7 (by simp [DestroyPc.rank])⟩
    simp [DestroyPc.rank]
  case pickSome w t rest hw hf hq =>
    have hr : s.dpc.rank < 7 := by
      by_contra hcon
      rw [h7 (by omega)] at hq
      cases hq
    refine ⟨?_, perm_worker WorkerPc.held hw _ h2 ?_, perm_worker WorkerPc.calling hw _ h3 ?_,
      h4, h5, h6, ?_⟩
    · simp [h1, hq, h6 hr]
    · simp only [WorkerPc.held, Option.toList, List.append_nil]
      rfl
    · simp only [WorkerPc.calling, Option.toList, List.append_nil]
      rfl
    · intro h
      have h' : 7 ≤ s.dpc.rank := h
      omega
  all_goals
    refine ⟨h1, perm_worker WorkerPc.held (by assumption) _ h2 ?_,
      perm_worker WorkerPc.calling (by assumption) _ h3 ?_, h4, h5, h6, h7⟩
    all_goals
      simp only [WorkerPc.held, WorkerPc.calling, Option.toList, List.append_nil]
      rw [List.perm_iff_count]
      intro x
      simp only [List.count_append, List.count_cons, List.count_nil]
      try omega

/-! ## Runs -/

theorem run_append (s : Sys) (ls1 ls2 : List Label) :
    run s (ls1 ++ ls2) = (run s ls1).bind fun s' => run s' ls2 := by
  induction ls1 generalizing s with
  | nil => rfl
  | cons l ls ih =>
    simp only [List.cons_append, run]
    cases step s l with
    | none => rfl
    | some s1 => simpa using ih s1

/-- A property kept by every step with a label in `Q` is kept by every run
whose labels are all in `Q`. -/
theorem run_preserves (P : Sys → Prop) (Q : Label → Prop)
    (hstep : ∀ s l s', P s → Q l → Trans s l s' → P s') :
    ∀ (ls : List Label) (s s' : Sys), P s → (∀ l ∈ ls, Q l) → run s ls = some s' → P s' := by
  intro ls
  induction ls with
  | nil =>
    intro s s' hP _ h
    simp only [run, Option.some.injEq] at h
    exact h ▸ hP
  | cons l ls ih =>
    intro s s' hP hQ h
    simp only [run] at h
    cases hs : step s l with
    | none => rw [hs] at h; cases h
    | some s1 =>
      rw [hs] at h
      exact ih s1 s' (hstep s l s1 hP (hQ l (List.mem_cons_self _ _)) (step_trans hs))
        (fun l' hl' => hQ l' (List.mem_cons_of_mem _ hl')) h

theorem inv_step {s s' : Sys} {l : Label} (hs : Inv s) (h : step s l = some s') : Inv s' :=
  ⟨invCount_step hs.1 (step_trans h), invLog_step hs.1 hs.2 (step_trans h)⟩

theorem inv_run {s s' : Sys} (ls : List Label) (hs : Inv s) (h : run s ls = some s') : Inv s' :=
  run_preserves Inv (fun _ => True)
    (fun _ _ _ hP _ ht => ⟨invCount_step hP.1 ht, invLog_step hP.1 hP.2 ht⟩)
    ls s s' hs (fun _ _ => True.intro) h

theorem inv_reachable {n : Int} {s : Sys} (h : Reachable n s) : Inv s := by
  obtain ⟨ls, hls⟩ := h
  exact inv_run ls ⟨invCount_init n, invLog_init n⟩ hls

/-- Once `destroyed` is set it stays set. -/
theorem destroyed_run {s s' : Sys} (ls : List Label) (hs : s.pool.destroyed = true)
    (h : run s ls = some s') : s'.pool.destroyed = true :=
  run_preserves (fun s => s.pool.destroyed = true) (fun _ => True)
    (fun _ _ _ hP _ ht => by cases ht <;> first | exact hP | rfl)
    ls s s' hs (fun _ _ => True.intro) h

/-- After the step of a call of `tpDestroy`, `destroyed` is set. -/
theorem destroyed_after_call {s s' : Sys} {d : Int} (h : step s (.destroyCall d) = some s') :
    s'.pool.destroyed = true := by
  have ht := step_trans h
  cases ht with
  | gateBounce _ hd => exact hd
  | gatePass _ hd => rfl

/-! ## Submission (`tpInsertTask`) -/

theorem insertCheck_rejects (s : Sys) (mem : Option Nat) (f p : Nat)
    (h : s.pool.destroyed = true) :
    tpInsertTask mem s.pool f p = some (-1, s.pool) ∧
      step s (.insertCheck f p) = some { s with rets := s.rets ++ [-1] } := by
  simp [tpInsertTask, step, stepInsertCheck, isDestroyed, h, ERROR]

/-- C1. When `destroyed` is set, `tpInsertTask` returns -1 whatever the
function, the argument and the state of the allocator, and the pool it leaves
is the pool it found (queue, `destroyed`, `finish`, `size`, `running` and
`finished` included); in the interleaving the step of the call changes nothing
but the record of returned codes. -/
theorem tpInsertTask_rejects_when_destroyed (s : Sys) (mem : Option Nat) (f p : Nat)
    (h : s.pool.destroyed = true) :
    tpInsertTask mem s.pool f p = some (-1, s.pool) ∧
      step s (.insertCheck f p) = some { s with rets := s.rets ++ [-1] } :=
  insertCheck_rejects s mem f p h

/-- C1, at a concrete state: one worker, one task queued, `destroyed` set. -/
theorem tpInsertTask_rejects_when_destroyed_witness :
    tpInsertTask (some 5) ⟨true, false, 1, 0, 0, [⟨0, 7, 9⟩]⟩ 3 4
      = some (-1, ⟨true, false, 1, 0, 0, [⟨0, 7, 9⟩]⟩) :=
  (tpInsertTask_rejects_when_destroyed
    { tpCreate 1 with pool := ⟨true, false, 1, 0, 0, [⟨0, 7, 9⟩]⟩ } (some 5) 3 4 rfl).1

/-- C2. When `destroyed` is not set and the allocation succeeds (block `a`),
`tpInsertTask` returns 0 and the pool it leaves differs from the pool it found
only by the queue, which is the old queue followed by the one new record
with `func = f` and `param = p`.  In the interleaving, the two steps of the
call, run one after the other while no worker holds `queueLock`, do the same
and record the returned 0. -/
theorem tpInsertTask_enqueues_when_active (s : Sys) (a f p : Nat)
    (h : s.pool.destroyed = false) :
    tpInsertTask (some a) s.pool f p
        = some (0, { s.pool with tasks := s.pool.tasks ++ [{ id := a, func := f, param := p }] }) ∧
      (s.queueLocked = false → s.dpc.rank < 7 →
        run s [.insertCheck f p, .insertAdd s.inserting.length]
          = some { s with
              pool := { s.pool with tasks := s.pool.tasks ++ [⟨s.nextId, f, p⟩] }
              nextId := s.nextId + 1
              rets := s.rets ++ [0]
              enq := s.enq ++ [⟨s.nextId, f, p⟩] }) := by
  refine ⟨by simp [tpInsertTask, isDestroyed, h, addTask, createTask, osEnqueue, SUCCESS], ?_⟩
  intro hl hr
  have h1 : s.dpc ≠ .freePool := by
    intro hp; rw [hp] at hr; simp [DestroyPc.rank] at hr
  have h2 : s.dpc ≠ .returned := by
    intro hp; rw [hp] at hr; simp [DestroyPc.rank] at hr
  simp [run, step, stepInsertCheck, stepInsertAdd, isDestroyed, h, hl, h1, h2, createTask,
    addTask, osEnqueue, SUCCESS, List.eraseIdx_append_of_length_le]

/-- C2, at a concrete state: two workers, a pool that is not destroyed, the
allocator returning block 5. -/
theorem tpInsertTask_enqueues_when_active_witness :
    tpInsertTask (some 5) (tpCreate 2).pool 3 4
        = some (0, { (tpCreate 2).pool with tasks := [⟨5, 3, 4⟩] }) ∧
      run (tpCreate 2) [.insertCheck 3 4, .insertAdd 0]
        = some { tpCreate 2 with
            pool := { (tpCreate 2).pool with tasks := [⟨0, 3, 4⟩] }
            nextId := 1
            rets := [0]
            enq := [⟨0, 3, 4⟩] } :=
  ⟨(tpInsertTask_enqueues_when_active (tpCreate 2) 5 3 4 rfl).1,
    (tpInsertTask_enqueues_when_active (tpCreate 2) 5 3 4 rfl).2 rfl (by decide)⟩

/-! ## The gate of `tpDestroy` -/

/-- C5. When `destroyed` is already set, a call of `tpDestroy` returns at the
gate for either value of its argument: `setDestroyed` returns true and the step
leaves the pool, the workers and the destroying thread as they were (only the
count of calls returned at the gate moves).  `setDestroyed` returns the
previous value of `destroyed` and leaves `destroyed` set; a second
`setDestroyed` returns true and changes nothing, so of two calls of
`tpDestroy` the second always returns at the gate. -/
theorem tpDestroy_returns_at_gate (s : Sys) (d d' : Int) (h : s.pool.destroyed = true) :
    step s (.destroyCall d) = some { s with bounced := s.bounced + 1 } ∧
      setDestroyed s.pool = (true, s.pool) ∧
      (∀ tp : ThreadPool, (setDestroyed tp).1 = tp.destroyed ∧
        (setDestroyed tp).2.destroyed = true ∧
        setDestroyed (setDestroyed tp).2 = (true, (setDestroyed tp).2)) ∧
      (∀ u u1 : Sys, step u (.destroyCall d) = some u1 →
        step u1 (.destroyCall d') = some { u1 with bounced := u1.bounced + 1 }) := by
  have key : ∀ (u : Sys) (e : Int), u.pool.destroyed = true →
      step u (.destroyCall e) = some { u with bounced := u.bounced + 1 } := by
    intro u e hu
    simp [step, stepDestroyCall, setDestroyed, hu]
  refine ⟨key s d h, by simp [setDestroyed, h], ?_, ?_⟩
  · intro tp
    cases hd : tp.destroyed <;> simp [setDestroyed, hd]
  · intro u u1 hu
    exact key u1 d' (destroyed_after_call hu)

/-- C5, at the state reached when a first call has passed the gate. -/
theorem tpDestroy_returns_at_gate_witness :
    step { tpCreate 1 with pool := ⟨true, false, 1, 0, 0, []⟩, dpc := .pending } (.destroyCall 0)
      = some { tpCreate 1 with
          pool := ⟨true, false, 1, 0, 0, []⟩, dpc := .pending, bounced := 1 } :=
  (tpDestroy_returns_at_gate
    { tpCreate 1 with pool := ⟨true, false, 1, 0, 0, []⟩, dpc := .pending } 0 1 rfl).1

/-- C6. Once a call of `tpDestroy` has run `setDestroyed`, whatever steps
follow, a call of `tpInsertTask` returns -1 and leaves everything as it was. -/
theorem tpInsertTask_rejects_after_destroy (n : Int) (pre post : List Label) (d : Int)
    (s1 s2 : Sys) (h1 : run (tpCreate n) (pre ++ [.destroyCall d]) = some s1)
    (h2 : run s1 post = some s2) (mem : Option Nat) (f p : Nat) :
    s2.pool.destroyed = true ∧
      tpInsertTask mem s2.pool f p = some (-1, s2.pool) ∧
      step s2 (.insertCheck f p) = some { s2 with rets := s2.rets ++ [-1] } := by
  have hd1 : s1.pool.destroyed = true := by
    rw [run_append] at h1
    cases hp : run (tpCreate n) pre with
    | none => rw [hp] at h1; cases h1
    | some s0 =>
      rw [hp] at h1
      simp only [Option.some_bind, run] at h1
      cases hs : step s0 (.destroyCall d) with
      | none => rw [hs] at h1; cases h1
      | some s1' =>
        rw [hs] at h1
        simp only [Option.some_bind, Option.some.injEq] at h1
        exact h1 ▸ destroyed_after_call hs
  have hd2 := destroyed_run post hd1 h2
  exact ⟨hd2, insertCheck_rejects s2 mem f p hd2⟩

/-! ## Destroy: what has run when `tpDestroy` returns -/

/-- Once `finished` has reached `size` every worker has exited. -/
theorem workers_all_exited {s : Sys} (hc : InvCount s) (h : 6 ≤ s.dpc.rank) :
    ∀ x ∈ s.workers, x.isExited = true := by
  have h1 := hc.all_exited h
  have h2 : s.workers.countP WorkerPc.isExited ≤ s.workers.length := List.countP_le_length _
  rw [hc.finished_eq] at h1
  rw [hc.len] at h2
  exact List.countP_eq_length.mp (by rw [hc.len]; omega)

theorem filterMap_exited (f : WorkerPc → Option Task) (hf : f .exited = none)
    (l : List WorkerPc) (h : ∀ x ∈ l, x.isExited = true) : l.filterMap f = [] := by
  induction l with
  | nil => rfl
  | cons x xs ih =>
    have hx := h x (List.mem_cons_self _ _)
    have hxs := ih fun y hy => h y (List.mem_cons_of_mem _ hy)
    cases x <;> simp_all [WorkerPc.isExited, List.filterMap_cons]

theorem countP_exited (p : WorkerPc → Bool) (hp : p .exited = false)
    (l : List WorkerPc) (h : ∀ x ∈ l, x.isExited = true) : l.countP p = 0 := by
  induction l with
  | nil => rfl
  | cons x xs ih =>
    have hx := h x (List.mem_cons_self _ _)
    have hxs := ih fun y hy => h y (List.mem_cons_of_mem _ hy)
    cases x <;> simp_all [WorkerPc.isExited, List.countP_cons]

/-- When every worker has exited, what was dequeued is what was run, and what
was begun is what was completed. -/
theorem logs_when_exited {s : Sys} (hi : Inv s) (h : 6 ≤ s.dpc.rank) :
    s.deq.Perm s.done ∧ s.begun.Perm s.done := by
  have hx := workers_all_exited hi.1 h
  have h1 := hi.2.hand
  have h2 := hi.2.begunP
  rw [filterMap_exited WorkerPc.held rfl _ hx, List.append_nil] at h1
  rw [filterMap_exited WorkerPc.calling rfl _ hx, List.append_nil] at h2
  exact ⟨h1, h2⟩

theorem drained_step {e : List Task} {s s' : Sys} {l : Label} (hi : Inv s)
    (hd : Drained e s) (hq : ∀ i, l ≠ .insertAdd i) (h : Trans s l s') : Drained e s' := by
  obtain ⟨h1, h2, h3⟩ := hd
  cases h
  case insertAdd i f p hi' hl hn1 hn2 => exact absurd rfl (hq i)
  case gatePass d hd' =>
    have := hi.1.destroyed_iff.mpr h2
    rw [this] at hd'
    cases hd'
  case pendingDone hp hl hqe =>
    rw [hp] at h2 h3
    exact ⟨h1, by simp [DestroyPc.rank],
      fun _ => ⟨hqe, hi.2.no_discard (by rw [hp]; simp [DestroyPc.rank])⟩⟩
  case signalFinish hp =>
    rw [hp] at h2 h3
    exact ⟨h1, by simp [DestroyPc.rank], fun _ => h3 (by simp [DestroyPc.rank])⟩
  case runningDone hp hr =>
    rw [hp] at h2 h3
    exact ⟨h1, by simp [DestroyPc.rank], fun _ => h3 (by simp [DestroyPc.rank])⟩
  case signalFinishAgain hp =>
    rw [hp] at h2 h3
    exact ⟨h1, by simp [DestroyPc.rank], fun _ => h3 (by simp [DestroyPc.rank])⟩
  case finishedDone hp hn =>
    rw [hp] at h2 h3
    exact ⟨h1, by simp [DestroyPc.rank], fun _ => h3 (by simp [DestroyPc.rank])⟩
  case queueDestroyed hp hl =>
    rw [hp] at h2 h3
    have h4 := h3 (by simp [DestroyPc.rank])
    exact ⟨h1, by simp [DestroyPc.rank], fun _ => ⟨rfl, by simp [h4.1, h4.2]⟩⟩
  case poolFreed hp =>
    rw [hp] at h2 h3
    exact ⟨h1, by simp [DestroyPc.rank], fun _ => h3 (by simp [DestroyPc.rank])⟩
  case pickSome w t rest hw hf hqt =>
    refine ⟨h1, h2, fun hr => ?_⟩
    have := (h3 hr).1
    rw [this] at hqt
    cases hqt
  all_goals exact ⟨h1, h2, h3⟩

/-- What a run that starts with a call of `tpDestroy` on a pool that is not
yet destroyed looks like after the first step. -/
theorem first_destroy_call {s0 s2 : Sys} {d : Int} {post : List Label}
    (hfirst : s0.pool.destroyed = false) (hrun : run s0 (.destroyCall d :: post) = some s2) :
    run { s0 with
        pool := { s0.pool with destroyed := true }
        dpc := if d ≠ 0 then .pending else .signal
        shouldWait := decide (d ≠ 0) } post = some s2 := by
  simp only [run] at hrun
  cases hs : step s0 (.destroyCall d) with
  | none => rw [hs] at hrun; cases hrun
  | some s1 =>
    rw [hs] at hrun
    simp only [Option.some_bind] at hrun
    have ht := step_trans hs
    cases ht with
    | gateBounce _ hd => rw [hd] at hfirst; cases hfirst
    | gatePass _ hd => exact hrun

/-- C3 (P2, no loss in drain mode).  Take any run of the pool up to a state
`s0` in which no call of `tpDestroy` has passed the gate yet; let `tpDestroy`
be called there with `shouldWaitForTasks != 0`, and let any steps follow among
which no `addTask` runs (no further submission).  In every state in which that
call has returned, the tasks whose function has run to completion are exactly
the tasks enqueued before the call (`k` of them): each was begun and completed,
and `destroyQueue` discarded none. -/
theorem drain_destroy_runs_every_task (n : Int) (pre post : List Label) (d : Int)
    (s0 s2 : Sys) (hpre : run (tpCreate n) pre = some s0)
    (hfirst : s0.pool.destroyed = false) (hd : d ≠ 0)
    (hrun : run s0 (.destroyCall d :: post) = some s2)
    (hno : ∀ l ∈ post, ∀ i, l ≠ .insertAdd i)
    (hret : s2.dpc = .returned) :
    s2.done.length = s0.enq.length ∧ s2.done.Perm s0.enq ∧ s2.begun.Perm s0.enq ∧
      s2.discarded = [] ∧ s2.pool.tasks = [] := by
  have hi0 : Inv s0 := inv_reachable ⟨pre, hpre⟩
  have hrun1 := first_destroy_call hfirst hrun
  have hstep0 : step s0 (.destroyCall d) = some { s0 with
        pool := { s0.pool with destroyed := true }
        dpc := if d ≠ 0 then .pending else .signal
        shouldWait := decide (d ≠ 0) } := by
    simp [step, stepDestroyCall, setDestroyed, hfirst]
  have hi1 := inv_step hi0 hstep0
  have hd1 : Drained s0.enq { s0 with
        pool := { s0.pool with destroyed := true }
        dpc := if d ≠ 0 then .pending else .signal
        shouldWait := decide (d ≠ 0) } :=
    ⟨rfl, by simp [hd, DestroyPc.rank], by simp [hd, DestroyPc.rank]⟩
  have h2 := run_preserves (fun s => Inv s ∧ Drained s0.enq s) (fun l => ∀ i, l ≠ .insertAdd i)
    (fun s l s' hP hQ ht =>
      ⟨⟨invCount_step hP.1.1 ht, invLog_step hP.1.1 hP.1.2 ht⟩, drained_step hP.1 hP.2 hQ ht⟩)
    post _ s2 ⟨hi1, hd1⟩ hno hrun1
  obtain ⟨hi2, hd2⟩ := h2
  have hr : s2.dpc.rank = 8 := by rw [hret]; rfl
  obtain ⟨hq, hdis⟩ := hd2.empty (by omega)
  obtain ⟨hp1, hp2⟩ := logs_when_exited hi2 (by omega)
  have hlog := hi2.2.log
  rw [hq, hdis, List.append_nil, List.append_nil, hd2.enq_eq] at hlog
  rw [← hlog] at hp1
  exact ⟨hp1.length_eq.symm, hp1.symm, hp2.trans hp1.symm, hdis, hq⟩

/-- C3, on a pool with one worker: one task is submitted, `tpDestroy(pool, 1)`
is called, the worker runs the task and exits, and `tpDestroy` returns. -/
theorem drain_destroy_runs_every_task_witness :
    (stateAfter 1 (sampleSubmit ++ .destroyCall 1 :: sampleDrainPost)).dpc = .returned ∧
      (stateAfter 1 (sampleSubmit ++ .destroyCall 1 :: sampleDrainPost)).done.length
        = (stateAfter 1 sampleSubmit).enq.length ∧
      (stateAfter 1 (sampleSubmit ++ .destroyCall 1 :: sampleDrainPost)).done.Perm
        (stateAfter 1 sampleSubmit).enq ∧
      (stateAfter 1 (sampleSubmit ++ .destroyCall 1 :: sampleDrainPost)).begun.Perm
        (stateAfter 1 sampleSubmit).enq ∧
      (stateAfter 1 (sampleSubmit ++ .destroyCall 1 :: sampleDrainPost)).discarded = [] ∧
      (stateAfter 1 (sampleSubmit ++ .destroyCall 1 :: sampleDrainPost)).pool.tasks = [] :=
  ⟨by decide,
    drain_destroy_runs_every_task 1 sampleSubmit sampleDrainPost 1 (stateAfter 1 sampleSubmit)
      (stateAfter 1 (sampleSubmit ++ .destroyCall 1 :: sampleDrainPost))
      (by decide) (by decide) (by decide) (by decide) (by simp [sampleDrainPost]) (by decide)⟩

/-- C6, on a pool with one worker: a task is submitted, `tpDestroy(pool, 1)` is
called and the worker takes two steps; a submission made then is rejected. -/
theorem tpInsertTask_rejects_after_destroy_witness :
    (stateAfter 1 (sampleSubmit ++ [.destroyCall 1, .worker 0, .worker 0])).pool.destroyed = true ∧
      tpInsertTask (some 1)
          (stateAfter 1 (sampleSubmit ++ [.destroyCall 1, .worker 0, .worker 0])).pool 3 4
        = some (-1, (stateAfter 1 (sampleSubmit ++ [.destroyCall 1, .worker 0, .worker 0])).pool) ∧
      step (stateAfter 1 (sampleSubmit ++ [.destroyCall 1, .worker 0, .worker 0]))
          (.insertCheck 3 4)
        = some { stateAfter 1 (sampleSubmit ++ [.destroyCall 1, .worker 0, .worker 0]) with
            rets := [0, -1] } :=
  tpInsertTask_rejects_after_destroy 1 sampleSubmit [.worker 0, .worker 0] 1
    (stateAfter 1 (sampleSubmit ++ [.destroyCall 1]))
    (stateAfter 1 (sampleSubmit ++ [.destroyCall 1, .worker 0, .worker 0]))
    (by decide) (by decide) (some 1) 3 4

/-! ## Histories only grow; nothing is dequeued once `finish` is set -/

theorem finish_step {s s' : Sys} {l : Label} (hf : s.pool.finish = true) (h : Trans s l s') :
    s'.pool.finish = true ∧ s'.deq = s.deq := by
  cases h
  case pickSome w t rest hw hf' hq => rw [hf] at hf'; cases hf'
  all_goals first | exact ⟨hf, rfl⟩ | exact ⟨rfl, rfl⟩

theorem finish_run {s s' : Sys} (ls : List Label) (hf : s.pool.finish = true)
    (h : run s ls = some s') : s'.pool.finish = true ∧ s'.deq = s.deq :=
  run_preserves (fun u => u.pool.finish = true ∧ u.deq = s.deq) (fun _ => True)
    (fun _ _ _ hP _ ht => ⟨(finish_step hP.1 ht).1, (finish_step hP.1 ht).2.trans hP.2⟩)
    ls s s' ⟨hf, rfl⟩ (fun _ _ => True.intro) h

/-- The enqueued records are pairwise distinct. -/
theorem enq_nodup {s : Sys} (hi : Inv s) : s.enq.Nodup := List.Nodup.of_map _ hi.2.nodup

/-- A task in the queue, or discarded, was never dequeued. -/
theorem not_dequeued {s : Sys} (hi : Inv s) {t : Task}
    (ht : t ∈ s.discarded ∨ t ∈ s.pool.tasks) : t ∉ s.deq := by
  have hn := enq_nodup hi
  rw [hi.2.log, List.append_assoc] at hn
  intro hd
  exact (List.nodup_append.mp hn).2.2 hd (List.mem_append.mpr ht)

/-- C7, the code at the failing interleaving (one worker): a client passes
`isDestroyed` while `destroyed` is false; `tpDestroy(pool, 1)` then passes the
gate; in the state reached `destroyed` is set, and the client's `addTask` step
is enabled and enqueues the task.  Carried on, the same race lets a draining
destroy return with the task submitted successfully (code 0) and freed
unexecuted by `destroyQueue`. -/
theorem insert_enqueues_while_destroyed :
    (stateAfter 1 [.insertCheck 7 9, .destroyCall 1]).pool.destroyed = true ∧
      (stateAfter 1 [.insertCheck 7 9, .destroyCall 1]).pool.tasks = [] ∧
      step (stateAfter 1 [.insertCheck 7 9, .destroyCall 1]) (.insertAdd 0)
        = some (stateAfter 1 [.insertCheck 7 9, .destroyCall 1, .insertAdd 0]) ∧
      (stateAfter 1 [.insertCheck 7 9, .destroyCall 1, .insertAdd 0]).pool.destroyed = true ∧
      (stateAfter 1 [.insertCheck 7 9, .destroyCall 1, .insertAdd 0]).pool.tasks = [⟨0, 7, 9⟩] ∧
      (stateAfter 1 [.insertCheck 7 9, .destroyCall 1, .insertAdd 0]).rets = [0] ∧
      run (tpCreate 1) sampleRace = some (stateAfter 1 sampleRace) ∧
      (stateAfter 1 sampleRace).dpc = .returned ∧
      (stateAfter 1 sampleRace).shouldWait = true ∧
      (stateAfter 1 sampleRace).rets = [0] ∧
      (stateAfter 1 sampleRace).enq = [⟨0, 7, 9⟩] ∧
      (stateAfter 1 sampleRace).begun = [] ∧
      (stateAfter 1 sampleRace).discarded = [⟨0, 7, 9⟩] := by
  decide

/-! ## Release -/

/-- C8 (I6).  In every reachable state in which the destroying thread has run
`destroyQueue` and is at the end of `destroyPool` (or has returned), for either
value of `shouldWaitForTasks` and whatever the interleaving was: `finished`
equals `size`, `running` is 0, the queue is empty, and every worker has
exited. -/
theorem pool_quiescent_at_release (n : Int) (s : Sys) (h : Reachable n s)
    (hrel : s.dpc = .freePool ∨ s.dpc = .returned) :
    s.pool.finished = s.pool.size ∧ s.pool.running = 0 ∧ s.pool.tasks = [] ∧
      ∀ x ∈ s.workers, x = .exited := by
  have hi := inv_reachable h
  have hr : 7 ≤ s.dpc.rank := by
    rcases hrel with hp | hp <;> rw [hp] <;> simp [DestroyPc.rank]
  have hx := workers_all_exited hi.1 (by omega)
  refine ⟨?_, ?_, hi.2.queue_gone hr, ?_⟩
  · have h1 := hi.1.all_exited (by omega)
    have h2 : s.workers.countP WorkerPc.isExited ≤ s.workers.length := List.countP_le_length _
    rw [← hi.1.finished_eq, hi.1.len] at h2
    omega
  · rw [hi.1.running_eq]
    exact countP_exited WorkerPc.counted rfl _ hx
  · intro x hxm
    have := hx x hxm
    cases x <;> simp_all [WorkerPc.isExited]

/-- C8, on the sample run of a draining destroy, at the return of `tpDestroy`. -/
theorem pool_quiescent_at_release_witness :
    (stateAfter 1 (sampleSubmit ++ .destroyCall 1 :: sampleDrainPost)).pool.finished
        = (stateAfter 1 (sampleSubmit ++ .destroyCall 1 :: sampleDrainPost)).pool.size ∧
      (stateAfter 1 (sampleSubmit ++ .destroyCall 1 :: sampleDrainPost)).pool.running = 0 ∧
      (stateAfter 1 (sampleSubmit ++ .destroyCall 1 :: sampleDrainPost)).pool.tasks = [] ∧
      ∀ x ∈ (stateAfter 1 (sampleSubmit ++ .destroyCall 1 :: sampleDrainPost)).workers,
        x = .exited :=
  pool_quiescent_at_release 1 (stateAfter 1 (sampleSubmit ++ .destroyCall 1 :: sampleDrainPost))
    ⟨sampleSubmit ++ .destroyCall 1 :: sampleDrainPost, by decide⟩ (Or.inr (by decide))

/-! ## Order and ownership of tasks -/

/-- C9 (FIFO), the queue being a list with `osEnqueue` at the back and
`osDequeue` at the front.  In every reachable state the tasks dequeued so far
by the workers, in dequeue order, are a prefix of the tasks enqueued, in
enqueue order, and the rest of the enqueued tasks is what `destroyQueue` freed
followed by the queue; a worker step that dequeues takes the head of the
queue, the oldest task still queued. -/
theorem dequeue_order_is_enqueue_order (n : Int) (s : Sys) (h : Reachable n s) :
    s.deq <+: s.enq ∧ s.enq = s.deq ++ s.discarded ++ s.pool.tasks ∧
      ∀ (w : Nat) (s' : Sys), step s (.worker w) = some s' → s'.deq ≠ s.deq →
        ∃ t rest, s.pool.tasks = t :: rest ∧ s'.pool.tasks = rest ∧
          s'.deq = s.deq ++ [t] ∧ s'.workers = s.workers.set w (.got t) := by
  have hi := inv_reachable h
  refine ⟨⟨s.discarded ++ s.pool.tasks, by rw [hi.2.log, List.append_assoc]⟩, hi.2.log, ?_⟩
  intro w s' hs hne
  have ht := step_trans hs
  cases ht
  case pickSome => exact ⟨_, _, by assumption, rfl, rfl, rfl⟩
  all_goals exact absurd rfl hne

/-- C9, in the state where one task was submitted and the worker is about to
dequeue. -/
theorem dequeue_order_is_enqueue_order_witness :
    (stateAfter 1 (sampleSubmit ++ [.worker 0, .worker 0])).deq
        <+: (stateAfter 1 (sampleSubmit ++ [.worker 0, .worker 0])).enq ∧
      (stateAfter 1 (sampleSubmit ++ [.worker 0, .worker 0])).pool.tasks = [⟨0, 7, 9⟩] ∧
      (stateAfter 1 sampleFetched).deq = [⟨0, 7, 9⟩] :=
  ⟨(dequeue_order_is_enqueue_order 1 (stateAfter 1 (sampleSubmit ++ [.worker 0, .worker 0]))
      ⟨sampleSubmit ++ [.worker 0, .worker 0], by decide⟩).1, by decide, by decide⟩

theorem calling_sublist_held (l : List WorkerPc) :
    (l.filterMap WorkerPc.calling).Sublist (l.filterMap WorkerPc.held) := by
  induction l with
  | nil => exact List.Sublist.refl _
  | cons x xs ih =>
    cases x <;> simp only [List.filterMap_cons, WorkerPc.calling, WorkerPc.held]
    all_goals first | exact ih | exact ih.cons _ | exact ih.cons₂ _

/-- C10 (I5, at most once).  In every reachable state: no task record in the
queue is in the hands of a worker; no record is in the hands of two workers; no
record was dequeued twice; no record had its function called twice; every
record whose function was called had been dequeued, and every dequeued record
had been enqueued by a successful submission (it is that record, with the
`func` and `param` given there); distinct enqueued records are distinct
allocations. -/
theorem task_runs_at_most_once (n : Int) (s : Sys) (h : Reachable n s) :
    (∀ t ∈ s.pool.tasks, t ∉ s.workers.filterMap WorkerPc.held) ∧
      (s.workers.filterMap WorkerPc.held).Nodup ∧
      s.deq.Nodup ∧ s.begun.Nodup ∧
      (∀ t ∈ s.begun, t ∈ s.deq) ∧ (∀ t ∈ s.deq, t ∈ s.enq) ∧
      (s.enq.map Task.id).Nodup := by
  have hi := inv_reachable h
  have hn := enq_nodup hi
  have hlog := hi.2.log
  have hdq : s.deq.Nodup := by
    rw [hlog, List.append_assoc] at hn
    exact (List.nodup_append.mp hn).1
  have hdh : (s.done ++ s.workers.filterMap WorkerPc.held).Nodup := hi.2.hand.nodup_iff.mp hdq
  have hsub : (s.done ++ s.workers.filterMap WorkerPc.calling).Sublist
      (s.done ++ s.workers.filterMap WorkerPc.held) :=
    List.Sublist.append (List.Sublist.refl _) (calling_sublist_held _)
  refine ⟨?_, (List.nodup_append.mp hdh).2.1, hdq, hi.2.begunP.nodup_iff.mpr (hdh.sublist hsub),
    ?_, ?_, hi.2.nodup⟩
  · intro t ht hheld
    exact not_dequeued hi (Or.inr ht)
      (hi.2.hand.mem_iff.mpr (List.mem_append_right _ hheld))
  · intro t ht
    exact hi.2.hand.mem_iff.mpr (hsub.subset (hi.2.begunP.mem_iff.mp ht))
  · intro t ht
    rw [hlog, List.append_assoc]
    exact List.mem_append_left _ ht

/-- C10, in the state where the worker has the one submitted task in hand. -/
theorem task_runs_at_most_once_witness :
    (stateAfter 1 sampleFetched).pool.tasks = [] ∧
      (stateAfter 1 sampleFetched).workers.filterMap WorkerPc.held = [⟨0, 7, 9⟩] ∧
      (stateAfter 1 sampleFetched).deq.Nodup ∧ (stateAfter 1 sampleFetched).begun.Nodup :=
  ⟨by decide, by decide,
    (task_runs_at_most_once 1 (stateAfter 1 sampleFetched) ⟨sampleFetched, by decide⟩).2.2.1,
    (task_runs_at_most_once 1 (stateAfter 1 sampleFetched) ⟨sampleFetched, by decide⟩).2.2.2.1⟩

/-! ## Counters and flags -/

theorem countP_pos_of_getElem {α : Type} (p : α → Bool) (l : List α) (i : Nat) (a : α)
    (h : l[i]? = some a) (hp : p a = true) : 0 < l.countP p := by
  exact List.countP_pos_iff.mpr ⟨a, List.getElem?_mem h, hp⟩

theorem countP_lt_of_getElem {α : Type} (p : α → Bool) (l : List α) (i : Nat) (a b : α)
    (h : l[i]? = some a) (hp : p a = false) (hb : p b = true) : l.countP p < l.length := by
  have hc := countP_set p l i a b h
  have hl : (l.set i b).countP p ≤ (l.set i b).length := List.countP_le_length _
  rw [List.length_set] at hl
  simp only [hp, hb, Bool.false_eq_true, if_false, if_true] at hc
  omega

/-- C11 (I2).  In every reachable state `running` is the number of workers
between `notifyStartTask` and `notifyFinishedTask`, so `running <= size`
(and `size` is below `2 ^ 32`); every step leaves `running` as it is, adds one
or takes one off, without wrapping: where a worker is about to run
`notifyFinishedTask`, `running` is positive, and where a worker is about to run
`notifyStartTask`, `running + 1` is still at most `size`. -/
theorem running_counts_workers (n : Int) (s : Sys) (h : Reachable n s) :
    s.pool.running = s.workers.countP WorkerPc.counted ∧ s.pool.running ≤ s.pool.size ∧
      s.pool.size < UINT_MOD ∧
      (∀ w : Nat, s.workers[w]? = some WorkerPc.ran →
        0 < s.pool.running ∧ (notifyFinishedTask s.pool).running + 1 = s.pool.running) ∧
      (∀ (w : Nat) (t : Task), s.workers[w]? = some (WorkerPc.got t) →
        s.pool.running + 1 ≤ s.pool.size ∧
          (notifyStartTask s.pool).running = s.pool.running + 1) ∧
      (∀ l s', step s l = some s' →
        s'.pool.running = s.pool.running ∨ s'.pool.running = s.pool.running + 1 ∨
          s'.pool.running + 1 = s.pool.running) := by
  have hi := (inv_reachable h).1
  have hle : s.workers.countP WorkerPc.counted ≤ s.workers.length := List.countP_le_length _
  have hsm : s.pool.size < 4294967296 := hi.small
  have hran : ∀ w : Nat, s.workers[w]? = some WorkerPc.ran →
      0 < s.pool.running ∧ (notifyFinishedTask s.pool).running + 1 = s.pool.running := by
    intro w hw
    have hp := countP_pos_of_getElem WorkerPc.counted s.workers w _ hw rfl
    rw [← hi.running_eq] at hp
    refine ⟨hp, ?_⟩
    simp only [notifyFinishedTask]
    split <;> omega
  have hgot : ∀ (w : Nat) (t : Task), s.workers[w]? = some (WorkerPc.got t) →
      s.pool.running + 1 ≤ s.pool.size ∧
        (notifyStartTask s.pool).running = s.pool.running + 1 := by
    intro w t hw
    have hp := countP_lt_of_getElem WorkerPc.counted s.workers w _ (.accounted t) hw rfl rfl
    rw [← hi.running_eq, hi.len] at hp
    refine ⟨hp, ?_⟩
    simp only [notifyStartTask, UINT_MOD]
    omega
  refine ⟨hi.running_eq, by rw [hi.running_eq, ← hi.len]; exact hle, hi.small, hran, hgot, ?_⟩
  intro l s' hs
  have ht := step_trans hs
  cases ht
  case accountStart w t hw => exact Or.inr (Or.inl (hgot w t hw).2)
  case accountEnd w hw => exact Or.inr (Or.inr (hran w hw).2)
  all_goals exact Or.inl rfl

/-- C11, in the state where the one worker of the pool is inside the function
of a task. -/
theorem running_counts_workers_witness :
    (stateAfter 1 (sampleFetched ++ [.worker 0, .worker 0])).workers = [.inFunc ⟨0, 7, 9⟩] ∧
      (stateAfter 1 (sampleFetched ++ [.worker 0, .worker 0])).pool.running = 1 ∧
      (stateAfter 1 (sampleFetched ++ [.worker 0, .worker 0])).pool.running
        = (stateAfter 1 (sampleFetched ++ [.worker 0, .worker 0])).workers.countP
            WorkerPc.counted ∧
      (stateAfter 1 (sampleFetched ++ [.worker 0, .worker 0])).pool.running
        ≤ (stateAfter 1 (sampleFetched ++ [.worker 0, .worker 0])).pool.size :=
  ⟨by decide, by decide,
    (running_counts_workers 1 (stateAfter 1 (sampleFetched ++ [.worker 0, .worker 0]))
      ⟨sampleFetched ++ [.worker 0, .worker 0], by decide⟩).1,
    (running_counts_workers 1 (stateAfter 1 (sampleFetched ++ [.worker 0, .worker 0]))
      ⟨sampleFetched ++ [.worker 0, .worker 0], by decide⟩).2.1⟩

/-- The workers that have left their loop are those that have run `notifyFinished` and those
that are about to. -/
theorem countP_leftLoop (l : List WorkerPc) :
    l.countP WorkerPc.leftLoop = l.countP WorkerPc.isExited + l.countP WorkerPc.isExiting := by
  induction l with
  | nil => rfl
  | cons x xs ih =>
    cases x <;>
      simp [List.countP_cons, WorkerPc.leftLoop, WorkerPc.isExited, WorkerPc.isExiting, ih] <;>
      omega

/-- C12 as stated fails: on a pool with one worker, after `tpDestroy(pool, 0)` has set
`finish` and the worker has seen it in its loop test, the worker has left its loop and
`finished` is still 0. -/
theorem finished_lags_left_loop :
    run (tpCreate 1) [.destroyCall 0, .destroyer, .worker 0]
        = some (stateAfter 1 [.destroyCall 0, .destroyer, .worker 0]) ∧
      (stateAfter 1 [.destroyCall 0, .destroyer, .worker 0]).workers = [.exiting] ∧
      (stateAfter 1 [.destroyCall 0, .destroyer, .worker 0]).pool.finished = 0 ∧
      (stateAfter 1 [.destroyCall 0, .destroyer, .worker 0]).workers.countP WorkerPc.leftLoop
        = 1 := by
  decide

/-- C12 (I1), amended.  In every reachable state `finished` is the number of
workers that have run `notifyFinished`, the statement that follows the loop of
`threadLoop`; the workers that have left their loop are these and the workers
that stand between the failing loop test and `notifyFinished`, so `finished`
is at most the number of workers that have left their loop; there are `size`
workers, so `finished <= size`.  The only step that changes `finished` is the
`notifyFinished` of a worker that has left its loop, and it adds exactly one; a
worker that has run it never takes a step again, so each worker adds one once,
after leaving the loop and never before. -/
theorem finished_counts_exited (n : Int) (s : Sys) (h : Reachable n s) :
    s.pool.finished = s.workers.countP WorkerPc.isExited ∧
      s.workers.countP WorkerPc.leftLoop
        = s.pool.finished + s.workers.countP WorkerPc.isExiting ∧
      s.workers.length = s.pool.size ∧
      s.pool.finished ≤ s.pool.size ∧
      (∀ l s', step s l = some s' → s'.pool.finished ≠ s.pool.finished →
        ∃ w : Nat, l = .worker w ∧ s.workers[w]? = some WorkerPc.exiting ∧
          s'.workers = s.workers.set w WorkerPc.exited ∧
          s'.pool.finished = s.pool.finished + 1) ∧
      (∀ w : Nat, s.workers[w]? = some WorkerPc.exited → step s (.worker w) = none) := by
  have hi := (inv_reachable h).1
  have hle : s.workers.countP WorkerPc.isExited ≤ s.workers.length := List.countP_le_length _
  have hsm : s.pool.size < 4294967296 := hi.small
  refine ⟨hi.finished_eq, by rw [countP_leftLoop, hi.finished_eq], hi.len,
    by rw [hi.finished_eq, ← hi.len]; exact hle, ?_, ?_⟩
  · intro l s' hs hne
    have ht := step_trans hs
    cases ht
    case workerExit w hw =>
      refine ⟨w, rfl, hw, rfl, ?_⟩
      have hp := countP_lt_of_getElem WorkerPc.isExited s.workers w _ .exited hw rfl rfl
      rw [← hi.finished_eq, hi.len] at hp
      show (s.pool.finished + 1) % UINT_MOD = s.pool.finished + 1
      simp only [UINT_MOD]
      omega
    all_goals exact absurd rfl hne
  · intro w hw
    simp [step, stepWorker, hw]

/-- C12 amended, in the state where the one worker of the pool has left its loop
and not yet run `notifyFinished`, and in the state where it has exited. -/
theorem finished_counts_exited_witness :
    (stateAfter 1 [.destroyCall 0, .destroyer, .worker 0]).workers = [.exiting] ∧
      (stateAfter 1 [.destroyCall 0, .destroyer, .worker 0]).pool.finished = 0 ∧
      (stateAfter 1 [.destroyCall 0, .destroyer, .worker 0]).pool.finished
        = (stateAfter 1 [.destroyCall 0, .destroyer, .worker 0]).workers.countP
            WorkerPc.isExited ∧
      (stateAfter 1 [.destroyCall 0, .destroyer, .worker 0]).workers.countP WorkerPc.leftLoop
        = (stateAfter 1 [.destroyCall 0, .destroyer, .worker 0]).pool.finished
          + (stateAfter 1 [.destroyCall 0, .destroyer, .worker 0]).workers.countP
              WorkerPc.isExiting ∧
      (stateAfter 1 sampleLeft).workers = [.exited] ∧
      (stateAfter 1 sampleLeft).pool.finished = 1 ∧
      (stateAfter 1 sampleLeft).pool.finished
        = (stateAfter 1 sampleLeft).workers.countP WorkerPc.isExited ∧
      (stateAfter 1 sampleLeft).pool.finished ≤ (stateAfter 1 sampleLeft).pool.size :=
  ⟨by decide, by decide,
    (finished_counts_exited 1 (stateAfter 1 [.destroyCall 0, .destroyer, .worker 0])
      ⟨[.destroyCall 0, .destroyer, .worker 0], by decide⟩).1,
    (finished_counts_exited 1 (stateAfter 1 [.destroyCall 0, .destroyer, .worker 0])
      ⟨[.destroyCall 0, .destroyer, .worker 0], by decide⟩).2.1,
    by decide, by decide,
    (finished_counts_exited 1 (stateAfter 1 sampleLeft) ⟨sampleLeft, by decide⟩).1,
    (finished_counts_exited 1 (stateAfter 1 sampleLeft) ⟨sampleLeft, by decide⟩).2.2.2.1⟩

/-- C13.  No sequence of steps (of clients, workers, or threads in
`tpDestroy`) takes `destroyed` from true to false or `finish` from true to
false. -/
theorem flags_never_reset (s s' : Sys) (ls : List Label) (h : run s ls = some s') :
    (s.pool.destroyed = true → s'.pool.destroyed = true) ∧
      (s.pool.finish = true → s'.pool.finish = true) :=
  ⟨fun hd => destroyed_run ls hd h, fun hf => (finish_run ls hf h).1⟩

/-- C13, on the sample run of a draining destroy, from the state where
`finish` has just been set to the return of `tpDestroy`. -/
theorem flags_never_reset_witness :
    (stateAfter 1 (sampleSubmit ++ .destroyCall 1 :: sampleDrainPost.take 9)).pool.destroyed
        = true ∧
      (stateAfter 1 (sampleSubmit ++ .destroyCall 1 :: sampleDrainPost.take 9)).pool.finish
        = true ∧
      (stateAfter 1 (sampleSubmit ++ .destroyCall 1 :: sampleDrainPost)).pool.destroyed = true ∧
      (stateAfter 1 (sampleSubmit ++ .destroyCall 1 :: sampleDrainPost)).pool.finish = true :=
  ⟨by decide, by decide,
    (flags_never_reset
      (stateAfter 1 (sampleSubmit ++ .destroyCall 1 :: sampleDrainPost.take 9))
      (stateAfter 1 (sampleSubmit ++ .destroyCall 1 :: sampleDrainPost))
      (sampleDrainPost.drop 9) (by decide)).1 (by decide),
    (flags_never_reset
      (stateAfter 1 (sampleSubmit ++ .destroyCall 1 :: sampleDrainPost.take 9))
      (stateAfter 1 (sampleSubmit ++ .destroyCall 1 :: sampleDrainPost))
      (sampleDrainPost.drop 9) (by decide)).2 (by decide)⟩

/-- C14.  For a positive `int` `N`, `tpCreate(N)` yields a pool with
`size = N`, `finish` and `destroyed` false, `running = 0`, `finished = 0` and an
empty queue, and exactly `N` workers, each at the top of `threadLoop`; no lock
is held, no call of `tpInsertTask` or `tpDestroy` is under way. -/
theorem tpCreate_initial_state (N : Int) (hpos : 0 < N) (hint : N < 2147483648) :
    (tpCreate N).pool
        = { destroyed := false, finish := false, size := N.toNat, running := 0, finished := 0,
            tasks := [] } ∧
      ((tpCreate N).pool.size : Int) = N ∧
      (tpCreate N).workers = List.replicate N.toNat WorkerPc.loop ∧
      ((tpCreate N).workers.length : Int) = N ∧
      (tpCreate N).queueLocked = false ∧ (tpCreate N).inserting = [] ∧
      (tpCreate N).dpc = .idle := by
  have e : (N % (UINT_MOD : Int)).toNat = N.toNat := by
    simp only [UINT_MOD]
    omega
  refine ⟨?_, ?_, ?_, ?_, rfl, rfl, rfl⟩
  · simp only [tpCreate, e]
  · simp only [tpCreate, e]
    omega
  · simp only [tpCreate, e]
  · simp only [tpCreate, e, List.length_replicate]
    omega

/-- C14, for `tpCreate(3)`. -/
theorem tpCreate_initial_state_witness :
    (tpCreate 3).pool = ⟨false, false, 3, 0, 0, []⟩ ∧
      (tpCreate 3).workers = [.loop, .loop, .loop] :=
  ⟨(tpCreate_initial_state 3 (by decide) (by decide)).1,
    (tpCreate_initial_state 3 (by decide) (by decide)).2.2.1⟩

/-! ## Flags, phases and worker exit -/

theorem invPhase_init (n : Int) : InvPhase (tpCreate n) := by
  refine ⟨by simp [tpCreate], ?_⟩
  intro x hx hl
  simp only [tpCreate] at hx
  rw [List.eq_of_mem_replicate hx] at hl
  cases hl

theorem invPhase_worker {s : Sys} (hs : InvPhase s) {w : Nat} (b : WorkerPc)
    (hb : b.leftLoop = true → s.pool.finish = true) :
    ∀ x ∈ s.workers.set w b, x.leftLoop = true → s.pool.finish = true := by
  intro x hx hl
  rcases List.mem_or_eq_of_mem_set hx with hm | rfl
  · exact hs.left_finish x hm hl
  · exact hb hl

theorem invPhase_step {s s' : Sys} {l : Label} (hs : InvPhase s) (h : Trans s l s') :
    InvPhase s' := by
  have h1 := hs.wait_mode
  have h2 := hs.left_finish
  cases h
  case insertReject => exact ⟨h1, h2⟩
  case insertPass => exact ⟨h1, h2⟩
  case insertAdd => exact ⟨h1, h2⟩
  case gateBounce => exact ⟨h1, h2⟩
  case gatePass d hd =>
    refine ⟨?_, h2⟩
    by_cases hd0 : d = 0 <;> simp [hd0]
  case pendingDone hp hl hq => exact ⟨(fun hc => by cases hc), h2⟩
  case signalFinish hp => exact ⟨(fun hc => by cases hc), fun _ _ _ => rfl⟩
  case runningDone hp hr => exact ⟨(fun hc => by cases hc), h2⟩
  case signalFinishAgain hp => exact ⟨(fun hc => by cases hc), fun _ _ _ => rfl⟩
  case finishedDone hp hn => exact ⟨(fun hc => by cases hc), h2⟩
  case queueDestroyed hp hl => exact ⟨(fun hc => by cases hc), h2⟩
  case poolFreed hp => exact ⟨(fun hc => by cases hc), h2⟩
  case loopExit w hw hf => exact ⟨h1, invPhase_worker hs _ fun _ => hf⟩
  case workerExit w hw =>
    exact ⟨h1, invPhase_worker hs _ fun _ => h2 _ (List.getElem?_mem hw) rfl⟩
  all_goals
    refine ⟨h1, invPhase_worker hs _ ?_⟩
    intro hl
    cases hl

theorem invPhase_reachable {n : Int} {s : Sys} (h : Reachable n s) : InvPhase s := by
  obtain ⟨ls, hls⟩ := h
  exact run_preserves InvPhase (fun _ => True) (fun _ _ _ hP _ ht => invPhase_step hP ht)
    ls _ s (invPhase_init n) (fun _ _ => True.intro) hls
theorem accounted_sublist_held (l : List WorkerPc) :
    (l.filterMap WorkerPc.accountedTask).Sublist (l.filterMap WorkerPc.held) := by
  induction l with
  | nil => exact List.Sublist.refl _
  | cons x xs ih =>
    cases x <;> simp only [List.filterMap_cons, WorkerPc.accountedTask, WorkerPc.held]
    all_goals first | exact ih | exact ih.cons _ | exact ih.cons₂ _

theorem accounted_le_counted (l : List WorkerPc) :
    (l.filterMap WorkerPc.accountedTask).length ≤ l.countP WorkerPc.counted := by
  induction l with
  | nil => exact Nat.le_refl _
  | cons x xs ih =>
    cases x <;>
      simp only [List.filterMap_cons, WorkerPc.accountedTask, List.countP_cons,
        WorkerPc.counted, List.length_cons, Bool.false_eq_true, if_false, if_true] <;>
      omega

/-- Every enqueued record is in one place: completed, in the hands of a worker,
freed unexecuted, or in the queue. -/
theorem places_perm {s : Sys} (hi : Inv s) :
    s.enq.Perm (s.done ++ s.workers.filterMap WorkerPc.held ++ s.discarded ++ s.pool.tasks) := by
  rw [hi.2.log]
  exact (hi.2.hand.append_right _).append_right _

/-- C15 as stated fails: on a pool with one worker, after one successful
submission and the worker's `fetchTask`, the function of the task has not been
called, the queue is empty and `running` is 0: between `fetchTask` and
`notifyStartTask` the task is neither in the queue nor counted in `running`. -/
theorem fetched_task_neither_queued_nor_running :
    (stateAfter 1 sampleFetched).rets = [0] ∧
      (stateAfter 1 sampleFetched).enq = [⟨0, 7, 9⟩] ∧
      (stateAfter 1 sampleFetched).workers = [.got ⟨0, 7, 9⟩] ∧
      (stateAfter 1 sampleFetched).begun = [] ∧
      (stateAfter 1 sampleFetched).done = [] ∧
      (stateAfter 1 sampleFetched).pool.tasks = [] ∧
      (stateAfter 1 sampleFetched).pool.running = 0 := by
  decide

/-- C15 (in-flight accounting), amended.  In every reachable state the records
enqueued by successful submissions are, each exactly once, the completed ones
(function returned), those in the hands of a worker (from `fetchTask` until the
function returns), those freed unexecuted by `destroyQueue`, and those in the
queue; so a task whose function has not returned is in exactly one of the
queue, a worker's hands, or the freed records.  `running` is the number of
workers between `notifyStartTask` and `notifyFinishedTask`: a task in a
worker's hands is counted in it from `notifyStartTask` on, and a worker that is
between `fetchTask` and `notifyStartTask` holds a task that is not in the queue
and for which `running` has not been incremented. -/
theorem inflight_accounting (n : Int) (s : Sys) (h : Reachable n s) :
    s.enq.Perm (s.done ++ s.workers.filterMap WorkerPc.held ++ s.discarded ++ s.pool.tasks) ∧
      (s.done ++ s.workers.filterMap WorkerPc.held ++ s.discarded ++ s.pool.tasks).Nodup ∧
      (∀ t ∈ s.enq, t ∉ s.done →
        (t ∈ s.pool.tasks ∧ t ∉ s.workers.filterMap WorkerPc.held ∧ t ∉ s.discarded) ∨
        (t ∉ s.pool.tasks ∧ t ∈ s.workers.filterMap WorkerPc.held ∧ t ∉ s.discarded) ∨
        (t ∉ s.pool.tasks ∧ t ∉ s.workers.filterMap WorkerPc.held ∧ t ∈ s.discarded)) ∧
      s.pool.running = s.workers.countP WorkerPc.counted ∧
      (s.workers.filterMap WorkerPc.accountedTask).Sublist
        (s.workers.filterMap WorkerPc.held) ∧
      (s.workers.filterMap WorkerPc.accountedTask).length ≤ s.pool.running ∧
      (∀ (w : Nat) (t : Task), s.workers[w]? = some (WorkerPc.got t) →
        t ∈ s.workers.filterMap WorkerPc.held ∧ t ∉ s.pool.tasks ∧ t ∉ s.done ∧
          s.pool.running < s.pool.size) := by
  have hi := inv_reachable h
  have hp := places_perm hi
  have hn : (s.done ++ s.workers.filterMap WorkerPc.held ++ s.discarded ++
      s.pool.tasks).Nodup := hp.nodup_iff.mp (enq_nodup hi)
  have hA : ∀ t, t ∈ s.done ++ s.workers.filterMap WorkerPc.held ++ s.discarded →
      t ∈ s.pool.tasks → False := fun t h1 h2 => List.disjoint_of_nodup_append hn h1 h2
  have hB : ∀ t, t ∈ s.done ++ s.workers.filterMap WorkerPc.held → t ∈ s.discarded → False :=
    fun t h1 h2 => List.disjoint_of_nodup_append hn.of_append_left h1 h2
  have hC : ∀ t, t ∈ s.done → t ∈ s.workers.filterMap WorkerPc.held → False :=
    fun t h1 h2 => List.disjoint_of_nodup_append hn.of_append_left.of_append_left h1 h2
  refine ⟨hp, hn, ?_, hi.1.running_eq, accounted_sublist_held _, ?_, ?_⟩
  · intro t hte htd
    have hm := hp.mem_iff.mp hte
    simp only [List.mem_append] at hm
    rcases hm with ((hm | hm) | hm) | hm
    · exact absurd hm htd
    · exact Or.inr (Or.inl ⟨fun hq => hA t (List.mem_append_left _ (List.mem_append_right _ hm)) hq,
        hm, fun hq => hB t (List.mem_append_right _ hm) hq⟩)
    · exact Or.inr (Or.inr ⟨fun hq => hA t (List.mem_append_right _ hm) hq,
        fun hq => hB t (List.mem_append_right _ hq) hm, hm⟩)
    · exact Or.inl ⟨hm,
        fun hq => hA t (List.mem_append_left _ (List.mem_append_right _ hq)) hm,
        fun hq => hA t (List.mem_append_right _ hq) hm⟩
  · rw [hi.1.running_eq]
    exact accounted_le_counted _
  · intro w t hw
    have hm : t ∈ s.workers.filterMap WorkerPc.held :=
      List.mem_filterMap.mpr ⟨_, List.getElem?_mem hw, rfl⟩
    refine ⟨hm, fun hq => hA t (List.mem_append_left _ (List.mem_append_right _ hm)) hq,
      fun hq => hC t hq hm, ?_⟩
    have hlt := countP_lt_of_getElem WorkerPc.counted s.workers w _ (.accounted t) hw rfl rfl
    rw [← hi.1.running_eq, hi.1.len] at hlt
    exact hlt

/-- C15 amended, in the state where the worker has just fetched the task. -/
theorem inflight_accounting_witness :
    (stateAfter 1 sampleFetched).enq.Perm
        ((stateAfter 1 sampleFetched).done ++
          (stateAfter 1 sampleFetched).workers.filterMap WorkerPc.held ++
          (stateAfter 1 sampleFetched).discarded ++ (stateAfter 1 sampleFetched).pool.tasks) ∧
      (stateAfter 1 sampleFetched).workers.filterMap WorkerPc.held = [⟨0, 7, 9⟩] ∧
      (stateAfter 1 sampleFetched).pool.running
        = (stateAfter 1 sampleFetched).workers.countP WorkerPc.counted :=
  ⟨(inflight_accounting 1 (stateAfter 1 sampleFetched) ⟨sampleFetched, by decide⟩).1,
    by decide,
    (inflight_accounting 1 (stateAfter 1 sampleFetched) ⟨sampleFetched, by decide⟩).2.2.2.1⟩

/-- After a draining call of `tpDestroy` on a pool that was not yet destroyed,
with no `addTask` step afterwards, both invariants and `Drained` hold. -/
theorem drained_after_call {s0 s2 : Sys} {d : Int} {post : List Label} (hi0 : Inv s0)
    (hfirst : s0.pool.destroyed = false) (hd : d ≠ 0)
    (hrun : run s0 (.destroyCall d :: post) = some s2)
    (hno : ∀ l ∈ post, ∀ i, l ≠ .insertAdd i) : Inv s2 ∧ Drained s0.enq s2 := by
  have hrun1 := first_destroy_call hfirst hrun
  have hstep0 : step s0 (.destroyCall d) = some { s0 with
        pool := { s0.pool with destroyed := true }
        dpc := if d ≠ 0 then .pending else .signal
        shouldWait := decide (d ≠ 0) } := by
    simp [step, stepDestroyCall, setDestroyed, hfirst]
  have hi1 := inv_step hi0 hstep0
  have hd1 : Drained s0.enq { s0 with
        pool := { s0.pool with destroyed := true }
        dpc := if d ≠ 0 then .pending else .signal
        shouldWait := decide (d ≠ 0) } :=
    ⟨rfl, by simp [hd, DestroyPc.rank], by simp [hd, DestroyPc.rank]⟩
  exact run_preserves (fun s => Inv s ∧ Drained s0.enq s) (fun l => ∀ i, l ≠ .insertAdd i)
    (fun s l s' hP hQ ht =>
      ⟨⟨invCount_step hP.1.1 ht, invLog_step hP.1.1 hP.1.2 ht⟩, drained_step hP.1 hP.2 hQ ht⟩)
    post _ s2 ⟨hi1, hd1⟩ hno hrun1

theorem getElem?_set_same {α : Type} (l : List α) (i : Nat) (a b : α) (h : l[i]? = some a) :
    (l.set i b)[i]? = some b := by
  have hlt : i < l.length := by
    by_contra hcon
    rw [List.getElem?_eq_none (by omega)] at h
    cases h
  exact List.getElem?_set_self hlt

/-- C16 as stated fails: on a pool with one worker, one task is submitted and
`tpDestroy(pool, 0)` is called and sets `finish`; the worker sees `finish` at
the top of its loop, leaves the loop and increments `finished` while the task
is still in the queue. -/
theorem worker_exits_with_task_queued :
    (stateAfter 1 sampleLeft).pool.finish = true ∧
      (stateAfter 1 sampleLeft).workers = [.exited] ∧
      (stateAfter 1 sampleLeft).pool.finished = 1 ∧
      (stateAfter 1 sampleLeft).pool.tasks = [⟨0, 7, 9⟩] ∧
      (stateAfter 1 sampleLeft).begun = [] := by
  decide

/-- C16 (worker exit condition), amended.  In every reachable state a worker
that has left its loop (and so any worker that increments `finished`) has
observed `finish = true`: the step that leaves the loop is the test
`while (!threadPool->finish)` with `finish` set, and the queue is not looked
at.  When the destroy is a draining one (`shouldWaitForTasks != 0`, called on a
pool not yet destroyed) and no `addTask` runs after the call, the queue is
empty in every state in which `finish` is set, so workers exit with an empty
queue; after a destroy without drain workers exit while tasks are queued. -/
theorem worker_exit_condition (n : Int) (pre : List Label) (s : Sys)
    (hpre : run (tpCreate n) pre = some s) :
    (∀ x ∈ s.workers, x.leftLoop = true → s.pool.finish = true) ∧
      (∀ (w : Nat) (s' : Sys), step s (.worker w) = some s' →
        s.workers[w]? ≠ some WorkerPc.exiting → s'.workers[w]? = some WorkerPc.exiting →
        s.workers[w]? = some WorkerPc.loop ∧ s.pool.finish = true) ∧
      (∀ (w : Nat) (s' : Sys), step s (.worker w) = some s' →
        s'.pool.finished ≠ s.pool.finished →
        s.workers[w]? = some WorkerPc.exiting ∧ s.pool.finish = true) ∧
      (∀ (d : Int) (post : List Label) (s2 : Sys), s.pool.destroyed = false → d ≠ 0 →
        run s (.destroyCall d :: post) = some s2 → (∀ l ∈ post, ∀ i, l ≠ .insertAdd i) →
        s2.pool.finish = true → s2.pool.tasks = []) := by
  have hr : Reachable n s := ⟨pre, hpre⟩
  have hph := invPhase_reachable hr
  refine ⟨hph.left_finish, ?_, ?_, ?_⟩
  · intro w s' hs hne hex
    have ht := step_trans hs
    cases ht
    case loopExit => exact ⟨by assumption, by assumption⟩
    all_goals
      first
        | exact absurd (by assumption) hne
        | (rw [getElem?_set_same _ _ _ _ (by assumption)] at hex; cases hex)
  · intro w s' hs hne
    have ht := step_trans hs
    cases ht
    case workerExit =>
      have hw : s.workers[w]? = some WorkerPc.exiting := by assumption
      exact ⟨hw, hph.left_finish _ (List.getElem?_mem hw) rfl⟩
    all_goals exact absurd rfl hne
  · intro d post s2 hfirst hd hrun hno hfin
    obtain ⟨hi2, hd2⟩ := drained_after_call (inv_reachable hr) hfirst hd hrun hno
    have := hi2.1.finish_iff.mp hfin
    exact (hd2.empty (by omega)).1

/-- C16 amended, in the state where the worker has exited after a destroy
without drain. -/
theorem worker_exit_condition_witness :
    (stateAfter 1 sampleLeft).workers = [.exited] ∧
      ∀ x ∈ (stateAfter 1 sampleLeft).workers, x.leftLoop = true →
        (stateAfter 1 sampleLeft).pool.finish = true :=
  ⟨by decide, (worker_exit_condition 1 sampleLeft (stateAfter 1 sampleLeft) (by decide)).1⟩

/-! ## Fetch -/

/-- A step from a reachable state leads to a reachable state. -/
theorem reachable_after_step {n : Int} {s s' : Sys} {l : Label} (h : Reachable n s)
    (hs : step s l = some s') : Reachable n s' := by
  obtain ⟨ls, hls⟩ := h
  refine ⟨ls ++ [l], ?_⟩
  rw [run_append, hls]
  simp [run, hs]

/-- A run from a reachable state ends in a reachable state. -/
theorem reachable_after_run {n : Int} (ls : List Label) : ∀ {s s' : Sys}, Reachable n s →
    run s ls = some s' → Reachable n s' := by
  induction ls with
  | nil =>
    intro s s' h hr
    simp only [run, Option.some.injEq] at hr
    exact hr ▸ h
  | cons l ls ih =>
    intro s s' h hr
    simp only [run] at hr
    cases hs : step s l with
    | none => simp [hs] at hr
    | some s1 =>
      rw [hs] at hr
      exact ih (reachable_after_step h hs) hr

/-- C19 as stated fails: on a fresh pool, right after the gate of
`tpDestroy(pool, 0)` (`setDestroyed` has run, `signalThreadsToFinish` has not)
`destroyed` is true and `finish` is false, although `shouldWaitForTasks` is 0;
a worker can take a step in that state. -/
theorem nodrain_destroy_passes_through_draining :
    (stateAfter 1 [.destroyCall 0]).pool.destroyed = true ∧
      (stateAfter 1 [.destroyCall 0]).pool.finish = false ∧
      (stateAfter 1 [.destroyCall 0]).shouldWait = false ∧
      (stateAfter 1 [.destroyCall 0]).dpc = .signal ∧
      run (tpCreate 1) [.destroyCall 0, .worker 0] = some (stateAfter 1 [.destroyCall 0, .worker 0]) ∧
      (stateAfter 1 [.destroyCall 0, .worker 0]).pool.destroyed = true ∧
      (stateAfter 1 [.destroyCall 0, .worker 0]).pool.finish = false ∧
      (stateAfter 1 [.destroyCall 0, .worker 0]).workers = [.fetching] := by
  decide

/-- C19 (lifecycle), amended.  In every reachable state `finish = true`
implies `destroyed = true`.  The states with `destroyed = true` and
`finish = false` are those in which the thread that passed the gate of
`tpDestroy` is in `waitForPendingTasks` or is about to run
`signalThreadsToFinish`: every call that passes the gate goes through such a
state, since `setDestroyed` and `signalThreadsToFinish` are separate critical
sections.  The thread is in `waitForPendingTasks` only when
`shouldWaitForTasks != 0`; a call with `shouldWaitForTasks == 0` goes from the
gate straight to `signalThreadsToFinish`, whose step is always enabled and sets
`finish` whatever the queue holds. -/
theorem lifecycle_states (n : Int) (s : Sys) (h : Reachable n s) :
    (s.pool.finish = true → s.pool.destroyed = true) ∧
      ((s.pool.destroyed = true ∧ s.pool.finish = false) ↔
        (s.dpc = .pending ∨ s.dpc = .signal)) ∧
      (s.dpc = .pending → s.shouldWait = true) ∧
      (s.pool.destroyed = false →
        step s (.destroyCall 0)
          = some { s with
              pool := { s.pool with destroyed := true }, dpc := .signal, shouldWait := false }) ∧
      (s.dpc = .signal →
        step s .destroyer
          = some { s with pool := { s.pool with finish := true }, dpc := .waitRunning }) := by
  have hi := inv_reachable h
  have hph := invPhase_reachable h
  have hd := hi.1.destroyed_iff
  have hf := hi.1.finish_iff
  refine ⟨?_, ?_, hph.wait_mode, ?_, ?_⟩
  · intro hfin
    exact hd.mpr (by have := hf.mp hfin; omega)
  · cases hp : s.dpc <;> cases hb : s.pool.finish <;> cases hc : s.pool.destroyed <;>
      simp_all [DestroyPc.rank]
  · intro hnd
    simp [step, stepDestroyCall, setDestroyed, hnd]
  · intro hp
    simp [step, stepDestroyer, hp, signalThreadsToFinish]

/-- C19 amended, in the state right after the gate of `tpDestroy(pool, 0)`. -/
theorem lifecycle_states_witness :
    (stateAfter 1 [.destroyCall 0]).dpc = .signal ∧
      step (stateAfter 1 [.destroyCall 0]) .destroyer
        = some { stateAfter 1 [.destroyCall 0] with
            pool := { (stateAfter 1 [.destroyCall 0]).pool with finish := true }
            dpc := .waitRunning } :=
  ⟨by decide,
    (lifecycle_states 1 (stateAfter 1 [.destroyCall 0]) ⟨[.destroyCall 0], by decide⟩).2.2.2.2
      (by decide)⟩

/-! ## Lock discipline -/

theorem heldAfter_append (held : List Lock) (t1 t2 : List Ev) :
    heldAfter held (t1 ++ t2) = heldAfter (heldAfter held t1) t2 := by
  simp [heldAfter, List.foldl_append]

theorem disciplined_length {held : List Lock} {tr : List Ev} (h : disciplined held tr = true) :
    held.length ≤ 1 := by
  cases tr with
  | nil => simpa [disciplined] using h
  | cons e rest =>
    simp only [disciplined, Bool.and_eq_true, decide_eq_true_eq] at h
    exact h.1.1

theorem disciplined_append (held : List Lock) (t1 t2 : List Ev) :
    disciplined held (t1 ++ t2) = true ↔
      disciplined held t1 = true ∧ disciplined (heldAfter held t1) t2 = true := by
  induction t1 generalizing held with
  | nil =>
    constructor
    · intro h
      exact ⟨by simpa [disciplined] using disciplined_length h, h⟩
    · intro h
      exact h.2
  | cons e rest ih =>
    have e1 : disciplined held (e :: rest ++ t2)
        = (decide (held.length ≤ 1) && (decide (e ≠ .call) || held.isEmpty) &&
            disciplined (heldAfterEv held e) (rest ++ t2)) := rfl
    have e2 : disciplined held (e :: rest)
        = (decide (held.length ≤ 1) && (decide (e ≠ .call) || held.isEmpty) &&
            disciplined (heldAfterEv held e) rest) := rfl
    have e3 : heldAfter held (e :: rest) = heldAfter (heldAfterEv held e) rest := rfl
    rw [e1, e2, e3]
    simp only [Bool.and_eq_true, ih]
    constructor
    · intro h
      exact ⟨⟨h.1, h.2.1⟩, h.2.2⟩
    · intro h
      exact ⟨h.1.1, h.1.2, h.2⟩

theorem toList_length_le (a : Option Lock) : a.toList.length ≤ 1 := by
  cases a <;> simp

/-- A body that passes the static check keeps the discipline on every path. -/
theorem check_sound {p : Prog} {tr : List Ev} (he : Exec p tr) :
    ∀ a b : Option Lock, p.check a = some b →
      disciplined a.toList tr = true ∧ heldAfter a.toList tr = b.toList := by
  induction he with
  | ev e =>
    intro a b hc
    cases e with
    | lock m =>
      cases a with
      | none =>
        simp only [Prog.check, Option.some.injEq] at hc
        subst hc
        simp [disciplined, heldAfter, heldAfterEv]
      | some m' => simp [Prog.check] at hc
    | unlock m =>
      cases a with
      | none => simp [Prog.check] at hc
      | some m' =>
        simp only [Prog.check] at hc
        split at hc
        · rename_i hm
          simp only [Option.some.injEq] at hc
          subst hc
          subst hm
          simp [disciplined, heldAfter, heldAfterEv]
        · cases hc
    | call =>
      cases a with
      | none =>
        simp only [Prog.check, Option.some.injEq] at hc
        subst hc
        simp [disciplined, heldAfter, heldAfterEv]
      | some m' => simp [Prog.check] at hc
  | skip =>
    intro a b hc
    simp only [Prog.check, Option.some.injEq] at hc
    subst hc
    exact ⟨by simpa [disciplined] using toList_length_le a, rfl⟩
  | seq h1 h2 ih1 ih2 =>
    intro a b hc
    simp only [Prog.check] at hc
    cases hp : Prog.check _ a with
    | none => rw [hp] at hc; cases hc
    | some c =>
      rw [hp] at hc
      obtain ⟨d1, e1⟩ := ih1 a c hp
      obtain ⟨d2, e2⟩ := ih2 c b hc
      rw [disciplined_append, heldAfter_append, e1]
      exact ⟨⟨d1, d2⟩, e2⟩
  | altLeft h1 ih =>
    intro a b hc
    simp only [Prog.check] at hc
    split at hc
    · exact ih a b hc
    · cases hc
  | altRight h1 ih =>
    intro a b hc
    simp only [Prog.check] at hc
    split at hc
    · rename_i heq
      rw [heq] at hc
      exact ih a b hc
    · cases hc
  | starDone =>
    intro a b hc
    simp only [Prog.check] at hc
    split at hc
    · simp only [Option.some.injEq] at hc
      subst hc
      exact ⟨by simpa [disciplined] using toList_length_le a, rfl⟩
    · cases hc
  | starMore h1 h2 ih1 ih2 =>
    intro a b hc
    have hc' := hc
    simp only [Prog.check] at hc
    split at hc
    · rename_i hbody
      simp only [Option.some.injEq] at hc
      subst hc
      obtain ⟨d1, e1⟩ := ih1 a a hbody
      obtain ⟨d2, e2⟩ := ih2 a a hc'
      rw [disciplined_append, heldAfter_append, e1]
      exact ⟨⟨d1, d2⟩, e2⟩
    · cases hc

/-- C20 (lock discipline).  Along every path through `tpInsertTask`,
through `threadLoop` and through `tpDestroy` (the `onError` branches left
out), following the set of locks the thread holds: at every point of the path
the set holds at most one of `queueLock`, `tpMutex`, `threadFinLock`; it is
empty where the worker calls `task->func(task->param)`; and it is empty at the
end of the path. -/
theorem one_lock_at_a_time (tr : List Ev)
    (h : Exec Locks.tpInsertTask tr ∨ Exec Locks.threadLoop tr ∨ Exec Locks.tpDestroy tr) :
    disciplined [] tr = true ∧ heldAfter [] tr = [] ∧
      ∀ pre rest : List Ev, tr = pre ++ rest →
        (heldAfter [] pre).length ≤ 1 ∧
          (∀ rest' : List Ev, rest = .call :: rest' → heldAfter [] pre = []) := by
  have key : disciplined [] tr = true ∧ heldAfter [] tr = [] := by
    rcases h with h | h | h
    · exact check_sound h none none (by decide)
    · exact check_sound h none none (by decide)
    · exact check_sound h none none (by decide)
  refine ⟨key.1, key.2, ?_⟩
  intro pre rest hsplit
  have hd := key.1
  rw [hsplit, disciplined_append] at hd
  refine ⟨disciplined_length hd.2, ?_⟩
  intro rest' hr
  have h2 := hd.2
  rw [hr] at h2
  simp only [disciplined, Bool.and_eq_true, Bool.or_eq_true, decide_eq_true_eq, ne_eq,
    not_true_eq_false, decide_False, Bool.false_eq_true, false_or, List.isEmpty_iff] at h2
  exact h2.1.2

theorem exec_block_cons {p : Prog} {ps : List Prog} {t1 t2 : List Ev} (h1 : Exec p t1)
    (h2 : Exec (Locks.block ps) t2) : Exec (Locks.block (p :: ps)) (t1 ++ t2) :=
  Exec.seq h1 h2

theorem exec_sampleWorkerPath : Exec Locks.threadLoop Locks.sampleWorkerPath := by
  have hfetch : Exec Locks.fetchTask [.lock .queueLock, .unlock .queueLock] :=
    exec_block_cons (Exec.ev _) (exec_block_cons Exec.starDone
      (exec_block_cons Exec.skip (exec_block_cons (Exec.ev _) Exec.skip)))
  have hstart : Exec Locks.notifyStartTask [.lock .tpMutex, .unlock .tpMutex] :=
    exec_block_cons (Exec.ev _) (exec_block_cons Exec.skip
      (exec_block_cons (Exec.ev _) Exec.skip))
  have hend : Exec Locks.notifyFinishedTask [.lock .tpMutex, .unlock .tpMutex] :=
    exec_block_cons (Exec.ev _) (exec_block_cons Exec.skip (exec_block_cons Exec.skip
      (exec_block_cons Exec.skip (exec_block_cons (Exec.ev _) Exec.skip))))
  have hdo : Exec Locks.doTask
      [.lock .tpMutex, .unlock .tpMutex, .call, .lock .tpMutex, .unlock .tpMutex] :=
    exec_block_cons hstart (exec_block_cons (Exec.ev _) (exec_block_cons Exec.skip
      (exec_block_cons hend Exec.skip)))
  have hturn : Exec (Locks.block [Locks.fetchTask, .alt Locks.doTask .skip])
      [.lock .queueLock, .unlock .queueLock, .lock .tpMutex, .unlock .tpMutex, .call,
        .lock .tpMutex, .unlock .tpMutex] :=
    exec_block_cons hfetch (exec_block_cons (Exec.altLeft hdo) Exec.skip)
  have hfin : Exec Locks.notifyFinished [.lock .threadFinLock, .unlock .threadFinLock] :=
    exec_block_cons (Exec.ev _) (exec_block_cons Exec.skip (exec_block_cons Exec.skip
      (exec_block_cons (Exec.ev _) Exec.skip)))
  exact exec_block_cons (Exec.starMore hturn Exec.starDone) (exec_block_cons hfin Exec.skip)

/-- C20, on the path of a worker that fetches a task, runs it and exits: when
the function is called the worker holds no lock. -/
theorem one_lock_at_a_time_witness :
    disciplined [] Locks.sampleWorkerPath = true ∧ heldAfter [] Locks.sampleWorkerPath = [] ∧
      heldAfter [] [.lock .queueLock, .unlock .queueLock, .lock .tpMutex, .unlock .tpMutex]
        = [] :=
  ⟨(one_lock_at_a_time Locks.sampleWorkerPath (Or.inr (Or.inl exec_sampleWorkerPath))).1,
    (one_lock_at_a_time Locks.sampleWorkerPath (Or.inr (Or.inl exec_sampleWorkerPath))).2.1,
    (((one_lock_at_a_time Locks.sampleWorkerPath
        (Or.inr (Or.inl exec_sampleWorkerPath))).2.2
      [.lock .queueLock, .unlock .queueLock, .lock .tpMutex, .unlock .tpMutex]
      [.call, .lock .tpMutex, .unlock .tpMutex, .lock .threadFinLock, .unlock .threadFinLock]
      rfl).2 _ rfl)⟩

end TP

/-! # File comparison: `getCmpStat` classifies -/

namespace FileCompare

/-- Dropping as many elements as `take k` kept is dropping `k`. -/
theorem drop_length_take {α : Type} (l : List α) (k : Nat) :
    l.drop (l.take k).length = l.drop k := by
  rw [List.length_take]
  by_cases h : k ≤ l.length
  · rw [Nat.min_eq_left h]
  · rw [Nat.min_eq_right (by omega), List.drop_of_length_le (Nat.le_refl _),
      List.drop_of_length_le (by omega)]

/-- A call of `read` delivers a prefix of what is left on disk, and asks for at least one byte. -/
theorem readBytes_eq (file : File) :
    ∃ k, 1 ≤ k ∧ readBytes file = (file.disk.drop file.offset).take k := by
  unfold readBytes
  cases file.short with
  | nil => exact ⟨BUF_SIZE, by decide, rfl⟩
  | cons k rest => exact ⟨max 1 (min k BUF_SIZE), Nat.le_max_left _ _, rfl⟩

/-- A file just opened has all its bytes to deliver. -/
theorem good_open (d short buf : List Nat) : Good (openFile d short buf) d d :=
  ⟨rfl, by simp [openFile], by simp [openFile], by simp [openFile]⟩

/-- After `resetFilePosition` a file has all its bytes to deliver again. -/
theorem good_reset {file : File} {xs d : List Nat} (h : Good file xs d) :
    Good (resetFilePosition file) d d :=
  ⟨h.disk_eq, by simp [resetFilePosition], by simp [resetFilePosition],
    by simp [resetFilePosition, h.disk_eq]⟩


/-- When the buffer is used up, what is left to deliver is what is left on disk. -/
theorem buffer_empty {file : File} {xs d : List Nat} (h : Good file xs d)
    (hp : (file.pos : Int) = file.size) : file.disk.drop file.offset = xs := by
  have h1 := h.rest_eq
  have h2 : file.size.toNat = file.pos := by omega
  have h3 : (file.buf.take file.size.toNat).drop file.pos = [] := by
    apply List.drop_eq_nil_of_le
    rw [List.length_take]; omega
  rw [h3] at h1
  simpa using h1

/-- At the end of the file `getNextChar` returns 0 and the file stays at its end. -/
theorem getNextChar_eof {file : File} {d : List Nat} (h : Good file [] d) :
    (getNextChar file).1 = 0 ∧ Good (getNextChar file).2 [] d := by
  have hr := h.rest_eq
  have hb : (file.buf.take file.size.toNat).drop file.pos = [] := (List.append_eq_nil.mp hr).1
  have hdisk : file.disk.drop file.offset = [] := (List.append_eq_nil.mp hr).2
  have hlen := congrArg List.length hb
  simp only [List.length_drop, List.length_take, List.length_nil] at hlen
  have h1 := h.pos_le
  have h2 := h.size_le
  have hp : (file.pos : Int) = file.size := by omega
  have hrb : readBytes file = [] := by
    obtain ⟨k, _, hk⟩ := readBytes_eq file
    rw [hk, hdisk, List.take_nil]
  have hrf : readFile file 1 = (0, [], refill file) := by
    simp [readFile, readFileLoop, hp, refill, hrb, ERROR]
  have hg : getNextChar file = (0, refill file) := by
    simp [getNextChar, hrf]
  rw [hg]
  refine ⟨rfl, h.disk_eq, ?_, ?_, ?_⟩
  · simp [refill, hrb]
  · simp [refill, hrb]
  · simp [refill, hrb, hdisk]

/-- With bytes left `getNextChar` returns the next byte as a `char` and advances by one,
wherever the buffer loads fall. -/
theorem getNextChar_cons {file : File} {c : Nat} {cs d : List Nat} (h : Good file (c :: cs) d) :
    (getNextChar file).1 = toChar c ∧ Good (getNextChar file).2 cs d := by
  have h1 := h.pos_le
  have h2 := h.size_le
  by_cases hp : (file.pos : Int) = file.size
  · have hdisk := buffer_empty h hp
    obtain ⟨k, hk1, hk⟩ := readBytes_eq file
    obtain ⟨j, rfl⟩ : ∃ j, k = j + 1 := ⟨k - 1, by omega⟩
    have hrb : readBytes file = c :: cs.take j := by
      rw [hk, hdisk, List.take_succ_cons]
    have hsz : (refill file).size = ((cs.take j).length : Int) + 1 := by
      simp [refill, hrb]
    have hrf : readFile file 1
        = (1, [toChar c], { refill file with pos := 1 }) := by
      have e1 : (refill file).size ≠ ERROR := by rw [hsz, ERROR]; omega
      have e2 : (refill file).size ≠ 0 := by rw [hsz]; omega
      have e3 : (refill file).pos = 0 := rfl
      have e4 : (refill file).buf.getD 0 0 = c := by simp [refill, hrb]
      simp only [readFile, readFileLoop, hp, if_true, e1, e2, if_false, e3, e4]
      rfl
    have hg : getNextChar file = (toChar c, { refill file with pos := 1 }) := by
      simp [getNextChar, hrf, ERROR]
    rw [hg]
    refine ⟨rfl, h.disk_eq, ?_, ?_, ?_⟩
    · show ((1 : Nat) : Int) ≤ (refill file).size
      rw [hsz]; omega
    · show (refill file).size.toNat ≤ (refill file).buf.length
      simp [refill, hrb]
    · show ((refill file).buf.take (refill file).size.toNat).drop 1
          ++ file.disk.drop (refill file).offset = cs
      have e5 : (refill file).size.toNat = (cs.take j).length + 1 := by rw [hsz]; omega
      have e6 : (refill file).buf = (c :: cs.take j) ++ file.buf.drop (readBytes file).length := by
        simp [refill, hrb]
      have e7 : (refill file).offset = file.offset + ((cs.take j).length + 1) := by
        simp [refill, hrb]
      rw [e5, e6, e7, ← List.drop_drop, hdisk]
      have e8 : ((c :: cs.take j) ++ file.buf.drop (readBytes file).length).take
          ((cs.take j).length + 1) = c :: cs.take j := by
        rw [List.take_append_of_le_length (by simp)]
        exact List.take_of_length_le (by simp)
      rw [e8]
      simp only [List.drop_succ_cons, List.drop_zero]
      rw [drop_length_take, List.take_append_drop]
  · have hlt : file.pos < file.size.toNat := by omega
    have hr := h.rest_eq
    have hne : file.pos < (file.buf.take file.size.toNat).length := by
      rw [List.length_take]; omega
    have hsplit : (file.buf.take file.size.toNat).drop file.pos
        = (file.buf.take file.size.toNat)[file.pos] ::
          (file.buf.take file.size.toNat).drop (file.pos + 1) := List.drop_eq_getElem_cons hne
    rw [hsplit, List.cons_append] at hr
    have hc : (file.buf.take file.size.toNat)[file.pos] = c := (List.cons.inj hr).1
    have hcs := (List.cons.inj hr).2
    have hget : file.buf.getD file.pos 0 = c := by
      rw [List.getElem_take] at hc
      rw [List.getD_eq_getElem?_getD, List.getElem?_eq_getElem (by omega)]
      simpa using hc
    have hrf : readFile file 1 = (1, [toChar c], { file with pos := file.pos + 1 }) := by
      simp only [readFile, readFileLoop, hp, if_false, hget]
      rfl
    have hg : getNextChar file = (toChar c, { file with pos := file.pos + 1 }) := by
      simp [getNextChar, hrf, ERROR]
    rw [hg]
    refine ⟨rfl, h.disk_eq, ?_, h.size_le, hcs⟩
    show ((file.pos + 1 : Nat) : Int) ≤ file.size
    omega


/-- A byte in 1..127 is its own value as a `char`. -/
theorem toChar_small {b : Nat} (h : 1 ≤ b ∧ b ≤ 127) : toChar b = (b : Int) := by
  have e : b % 256 = b := Nat.mod_eq_of_lt (by omega)
  simp only [toChar, e]
  rw [if_pos (by omega)]

/-- A byte in 1..127 read as a `char` is neither 0 nor `ERROR`. -/
theorem toChar_range {b : Nat} (h : 1 ≤ b ∧ b ≤ 127) : 1 ≤ toChar b ∧ toChar b ≤ 127 := by
  rw [toChar_small h]; omega

/-- Distinct bytes in 1..127 are distinct as `char`. -/
theorem toChar_inj {b c : Nat} (hb : 1 ≤ b ∧ b ≤ 127) (hc : 1 ≤ c ∧ c ≤ 127)
    (h : toChar b = toChar c) : b = c := by
  rw [toChar_small hb, toChar_small hc] at h
  exact_mod_cast h

/-- Upper-casing keeps a `char` of 1..127 within 1..127. -/
theorem toupper_range {c : Int} (h : 1 ≤ c ∧ c ≤ 127) : 1 ≤ toupper c ∧ toupper c ≤ 127 := by
  unfold toupper
  split <;> omega

/-- With enough fuel `skipSpace` returns the first byte that is not white space, or 0 at the
end of the file, and consumes that byte. -/
theorem skipSpace_spec (xs : List Nat) : ∀ (fuel : Nat) (file : File) (d : List Nat),
    Good file xs d → (∀ x ∈ xs, 1 ≤ x ∧ x ≤ 127) → xs.length < fuel →
    ∃ file1, skipSpace fuel file
        = some ((((xs.dropWhile fun b => isspace (toChar b)).head?).map toChar).getD 0, file1)
      ∧ Good file1 (xs.dropWhile fun b => isspace (toChar b)).tail d := by
  induction xs with
  | nil =>
    intro fuel file d hg _ hf
    obtain ⟨k, rfl⟩ : ∃ k, fuel = k + 1 := ⟨fuel - 1, by simp at hf; omega⟩
    obtain ⟨h1, h2⟩ := getNextChar_eof hg
    refine ⟨(getNextChar file).2, ?_, by simpa using h2⟩
    simp only [skipSpace, h1, or_true, if_true, List.dropWhile_nil, List.head?_nil,
      Option.map_none', Option.getD_none]
    rw [← h1]
  | cons c cs ih =>
    intro fuel file d hg hok hf
    obtain ⟨k, rfl⟩ : ∃ k, fuel = k + 1 := ⟨fuel - 1, by simp at hf; omega⟩
    obtain ⟨h1, h2⟩ := getNextChar_cons hg
    have hc := toChar_range (hok c (List.mem_cons_self _ _))
    have e1 : ¬ (toChar c = ERROR ∨ toChar c = 0) := by rw [ERROR]; omega
    by_cases hs : isspace (toChar c) = true
    · obtain ⟨file1, h3, h4⟩ := ih k (getNextChar file).2 d h2
        (fun x hx => hok x (List.mem_cons_of_mem _ hx)) (by simp at hf; omega)
      refine ⟨file1, ?_, ?_⟩
      · simp only [skipSpace, h1, e1, if_false, hs, if_true, List.dropWhile_cons]
        exact h3
      · simpa only [List.dropWhile_cons, hs, if_true] using h4
    · refine ⟨(getNextChar file).2, ?_, ?_⟩
      · simp only [skipSpace, h1, e1, if_false, hs, List.dropWhile_cons, Bool.false_eq_true,
          List.head?_cons, Option.map_some', Option.getD_some]
        rw [← h1]
      · simpa only [List.dropWhile_cons, hs, Bool.false_eq_true, if_false, List.tail_cons] using h2

/-- The first pass of `getCmpStat`: `compareFiles` without `similar` returns 1 exactly when
the two byte sequences are equal. -/
theorem compareFiles_exact (xs : List Nat) : ∀ (ys : List Nat) (fuel turns : Nat)
    (firstFile secondFile : File) (d1 d2 : List Nat),
    Good firstFile xs d1 → Good secondFile ys d2 →
    (∀ x ∈ xs, 1 ≤ x ∧ x ≤ 127) → (∀ y ∈ ys, 1 ≤ y ∧ y ≤ 127) → xs.length < turns →
    ∃ first second xs1 ys1, compareFiles fuel turns firstFile secondFile false
        = some (if xs = ys then 1 else 0, first, second)
      ∧ Good first xs1 d1 ∧ Good second ys1 d2 := by
  induction xs with
  | nil =>
    intro ys fuel turns f g d1 d2 hf hg _ hoy ht
    obtain ⟨k, rfl⟩ : ∃ k, turns = k + 1 := ⟨turns - 1, by simp at ht; omega⟩
    obtain ⟨h1, h2⟩ := getNextChar_eof hf
    cases ys with
    | nil =>
      obtain ⟨h3, h4⟩ := getNextChar_eof hg
      refine ⟨(getNextChar f).2, (getNextChar g).2, [], [], ?_, h2, h4⟩
      simp [compareFiles, nextPair, h1, h3, ERROR]
    | cons e es =>
      obtain ⟨h3, h4⟩ := getNextChar_cons hg
      have he := toChar_range (hoy e (List.mem_cons_self _ _))
      refine ⟨(getNextChar f).2, (getNextChar g).2, [], es, ?_, h2, h4⟩
      have e1 : ¬ (toChar e = -1) := by omega
      have e2 : ¬ ((0 : Int) = toChar e) := by omega
      simp [compareFiles, nextPair, h1, h3, ERROR, e1, e2]
  | cons c cs ih =>
    intro ys fuel turns f g d1 d2 hf hg hox hoy ht
    obtain ⟨k, rfl⟩ : ∃ k, turns = k + 1 := ⟨turns - 1, by simp at ht; omega⟩
    obtain ⟨h1, h2⟩ := getNextChar_cons hf
    have hc := toChar_range (hox c (List.mem_cons_self _ _))
    have c1 : ¬ (toChar c = -1) := by omega
    have c2 : ¬ (toChar c = 0) := by omega
    cases ys with
    | nil =>
      obtain ⟨h3, h4⟩ := getNextChar_eof hg
      refine ⟨(getNextChar f).2, (getNextChar g).2, cs, [], ?_, h2, h4⟩
      simp [compareFiles, nextPair, h1, h3, ERROR, c1, c2]
    | cons e es =>
      obtain ⟨h3, h4⟩ := getNextChar_cons hg
      have he := toChar_range (hoy e (List.mem_cons_self _ _))
      have e1 : ¬ (toChar e = -1) := by omega
      have e2 : ¬ (toChar e = 0) := by omega
      by_cases hce : c = e
      · subst hce
        obtain ⟨first, second, xs1, ys1, h5, h6, h7⟩ := ih es fuel k (getNextChar f).2
          (getNextChar g).2 d1 d2 h2 h4 (fun x hx => hox x (List.mem_cons_of_mem _ hx))
          (fun x hx => hoy x (List.mem_cons_of_mem _ hx)) (by simp at ht; omega)
        refine ⟨first, second, xs1, ys1, ?_, h6, h7⟩
        simp only [compareFiles, nextPair, Bool.false_eq_true, if_false, h1, h3, ERROR, c1, c2,
          or_self, not_true_eq_false, or_false, List.cons.injEq, true_and, ne_eq]
        exact h5
      · have hne : toChar c ≠ toChar e := fun h =>
          hce (toChar_inj (hox c (List.mem_cons_self _ _)) (hoy e (List.mem_cons_self _ _)) h)
        refine ⟨(getNextChar f).2, (getNextChar g).2, cs, es, ?_, h2, h4⟩
        simp [compareFiles, nextPair, h1, h3, ERROR, c1, c2, e1, e2, hne, hce]


/-- Either only white space is left and the normal form is empty, or the normal form starts
with the upper-cased first byte that is not white space. -/
theorem normalize_cases (xs : List Nat) (hok : ∀ x ∈ xs, 1 ≤ x ∧ x ≤ 127) :
    ((xs.dropWhile fun b => isspace (toChar b)) = [] ∧ normalize xs = []) ∨
    ∃ c cs, (xs.dropWhile fun b => isspace (toChar b)) = c :: cs
      ∧ normalize xs = toupper (toChar c) :: normalize cs
      ∧ (1 ≤ c ∧ c ≤ 127) ∧ (∀ x ∈ cs, 1 ≤ x ∧ x ≤ 127) ∧ cs.length < xs.length := by
  induction xs with
  | nil => exact Or.inl ⟨rfl, rfl⟩
  | cons a as ih =>
    have hoas : ∀ x ∈ as, 1 ≤ x ∧ x ≤ 127 := fun x hx => hok x (List.mem_cons_of_mem _ hx)
    by_cases hs : isspace (toChar a) = true
    · have hn : normalize (a :: as) = normalize as := by
        simp [normalize, hs]
      rcases ih hoas with ⟨h1, h2⟩ | ⟨c, cs, h1, h2, h3, h4, h5⟩
      · exact Or.inl ⟨by simpa only [List.dropWhile_cons, hs, if_true] using h1, hn.trans h2⟩
      · refine Or.inr ⟨c, cs, by simpa only [List.dropWhile_cons, hs, if_true] using h1,
          hn.trans h2, h3, h4, ?_⟩
        simp only [List.length_cons]; omega
    · refine Or.inr ⟨a, as, by simp only [List.dropWhile_cons, hs, Bool.false_eq_true, if_false],
        ?_, hok a (List.mem_cons_self _ _), hoas, by simp⟩
      simp [normalize, hs]

/-- The second pass of `getCmpStat`: `compareFiles` with `similar` returns 1 exactly when
the normal forms of the two byte sequences are equal. -/
theorem compareFiles_similar : ∀ (turns : Nat) (xs ys : List Nat) (fuel : Nat)
    (firstFile secondFile : File) (d1 d2 : List Nat),
    Good firstFile xs d1 → Good secondFile ys d2 →
    (∀ x ∈ xs, 1 ≤ x ∧ x ≤ 127) → (∀ y ∈ ys, 1 ≤ y ∧ y ≤ 127) →
    xs.length < turns → xs.length < fuel → ys.length < fuel →
    ∃ first second, compareFiles fuel turns firstFile secondFile true
        = some (if normalize xs = normalize ys then 1 else 0, first, second) := by
  intro turns
  induction turns with
  | zero => intro xs ys fuel f g d1 d2 _ _ _ _ ht; omega
  | succ k ih =>
    intro xs ys fuel f g d1 d2 hf hg hox hoy ht hfx hfy
    obtain ⟨f1, hs1, hg1⟩ := skipSpace_spec xs fuel f d1 hf hox hfx
    obtain ⟨g1, hs2, hg2⟩ := skipSpace_spec ys fuel g d2 hg hoy hfy
    rcases normalize_cases xs hox with ⟨hx, nx⟩ | ⟨c, cs, hx, nx, hc, hcs, hlx⟩
    · rw [hx] at hs1
      rcases normalize_cases ys hoy with ⟨hy, ny⟩ | ⟨e, es, hy, ny, he, hes, hly⟩
      · rw [hy] at hs2
        refine ⟨f1, g1, ?_⟩
        simp [compareFiles, nextPair, hs1, hs2, nx, ny, toupper, ERROR]
      · rw [hy] at hs2
        have he2 := toupper_range (toChar_range he)
        have e1 : ¬ (toupper (toChar e) = -1) := by omega
        have e2 : ¬ ((0 : Int) = toupper (toChar e)) := by omega
        have e3 : toupper 0 = 0 := by decide
        refine ⟨f1, g1, ?_⟩
        simp [compareFiles, nextPair, hs1, hs2, nx, ny, ERROR, e1, e2, e3]
    · rw [hx] at hs1 hg1
      have hc2 := toupper_range (toChar_range hc)
      have c1 : ¬ (toupper (toChar c) = -1) := by omega
      have c2 : ¬ (toupper (toChar c) = 0) := by omega
      rcases normalize_cases ys hoy with ⟨hy, ny⟩ | ⟨e, es, hy, ny, he, hes, hly⟩
      · rw [hy] at hs2
        have e3 : toupper 0 = 0 := by decide
        refine ⟨f1, g1, ?_⟩
        simp [compareFiles, nextPair, hs1, hs2, nx, ny, ERROR, c1, c2, e3]
      · rw [hy] at hs2 hg2
        have he2 := toupper_range (toChar_range he)
        have e1 : ¬ (toupper (toChar e) = -1) := by omega
        have e2 : ¬ (toupper (toChar e) = 0) := by omega
        by_cases hce : toupper (toChar c) = toupper (toChar e)
        · obtain ⟨first, second, h5⟩ := ih cs es fuel f1 g1 d1 d2 hg1 hg2 hcs hes
            (by omega) (by omega) (by omega)
          refine ⟨first, second, ?_⟩
          simp only [compareFiles, nextPair, if_true, hs1, hs2, List.head?_cons,
            Option.map_some', Option.getD_some, ERROR, c1, e1, c2, e2, or_self, if_false,
            hce, ne_eq, not_true_eq_false, nx, ny, List.cons.injEq, true_and]
          exact h5
        · refine ⟨f1, g1, ?_⟩
          simp [compareFiles, nextPair, hs1, hs2, nx, ny, ERROR, c1, c2, e1, e2, hce]

/-- With enough fuel `getCmpStat` on two files of bytes in 1..127 returns `classify`. -/
theorem classify_getCmpStat (a b sa sb bufa bufb : List Nat) (fuel : Nat)
    (ha : ∀ x ∈ a, 1 ≤ x ∧ x ≤ 127) (hb : ∀ y ∈ b, 1 ≤ y ∧ y ≤ 127)
    (hfa : a.length < fuel) (hfb : b.length < fuel) :
    getCmpStat fuel (openFile a sa bufa) (openFile b sb bufb) = some (classify a b) := by
  obtain ⟨first, second, xs1, ys1, h1, h2, h3⟩ := compareFiles_exact a b fuel fuel
    (openFile a sa bufa) (openFile b sb bufb) a b (good_open a sa bufa) (good_open b sb bufb)
    ha hb hfa
  by_cases hab : a = b
  · rw [getCmpStat, h1]
    simp [hab, classify, ERROR, TRUE]
  · obtain ⟨f2, g2, h4⟩ := compareFiles_similar fuel a b fuel (resetFilePosition first)
      (resetFilePosition second) a b (good_reset h2) (good_reset h3) ha hb hfa hfa hfb
    rw [getCmpStat, h1]
    simp only [if_neg hab, h4, classify]
    by_cases hn : normalize a = normalize b
    · simp [hn, ERROR, TRUE]
    · simp [hn, ERROR, TRUE]


/-- C21: for two files whose bytes are all in 1..127, whatever the sizes of the
buffer loads (`sa`, `sb`) and the initial contents of the buffers, `getCmpStat`
returns a value; it is `FILES_IDENTICAL` if and only if the byte sequences are
equal; otherwise it is `FILES_SIMILAR` if and only if the sequences are equal
after deleting white space and upper-casing; otherwise it is `FILES_DIFFERENT`;
and it is the value returned when every `read` fills the whole buffer. -/
theorem getCmpStat_classification (a b sa sb bufa bufb : List Nat) (fuel : Nat)
    (ha : ∀ x ∈ a, 1 ≤ x ∧ x ≤ 127) (hb : ∀ y ∈ b, 1 ≤ y ∧ y ≤ 127)
    (hfa : a.length < fuel) (hfb : b.length < fuel) :
    ∃ r, getCmpStat fuel (openFile a sa bufa) (openFile b sb bufb) = some r
      ∧ (r = FILES_IDENTICAL ↔ a = b)
      ∧ (a ≠ b → (r = FILES_SIMILAR ↔ normalize a = normalize b))
      ∧ (a ≠ b → normalize a ≠ normalize b → r = FILES_DIFFERENT)
      ∧ getCmpStat fuel (openFile a [] []) (openFile b [] []) = some r := by
  refine ⟨classify a b, classify_getCmpStat a b sa sb bufa bufb fuel ha hb hfa hfb, ?_, ?_, ?_,
    classify_getCmpStat a b [] [] [] [] fuel ha hb hfa hfb⟩
  · unfold classify
    by_cases hab : a = b
    · simp [hab]
    · by_cases hn : normalize a = normalize b <;>
        simp [hab, hn, FILES_IDENTICAL, FILES_SIMILAR, FILES_DIFFERENT]
  · intro hab
    unfold classify
    by_cases hn : normalize a = normalize b <;>
      simp [hab, hn, FILES_SIMILAR, FILES_DIFFERENT]
  · intro hab hn
    simp [classify, hab, hn]

/-- C21 at "Hi\n" against "h  I", the first file read one byte at a time and
the second two bytes at a time: the result is `FILES_SIMILAR`. -/
theorem getCmpStat_classification_witness :
    (∀ x ∈ [72, 105, 10], 1 ≤ x ∧ x ≤ 127) ∧ (∀ y ∈ [104, 32, 32, 73], 1 ≤ y ∧ y ≤ 127)
      ∧ [72, 105, 10].length < 5 ∧ [104, 32, 32, 73].length < 5
      ∧ ∃ r, getCmpStat 5 (openFile [72, 105, 10] [1, 1, 1] [])
            (openFile [104, 32, 32, 73] [2, 2] [0, 0]) = some r
        ∧ (r = FILES_IDENTICAL ↔ [72, 105, 10] = [104, 32, 32, 73])
        ∧ ([72, 105, 10] ≠ [104, 32, 32, 73] →
            (r = FILES_SIMILAR ↔ normalize [72, 105, 10] = normalize [104, 32, 32, 73]))
        ∧ ([72, 105, 10] ≠ [104, 32, 32, 73] →
            normalize [72, 105, 10] ≠ normalize [104, 32, 32, 73] → r = FILES_DIFFERENT)
        ∧ getCmpStat 5 (openFile [72, 105, 10] [] []) (openFile [104, 32, 32, 73] [] [])
            = some r :=
  ⟨by decide, by decide, by decide, by decide,
    getCmpStat_classification [72, 105, 10] [104, 32, 32, 73] [1, 1, 1] [2, 2] [] [0, 0] 5
      (by decide) (by decide) (by decide) (by decide)⟩

end FileCompare

/-! # Shell argument parsing: `fillArgs` -/

namespace Term

/-- A store inside the array succeeds. -/
theorem writeChar_some (s : Parse) (c : Nat) (h : s.write < s.input.length) :
    writeChar s c = some { s with input := s.input.set s.write c, write := s.write + 1 } := by
  simp [writeChar, store, h]

/-- A store inside `args` succeeds. -/
theorem setArg_some (s : Parse) (v : Option Nat) (h : s.len < s.args.length) :
    setArg s v = some { s with args := s.args.set s.len v } := by
  simp [setArg, store, h]

/-- `skipSpace` returns a suffix. -/
theorem skipSpace_length (l : List Nat) : (skipSpace l).length ≤ l.length := by
  induction l with
  | nil => simp [skipSpace]
  | cons c rest ih =>
    unfold skipSpace
    split
    · simp only [List.length_cons]; omega
    · exact Nat.le_refl _

/-- White space is not a double quote. -/
theorem isspace_ne_dquote {c : Nat} (h : isspace c = true) : c ≠ dquote := by
  intro hc
  subst hc
  revert h
  decide

/-- `skipSpace` skips no double quote. -/
theorem skipSpace_count (l : List Nat) : (skipSpace l).count dquote = l.count dquote := by
  induction l with
  | nil => simp [skipSpace]
  | cons c rest ih =>
    unfold skipSpace
    split
    · rename_i h
      rw [ih, List.count_cons_of_ne (isspace_ne_dquote h).symm]
    · rfl

/-- One turn of the loop stays inside both arrays, consumes at least one character, toggles
`gotQuotes` exactly on a double quote, skips no double quote and never lowers `len`. -/
theorem fillArgsBody_ok (s : Parse) (c : Nat) (rest : List Nat)
    (hw : s.write + (rest.length + 1) < s.input.length)
    (ha : s.len + (rest.length + 1) ≤ s.args.length) :
    ∃ s1, fillArgsBody s c rest = some s1
      ∧ s1.read.length ≤ rest.length
      ∧ (s1.read ≠ [] → s1.write + s1.read.length < s1.input.length)
      ∧ s1.len + s1.read.length ≤ s1.args.length
      ∧ s1.gotQuotes = (s.gotQuotes != decide (c = dquote))
      ∧ s1.read.count dquote = rest.count dquote
      ∧ s.len ≤ s1.len := by
  unfold fillArgsBody
  by_cases hq : c = dquote
  · rw [if_pos hq]
    by_cases he : (!s.gotQuotes) = false ∧ rest = []
    · rw [if_pos he, writeChar_some _ _ (by show s.write < s.input.length; omega)]
      simp only [Option.some_bind]
      rw [setArg_some _ _ (by show s.len < s.args.length; omega)]
      refine ⟨_, rfl, ?_⟩
      simp [he.2, hq]
      omega
    · rw [if_neg he]
      refine ⟨_, rfl, ?_⟩
      simp only [hq, decide_True, Bool.bne_true, le_refl, and_true, true_and]
      refine ⟨fun _ => by omega, by omega⟩
  · rw [if_neg hq]
    by_cases hs : isspace c = true
    · rw [if_pos hs]
      by_cases hg : s.gotQuotes = true
      · rw [if_pos hg, writeChar_some _ _ (by show s.write < s.input.length; omega)]
        refine ⟨_, rfl, ?_⟩
        simp only [hq, decide_False, Bool.bne_false, le_refl, and_true, true_and,
          List.length_set]
        refine ⟨fun _ => by omega, by omega⟩
      · rw [if_neg hg, writeChar_some _ _ (by show s.write < s.input.length; omega)]
        simp only [Option.some_bind]
        rw [setArg_some _ _ (by show s.len < s.args.length; omega)]
        have h1 := skipSpace_length rest
        have h2 : skipSpace (c :: rest) = skipSpace rest := by simp [skipSpace, hs]
        refine ⟨_, rfl, ?_⟩
        simp only [Option.map_some', h2, hq, decide_False, Bool.bne_false, List.length_set,
          skipSpace_count, true_and, h1]
        refine ⟨fun _ => by omega, by omega, by omega⟩
    · rw [if_neg hs, writeChar_some _ _ (by show s.write < s.input.length; omega)]
      simp only [Option.some_bind]
      by_cases he : rest = []
      · rw [if_pos he, writeChar_some _ _ (by
          show s.write + 1 < (s.input.set s.write c).length
          rw [List.length_set]; omega)]
        simp only [Option.some_bind]
        rw [setArg_some _ _ (by show s.len < s.args.length; omega)]
        refine ⟨_, rfl, ?_⟩
        simp [he, hq]
        omega
      · rw [if_neg he]
        refine ⟨_, rfl, ?_⟩
        simp only [hq, decide_False, Bool.bne_false, le_refl, and_true, true_and,
          List.length_set]
        refine ⟨fun _ => by omega, by omega⟩

/-- With enough fuel and room in both arrays the loop ends; `gotQuotes` has then been toggled
once for every double quote that was left to read, and `len` has not decreased. -/
theorem fillArgsLoop_quotes : ∀ (fuel : Nat) (s : Parse), s.read.length < fuel →
    (s.read ≠ [] → s.write + s.read.length < s.input.length) →
    s.len + s.read.length ≤ s.args.length →
    ∃ s1, fillArgsLoop fuel s = some s1
      ∧ s1.gotQuotes = (s.gotQuotes != decide (s.read.count dquote % 2 = 1))
      ∧ s.len ≤ s1.len := by
  intro fuel
  induction fuel with
  | zero => intro s h; omega
  | succ k ih =>
    intro s hf hw ha
    unfold fillArgsLoop
    cases hr : s.read with
    | nil => exact ⟨s, rfl, by simp, Nat.le_refl _⟩
    | cons c rest =>
      rw [hr] at hf hw ha
      simp only [List.length_cons] at hf hw ha
      obtain ⟨s1, h1, h2, h3, h4, h5, h6, h7⟩ :=
        fillArgsBody_ok s c rest (hw (by simp)) ha
      obtain ⟨s2, g1, g2, g3⟩ := ih s1 (by omega) h3 h4
      refine ⟨s2, ?_, ?_, by omega⟩
      · simp only [h1, Option.some_bind]
        exact g1
      · rw [g2, h5, h6]
        by_cases hq : c = dquote
        · subst hq
          simp only [decide_True, Bool.bne_true, List.count_cons_self]
          have hp : decide (rest.count dquote % 2 = 1)
              = !decide ((rest.count dquote + 1) % 2 = 1) := by
            rcases Nat.mod_two_eq_zero_or_one (rest.count dquote) with h | h
            · have h2 : (rest.count dquote + 1) % 2 = 1 := by omega
              simp [h, h2]
            · have h2 : (rest.count dquote + 1) % 2 = 0 := by omega
              simp [h, h2]
          cases s.gotQuotes <;> simp [hp]
        · simp only [hq, decide_False, Bool.bne_false, List.count_cons_of_ne (Ne.symm hq)]


/-- The string of a buffer that holds `str`, a NUL and anything after it is `str`. -/
theorem cstr_append (str junk : List Nat) (h : ∀ c ∈ str, c ≠ 0) :
    cstr (str ++ 0 :: junk) = str := by
  induction str with
  | nil => simp [cstr]
  | cons c rest ih =>
    have hc : c ≠ 0 := h c (List.mem_cons_self _ _)
    have hr := ih fun x hx => h x (List.mem_cons_of_mem _ hx)
    unfold cstr at hr ⊢
    simp only [List.cons_append, List.takeWhile_cons, hc, ne_eq, not_false_eq_true,
      decide_True, if_true, hr]

/-- The first state of the loop of `fillArgs`, for a buffer that holds `str` and an `args` of
`MAX_ARGS + 1` entries. -/
theorem fillArgs_start (str junk : List Nat) (args : List (Option Nat)) (fuel : Nat)
    (hstr : ∀ c ∈ str, c ≠ 0) (hlen : str.length ≤ MAX_INPUT)
    (hargs : args.length = MAX_ARGS + 1) :
    fillArgs fuel (str ++ 0 :: junk) args
      = (fillArgsLoop fuel
          { read := skipSpace str, input := str ++ 0 :: junk, write := 0,
            args := args.set 0 (some 0), len := 1, gotQuotes := false }).map fun s =>
          { ret := if s.gotQuotes then ERROR else (s.len : Int), input := s.input,
            args := s.args } := by
  have h0 : ¬ (0 ∉ str ++ 0 :: junk ∨ MAX_INPUT < (cstr (str ++ 0 :: junk)).length) := by
    rw [cstr_append str junk hstr]
    simp
    omega
  unfold fillArgs
  rw [if_neg h0, cstr_append str junk hstr, setArg_some _ _ (by
    show 0 < args.length
    rw [hargs]; exact Nat.succ_pos _)]
  rfl

/-- Storing at the end of a prefix extends the prefix. -/
theorem take_set_succ {α : Type} (l : List α) (w : Nat) (c : α) (h : w < l.length) :
    (l.set w c).take (w + 1) = l.take w ++ [c] := by
  induction l generalizing w with
  | nil => simp at h
  | cons a rest ih =>
    cases w with
    | zero => simp
    | succ v =>
      simp only [List.set_cons_succ, List.take_succ_cons, List.cons_append, List.cons.injEq,
        true_and]
      exact ih v (by simpa using h)

/-- Leading white space starts no run. -/
theorem runsAux_skipSpace (l : List Nat) : runsAux [] (skipSpace l) = runsAux [] l := by
  induction l with
  | nil => rfl
  | cons c rest ih =>
    by_cases h : isspace c = true
    · simp [skipSpace, runsAux, h, ih]
    · simp [skipSpace, h]

/-- After `skipSpace`, a string that ends in a character that is not white space is not
empty, starts with a character that is not white space and ends as before. -/
theorem skipSpace_trim (l : List Nat) (h : (l.getLast?.map isspace) = some false) :
    ((skipSpace l).head?.map isspace) = some false
      ∧ ((skipSpace l).getLast?.map isspace) = some false
      ∧ ∀ c ∈ skipSpace l, c ∈ l := by
  induction l with
  | nil => simp at h
  | cons c rest ih =>
    by_cases hs : isspace c = true
    · have hr : rest ≠ [] := by
        intro hr
        subst hr
        simp [hs] at h
      obtain ⟨d, rest2, rfl⟩ := List.exists_cons_of_ne_nil hr
      rw [List.getLast?_cons_cons] at h
      obtain ⟨h1, h2, h3⟩ := ih h
      have e : skipSpace (c :: d :: rest2) = skipSpace (d :: rest2) := by
        simp [skipSpace, hs]
      rw [e]
      exact ⟨h1, h2, fun x hx => List.mem_cons_of_mem _ (h3 x hx)⟩
    · have e : skipSpace (c :: rest) = c :: rest := by simp [skipSpace, hs]
      rw [e]
      refine ⟨by simpa using hs, h, fun x hx => hx⟩


/-- The loop of `fillArgs` on what is left of a string without double quotes that ends in a
character that is not white space: `pre` is what was written before the argument being read,
`cur` is what was written of that argument, `A` are the pointers to the arguments before it.
With enough fuel and room the loop ends, having written the runs of the rest of the string,
the pointers to them and a `NULL` after the last. -/
theorem fillArgsLoop_words : ∀ (fuel : Nat) (rd mem : List Nat) (w : Nat)
    (args : List (Option Nat)) (len : Nat) (pre cur : List Nat) (A : List (Option Nat)),
    rd.length < fuel → (∀ c ∈ rd, c ≠ dquote) →
    (rd.getLast?.map isspace) = some false →
    (cur = [] → (rd.head?.map isspace) = some false) →
    w = pre.length + cur.length → mem.take w = pre ++ cur → w + rd.length < mem.length →
    len = A.length + 1 → args.take len = A ++ [some pre.length] →
    len + rd.length ≤ args.length →
    ∃ s1, fillArgsLoop fuel
        { read := rd, input := mem, write := w, args := args, len := len, gotQuotes := false }
          = some s1
      ∧ s1.gotQuotes = false
      ∧ s1.len = A.length + (runsAux cur rd).length
      ∧ s1.input.take (pre.length + (layout (runsAux cur rd)).length)
          = pre ++ layout (runsAux cur rd)
      ∧ s1.args.take (s1.len + 1) = A ++ offsets pre.length (runsAux cur rd) ++ [none] := by
  intro fuel
  induction fuel with
  | zero => intro rd mem w args len pre cur A h; omega
  | succ k ih =>
    intro rd mem w args len pre cur A hf hq hlast hhead hw hpre hroom hlen hargs haroom
    cases rd with
    | nil => simp at hlast
    | cons c rest =>
      have hcq : c ≠ dquote := hq c (List.mem_cons_self _ _)
      have hrq : ∀ x ∈ rest, x ≠ dquote := fun x hx => hq x (List.mem_cons_of_mem _ hx)
      simp only [List.length_cons] at hf hroom haroom
      unfold fillArgsLoop
      simp only []
      unfold fillArgsBody
      simp only [if_neg hcq]
      by_cases hs : isspace c = true
      · -- white space outside quotes ends the argument being read
        have hcur : cur ≠ [] := by
          intro hc
          have := hhead hc
          simp [hs] at this
        have hr : rest ≠ [] := by
          intro hr
          subst hr
          simp [hs] at hlast
        obtain ⟨d, rest2, rfl⟩ := List.exists_cons_of_ne_nil hr
        rw [List.getLast?_cons_cons] at hlast
        obtain ⟨t1, t2, t3⟩ := skipSpace_trim (d :: rest2) hlast
        have hsl := skipSpace_length (d :: rest2)
        simp only [List.length_cons] at hf hroom haroom hsl
        have e : skipSpace (c :: d :: rest2) = skipSpace (d :: rest2) := by
          simp [skipSpace, hs]
        have hR : runsAux cur (c :: d :: rest2) = cur :: runsAux [] (skipSpace (d :: rest2)) := by
          rw [runsAux_skipSpace]
          simp [runsAux, hs, hcur]
        rw [hR]
        simp only [if_pos hs, Bool.false_eq_true, if_false, e]
        rw [writeChar_some _ _ (by show w < mem.length; omega)]
        simp only [Option.some_bind]
        rw [setArg_some _ _ (by show len < args.length; omega)]
        simp only [Option.map_some']
        obtain ⟨s1, g1, g2, g3, g4, g5⟩ := ih (skipSpace (d :: rest2)) (mem.set w 0) (w + 1)
          (args.set len (some (w + 1))) (len + 1) (pre ++ cur ++ [0]) [] (A ++ [some pre.length])
          (by omega)
          (fun x hx => hrq x (t3 x hx)) t2 (fun _ => t1)
          (by simp; omega)
          (by rw [take_set_succ _ _ _ (by omega), hpre]; simp)
          (by rw [List.length_set]; omega)
          (by simp; omega)
          (by
            rw [take_set_succ _ _ _ (by omega), hargs]
            simp
            omega)
          (by rw [List.length_set]; omega)
        refine ⟨s1, g1, g2, ?_, ?_, ?_⟩
        · rw [g3]; simp; omega
        · have e2 : pre.length + (layout (cur :: runsAux [] (skipSpace (d :: rest2)))).length
              = (pre ++ cur ++ [0]).length
                + (layout (runsAux [] (skipSpace (d :: rest2)))).length := by
            simp [layout]; omega
          rw [e2, g4]
          simp [layout]
        · rw [g5]
          have e3 : (pre ++ cur ++ [0]).length = pre.length + cur.length + 1 := by
            simp only [List.length_append, List.length_singleton]
          rw [e3]
          simp [offsets]
      · -- any other character is copied
        simp only [if_neg hs]
        rw [writeChar_some _ _ (by show w < mem.length; omega)]
        simp only [Option.some_bind]
        have hR : runsAux cur (c :: rest) = runsAux (cur ++ [c]) rest := by
          simp [runsAux, hs]
        rw [hR]
        by_cases he : rest = []
        · subst he
          simp only [if_true]
          rw [writeChar_some _ _ (by
            show w + 1 < (mem.set w c).length
            rw [List.length_set]; simp at hroom; omega)]
          simp only [Option.some_bind]
          rw [setArg_some _ _ (by show len < args.length; simp at haroom; omega)]
          simp only [Option.some_bind]
          obtain ⟨j, rfl⟩ : ∃ j, k = j + 1 := ⟨k - 1, by simp at hf; omega⟩
          refine ⟨_, rfl, rfl, ?_, ?_, ?_⟩
          · show len = _
            simp [runsAux, hlen]
          · show (((mem.set w c).set (w + 1) 0)).take _ = _
            have e2 : pre.length + (layout (runsAux (cur ++ [c]) [])).length = w + 1 + 1 := by
              simp [runsAux, layout]; omega
            rw [e2, take_set_succ _ _ _ (by
              rw [List.length_set]; simp at hroom; omega),
              take_set_succ _ _ _ (by omega), hpre]
            simp [runsAux, layout]
          · show (args.set len none).take (len + 1) = _
            rw [take_set_succ _ _ _ (by simp at haroom; omega), hargs]
            simp [runsAux, offsets]
        · simp only [if_neg he]
          obtain ⟨d, rest2, rfl⟩ := List.exists_cons_of_ne_nil he
          rw [List.getLast?_cons_cons] at hlast
          exact ih (d :: rest2) (mem.set w c) (w + 1) args len pre (cur ++ [c]) A
            (by simp only [List.length_cons] at hf ⊢; omega) hrq hlast
            (fun h => by simp at h)
            (by simp; omega)
            (by rw [take_set_succ _ _ _ (by omega), hpre]; simp)
            (by rw [List.length_set]; simp only [List.length_cons] at hroom ⊢; omega)
            hlen hargs
            (by simp only [List.length_cons] at haroom ⊢; omega)

/-- Reading characters that are not white space extends the run being read. -/
theorem runsAux_append (w : List Nat) (hw : ∀ c ∈ w, isspace c = false) :
    ∀ (cur l : List Nat), runsAux cur (w ++ l) = runsAux (cur ++ w) l := by
  induction w with
  | nil => intro cur l; simp
  | cons a rest ih =>
    intro cur l
    have ha : isspace a = false := hw a (List.mem_cons_self _ _)
    have e := ih (fun c hc => hw c (List.mem_cons_of_mem _ hc)) (cur ++ [a]) l
    have e2 : runsAux cur (a :: (rest ++ l)) = runsAux (cur ++ [a]) (rest ++ l) := by
      simp [runsAux, ha]
    rw [List.cons_append, e2, e]
    simp

/-- White space before the first run is dropped by `runs`. -/
theorem runs_space (sp : Nat) (l : List Nat) (hs : isspace sp = true) :
    runs (sp :: l) = runs l := by
  simp [runs, runsAux, hs]

/-- A non-empty run followed by white space is the first of the `runs`. -/
theorem runs_word_space (w : List Nat) (sp : Nat) (l : List Nat) (hne : w ≠ [])
    (hw : ∀ c ∈ w, isspace c = false) (hs : isspace sp = true) :
    runs (w ++ sp :: l) = w :: runs l := by
  unfold runs
  rw [runsAux_append w hw]
  simp [runsAux, hs, hne]

/-- A non-empty string without white space is its only run. -/
theorem runs_word (w : List Nat) (hne : w ≠ []) (hw : ∀ c ∈ w, isspace c = false) :
    runs w = [w] := by
  have e := runsAux_append w hw [] []
  simp only [List.append_nil, List.nil_append] at e
  unfold runs
  rw [e]
  simp [runsAux, hne]

/-- There is one offset for every string laid out. -/
theorem offsets_length (R : List (List Nat)) : ∀ p, (offsets p R).length = R.length := by
  induction R with
  | nil => intro p; rfl
  | cons w R ih => intro p; simp [offsets, ih]

/-- The characters of the runs are characters of the string. -/
theorem runsAux_mem (rd : List Nat) : ∀ cur, ∀ x ∈ runsAux cur rd, ∀ c ∈ x, c ∈ cur ∨ c ∈ rd := by
  induction rd with
  | nil =>
    intro cur x hx c hc
    by_cases h : cur = []
    · simp [runsAux, h] at hx
    · simp only [runsAux, h, if_false, List.mem_singleton] at hx
      subst hx
      exact Or.inl hc
  | cons a rest ih =>
    intro cur x hx c hc
    by_cases hs : isspace a = true
    · by_cases h : cur = []
      · simp only [runsAux, hs, h, if_true] at hx
        rcases ih [] x hx c hc with h1 | h1
        · simp at h1
        · exact Or.inr (List.mem_cons_of_mem _ h1)
      · simp only [runsAux, hs, h, if_true, if_false, List.mem_cons] at hx
        rcases hx with rfl | hx
        · exact Or.inl hc
        · rcases ih [] x hx c hc with h1 | h1
          · simp at h1
          · exact Or.inr (List.mem_cons_of_mem _ h1)
    · simp only [runsAux, hs, Bool.false_eq_true, if_false] at hx
      rcases ih (cur ++ [a]) x hx c hc with h1 | h1
      · rcases List.mem_append.mp h1 with h2 | h2
        · exact Or.inl h2
        · rw [List.mem_singleton.mp h2]
          exact Or.inr (List.mem_cons_self _ _)
      · exact Or.inr (List.mem_cons_of_mem _ h1)

/-- In a buffer that holds, after `pre`, the layout of strings without NUL, the string at the
`k`-th offset is the `k`-th string. -/
theorem cstrAt_layout (R : List (List Nat)) : ∀ (pre tail : List Nat) (k : Nat) (w : List Nat),
    (∀ x ∈ R, ∀ c ∈ x, c ≠ 0) → R[k]? = some w →
    ∃ p, (offsets pre.length R)[k]? = some (some p)
      ∧ cstrAt (pre ++ layout R ++ tail) p = some w := by
  induction R with
  | nil => intro pre tail k w _ h; simp at h
  | cons w0 R ih =>
    intro pre tail k w hz hk
    cases k with
    | zero =>
      simp only [List.getElem?_cons_zero, Option.some.injEq] at hk
      subst hk
      refine ⟨pre.length, by simp [offsets], ?_⟩
      have e : (pre ++ layout (w0 :: R) ++ tail).drop pre.length
          = w0 ++ 0 :: (layout R ++ tail) := by
        simp [layout]
      unfold cstrAt
      rw [e, if_pos (by simp), cstr_append _ _ (hz w0 (List.mem_cons_self _ _))]
    | succ j =>
      simp only [List.getElem?_cons_succ] at hk
      obtain ⟨p, h1, h2⟩ := ih (pre ++ w0 ++ [0]) tail j w
        (fun x hx => hz x (List.mem_cons_of_mem _ hx)) hk
      refine ⟨p, ?_, ?_⟩
      · have e : (pre ++ w0 ++ [0]).length = pre.length + w0.length + 1 := by
          simp only [List.length_append, List.length_singleton]
        rw [e] at h1
        simpa [offsets] using h1
      · have e : pre ++ layout (w0 :: R) ++ tail = pre ++ w0 ++ [0] ++ layout R ++ tail := by
          simp [layout]
        rw [e]
        exact h2

/-- An element of a prefix is an element of the list. -/
theorem getElem_opt_of_take {α : Type} (l xs : List α) (m k : Nat) (h : l.take m = xs)
    (hk : k < xs.length) : l[k]? = xs[k]? := by
  subst h
  rw [List.length_take] at hk
  rw [List.getElem?_take_of_lt (by omega)]

/-- A string that starts with a character that is not white space is left alone by
`skipSpace`. -/
theorem skipSpace_id (l : List Nat) (h : (l.head?.map isspace) = some false) :
    skipSpace l = l := by
  cases l with
  | nil => rfl
  | cons c rest =>
    have hc : isspace c = false := by simpa using h
    simp [skipSpace, hc]

/-- C22: for every input string of at most `MAX_INPUT` characters, in a buffer that holds
the string and its NUL, and an `args` of `MAX_ARGS + 1` entries, `fillArgs` returns; it returns
`ERROR` if and only if the string holds an odd number of double quotes, and otherwise a count
of at least 1. -/
theorem fillArgs_quote_balance (str junk : List Nat) (args : List (Option Nat)) (fuel : Nat)
    (hstr : ∀ c ∈ str, c ≠ 0) (hlen : str.length ≤ MAX_INPUT)
    (hargs : args.length = MAX_ARGS + 1) (hfuel : str.length < fuel) :
    ∃ r, fillArgs fuel (str ++ 0 :: junk) args = some r
      ∧ (r.ret = ERROR ↔ str.count dquote % 2 = 1)
      ∧ (r.ret ≠ ERROR → 1 ≤ r.ret) := by
  have hs := skipSpace_length str
  have hM : MAX_INPUT = 100 := rfl
  have hA : MAX_ARGS = 100 := rfl
  obtain ⟨s1, h1, h2, h3⟩ := fillArgsLoop_quotes fuel
    { read := skipSpace str, input := str ++ 0 :: junk, write := 0,
      args := args.set 0 (some 0), len := 1, gotQuotes := false }
    (by show (skipSpace str).length < fuel; omega)
    (fun _ => by
      show 0 + (skipSpace str).length < (str ++ 0 :: junk).length
      simp only [List.length_append, List.length_cons]; omega)
    (by
      show 1 + (skipSpace str).length ≤ (args.set 0 (some 0)).length
      rw [List.length_set, hargs]; omega)
  rw [fillArgs_start str junk args fuel hstr hlen hargs, h1]
  refine ⟨_, rfl, ?_, ?_⟩
  · show (if s1.gotQuotes then ERROR else (s1.len : Int)) = ERROR ↔ _
    rw [h2]
    simp only [Bool.false_bne, skipSpace_count, decide_eq_true_eq]
    have h4 : (1 : Nat) ≤ s1.len := h3
    by_cases hp : str.count dquote % 2 = 1
    · simp [hp]
    · simp only [hp, if_false, iff_false, ERROR]
      omega
  · show (if s1.gotQuotes then ERROR else (s1.len : Int)) ≠ ERROR →
      1 ≤ (if s1.gotQuotes then ERROR else (s1.len : Int))
    have h4 : (1 : Nat) ≤ s1.len := h3
    cases s1.gotQuotes
    · intro _
      show (1 : Int) ≤ (s1.len : Int)
      omega
    · intro h
      exact absurd rfl h

/-- C22 at the string `echo "a`, which has one double quote. -/
theorem fillArgs_quote_balance_witness :
    (∀ c ∈ [101, 99, 104, 111, 32, 34, 97], c ≠ 0)
      ∧ [101, 99, 104, 111, 32, 34, 97].length ≤ MAX_INPUT
      ∧ (List.replicate 101 (none : Option Nat)).length = MAX_ARGS + 1
      ∧ [101, 99, 104, 111, 32, 34, 97].length < 8
      ∧ ∃ r, fillArgs 8 ([101, 99, 104, 111, 32, 34, 97] ++ 0 :: [7, 7]) (List.replicate 101 none)
            = some r
        ∧ (r.ret = ERROR ↔ [101, 99, 104, 111, 32, 34, 97].count dquote % 2 = 1)
        ∧ (r.ret ≠ ERROR → 1 ≤ r.ret) :=
  ⟨by decide, by decide, by rfl, by decide,
    fillArgs_quote_balance [101, 99, 104, 111, 32, 34, 97] [7, 7] (List.replicate 101 none) 8
      (by decide) (by decide) (by rfl) (by decide)⟩

/-- C23: for every input of at most `MAX_INPUT` characters that has no double quote, starts
with a character that is not white space and ends with one, `fillArgs` returns the number `n`
of maximal runs of characters that are not white space; for every `k < n` the entry `args[k]`
points to a NUL-terminated string in the buffer that is the `k`-th run; and `args[n]` is
`NULL`. -/
theorem fillArgs_tokens (str junk : List Nat) (args : List (Option Nat)) (fuel : Nat)
    (hstr : ∀ c ∈ str, c ≠ 0) (hq : dquote ∉ str)
    (hhead : (str.head?.map isspace) = some false)
    (hlast : (str.getLast?.map isspace) = some false)
    (hlen : str.length ≤ MAX_INPUT) (hargs : args.length = MAX_ARGS + 1)
    (hfuel : str.length < fuel) :
    ∃ r, fillArgs fuel (str ++ 0 :: junk) args = some r
      ∧ r.ret = ((runs str).length : Int)
      ∧ (∀ k, k < (runs str).length → argString r k = (runs str)[k]?)
      ∧ r.args[(runs str).length]? = some none := by
  have hM : MAX_INPUT = 100 := rfl
  have hA : MAX_ARGS = 100 := rfl
  obtain ⟨s1, h1, h2, h3, h4, h5⟩ := fillArgsLoop_words fuel str (str ++ 0 :: junk) 0
    (args.set 0 (some 0)) 1 [] [] [] hfuel (fun c hc h => hq (h ▸ hc)) hlast (fun _ => hhead)
    rfl rfl (by simp) rfl
    (by
      have := take_set_succ args 0 (some 0) (by omega)
      simpa using this)
    (by rw [List.length_set]; omega)
  have hz : ∀ x ∈ runs str, ∀ c ∈ x, c ≠ 0 := by
    intro x hx c hc
    rcases runsAux_mem str [] x hx c hc with h | h
    · simp at h
    · exact hstr c h
  have hmem : s1.input = [] ++ layout (runs str) ++ s1.input.drop (layout (runs str)).length := by
    have := List.take_append_drop (layout (runs str)).length s1.input
    simp only [List.length_nil, Nat.zero_add, List.nil_append] at h4
    rw [show runsAux [] str = runs str from rfl] at h4
    rw [h4] at this
    simpa using this.symm
  have hlen1 : s1.len = (runs str).length := by
    rw [h3]; simp [runs]
  have hargs1 : s1.args.take ((runs str).length + 1) = offsets 0 (runs str) ++ [none] := by
    rw [← hlen1, h5]; simp [runs]
  rw [fillArgs_start str junk args fuel hstr hlen hargs, skipSpace_id str hhead, h1]
  refine ⟨_, rfl, ?_, ?_, ?_⟩
  · show (if s1.gotQuotes then ERROR else (s1.len : Int)) = _
    rw [h2, hlen1]
    simp
  · intro k hk
    obtain ⟨w, hw⟩ : ∃ w, (runs str)[k]? = some w := ⟨(runs str)[k], List.getElem?_eq_getElem hk⟩
    obtain ⟨p, g1, g2⟩ := cstrAt_layout (runs str) [] (s1.input.drop (layout (runs str)).length)
      k w hz hw
    have g3 : s1.args[k]? = some (some p) := by
      rw [getElem_opt_of_take _ _ _ k hargs1 (by simp [offsets_length]; omega),
        List.getElem?_append_left (by rw [offsets_length]; exact hk)]
      exact g1
    show (s1.args.getD k none).bind (cstrAt s1.input) = _
    rw [List.getD_eq_getElem?_getD, g3, hw, hmem]
    exact g2
  · show s1.args[(runs str).length]? = some none
    rw [getElem_opt_of_take _ _ _ _ hargs1 (by simp [offsets_length]),
      List.getElem?_append_right (by rw [offsets_length])]
    simp [offsets_length]

/-- C23 at the string `ls -l   foo`: three runs. -/
theorem fillArgs_tokens_witness :
    (∀ c ∈ [108, 115, 32, 45, 108, 32, 32, 32, 102, 111, 111], c ≠ 0)
      ∧ dquote ∉ [108, 115, 32, 45, 108, 32, 32, 32, 102, 111, 111]
      ∧ ([108, 115, 32, 45, 108, 32, 32, 32, 102, 111, 111].head?.map isspace) = some false
      ∧ ([108, 115, 32, 45, 108, 32, 32, 32, 102, 111, 111].getLast?.map isspace) = some false
      ∧ [108, 115, 32, 45, 108, 32, 32, 32, 102, 111, 111].length ≤ MAX_INPUT
      ∧ (List.replicate 101 (some 0)).length = MAX_ARGS + 1
      ∧ [108, 115, 32, 45, 108, 32, 32, 32, 102, 111, 111].length < 12
      ∧ ∃ r, fillArgs 12 ([108, 115, 32, 45, 108, 32, 32, 32, 102, 111, 111] ++ 0 :: [])
            (List.replicate 101 (some 0)) = some r
        ∧ r.ret = ((runs [108, 115, 32, 45, 108, 32, 32, 32, 102, 111, 111]).length : Int)
        ∧ (∀ k, k < (runs [108, 115, 32, 45, 108, 32, 32, 32, 102, 111, 111]).length →
            argString r k = (runs [108, 115, 32, 45, 108, 32, 32, 32, 102, 111, 111])[k]?)
        ∧ r.args[(runs [108, 115, 32, 45, 108, 32, 32, 32, 102, 111, 111]).length]?
            = some none :=
  ⟨by decide, by decide, by decide, by decide, by decide, by rfl, by decide,
    fillArgs_tokens [108, 115, 32, 45, 108, 32, 32, 32, 102, 111, 111] []
      (List.replicate 101 (some 0)) 12
      (by decide) (by decide) (by decide) (by decide) (by decide) (by rfl) (by decide)⟩

end Term
